import Mathlib

/-!
Shallow embedding of `src/algo.py`: preference construction (`generate_prefs`),
the Probabilistic Serial eating mechanism (`run_ps`), representative splitting
(`representative`), the augmenting-path bipartite matcher
(`connected`/`allowable`/`augment`/`hopcroft_karp`), representative collapsing
(`reduce`) and the Birkhoff–von-Neumann style decomposition (`decompose`).

Conventions of the embedding:
* Python `Fraction` arithmetic is `ℚ` (exact rationals).
* Python exceptions (IndexError on `utils[0]`, ValueError on `min([])`,
  IndexError on out-of-range / far-negative indices, `l[0]` on an empty list)
  are modelled by `Option`, with `none` denoting the raised exception.
* `while` loops are modelled with an explicit fuel argument large enough that,
  on the inputs the claims quantify over, the fuel is provably never exhausted;
  `none` is also returned on fuel exhaustion (non-termination).
* List reads that are in range on every input reachable by the claims are
  written with `getD`; reads whose out-of-range behaviour is itself the subject
  of a claim use `pyGet`/`pySet`, which implement Python's negative-index
  semantics exactly.
* Python's `sorted` (a stable sort) is embedded as `List.insertionSort`, also a
  stable sort; the sort key used by the code is injective on each input list
  (distinct indices), so every stable sort produces the same output list.
* Iteration over `Counter.most_common()` only computes a running minimum, which
  is independent of iteration order; the embedding iterates over the favourite
  items in first-occurrence order (`dedup`).
-/

set_option maxHeartbeats 1000000

-- Batteries marks rational arithmetic irreducible; restore the default
-- reducibility so that concrete runs of the embedded code reduce by `decide`.
set_option allowUnsafeReducibility true

attribute [semireducible] Rat.add Rat.sub Rat.mul Rat.inv

namespace Algo

/-- Left-to-right effectful map over `Option`, failing at the first failing
element (the evaluation order of a Python list comprehension). -/
def mapOpt (f : α → Option β) : List α → Option (List β)
  | [] => some []
  | x :: xs => do
    let y ← f x
    let ys ← mapOpt f xs
    pure (y :: ys)

/-- Python `min` on a list; `none` models the `ValueError` on an empty list. -/
def listMin : List ℚ → Option ℚ
  | [] => none
  | x :: xs => some (xs.foldl min x)

/-- The sort key used by `generate_prefs`: pairs `(utility, index)` ordered by
`(-utility, index)` ascending, i.e. descending utility with ascending index as
tie break. -/
def prefRel (a b : ℚ × ℕ) : Prop := b.1 < a.1 ∨ (a.1 = b.1 ∧ a.2 ≤ b.2)

instance : DecidableRel prefRel := fun a b =>
  inferInstanceAs (Decidable (b.1 < a.1 ∨ (a.1 = b.1 ∧ a.2 ≤ b.2)))

instance : IsTotal (ℚ × ℕ) prefRel where
  total a b := by
    rcases lt_trichotomy a.1 b.1 with h | h | h
    · exact Or.inr (Or.inl h)
    · rcases le_total a.2 b.2 with h2 | h2
      · exact Or.inl (Or.inr ⟨h, h2⟩)
      · exact Or.inr (Or.inr ⟨h.symm, h2⟩)
    · exact Or.inl (Or.inl h)

instance : IsTrans (ℚ × ℕ) prefRel where
  trans a b c hab hbc := by
    rcases hab with h1 | ⟨e1, l1⟩
    · rcases hbc with h2 | ⟨e2, l2⟩
      · exact Or.inl (h2.trans h1)
      · exact Or.inl (e2 ▸ h1)
    · rcases hbc with h2 | ⟨e2, l2⟩
      · exact Or.inl (e1 ▸ h2)
      · exact Or.inr ⟨e1.trans e2, l1.trans l2⟩

/-- One ranked row of `generate_prefs`: sort the `(paddedUtility, index)`
pairs by the key above and keep the index component. -/
def rankRow (t : ℕ) (padded : List ℚ) : List ℕ :=
  ((padded.zip (List.range t)).insertionSort prefRel).map Prod.snd

/-- `generate_prefs(utils)`: returns `(n, m, c, ordinal profile)`.
`none` models the `IndexError` on `utils[0]` (empty input) and the
`ValueError` of `min` on an empty row. `c = ceil(m / n)` exactly. -/
def generate_prefs (utils : List (List ℚ)) : Option (ℕ × ℕ × ℕ × List (List ℕ)) :=
  match utils with
  | [] => none
  | l0 :: rest => do
    let n := (l0 :: rest).length
    let m := l0.length
    let mins ← mapOpt listMin (l0 :: rest)
    let minUtil ← listMin mins
    let c := (m + n - 1) / n
    let t := c * n
    let dummy := List.replicate (t - m) (minUtil - 1)
    pure (n, m, c, (l0 :: rest).map (fun l => rankRow t (l ++ dummy)))

/-- The step size of one `run_ps` round: the running minimum, starting from 1,
of `objs[x] / count(x)` over the currently favoured items `x`. -/
def toEat (objs : List ℚ) (favs : List ℕ) : ℚ :=
  (favs.dedup.map (fun x => objs.getD x 0 / (favs.count x : ℚ))).foldl min 1

/-- The eating loop of one `run_ps` round: every agent adds `te` to its
allocation of its favourite item and subtracts `te` from that item's supply
(sequentially, as in the source). `none` models the `IndexError` of `l[0]` on
an empty preference row, and a row-count mismatch. -/
def eatStep (te : ℚ) : List (List ℕ) → List (List ℚ) → List ℚ →
    Option (List (List ℚ) × List ℚ)
  | [], [], objs => some ([], objs)
  | prow :: prest, arow :: arest, objs =>
    match prow with
    | [] => none
    | fav :: _ =>
      match eatStep te prest arest (objs.set fav (objs.getD fav 0 - te)) with
      | none => none
      | some (arest2, objs2) => some ((arow.set fav (arow.getD fav 0 + te)) :: arest2, objs2)
  | _, _, _ => none

/-- One full iteration of the `run_ps` while loop. -/
def psStep (prefs : List (List ℕ)) (objs : List ℚ) (alloc : List (List ℚ)) :
    Option (List (List ℕ) × List ℚ × List (List ℚ)) := do
  let favs ← mapOpt List.head? prefs
  let te := toEat objs favs
  let (alloc2, objs2) ← eatStep te prefs alloc objs
  pure (prefs.map (fun y => y.filter (fun x => decide (objs2.getD x 0 ≠ 0))), objs2, alloc2)

/-- The fueled `run_ps` while loop. -/
def runPSAux : ℕ → List (List ℕ) → List ℚ → List (List ℚ) → Option (List (List ℚ))
  | 0, _, _, _ => none
  | fuel + 1, prefs, objs, alloc =>
    match prefs with
    | [] => none
    | p0 :: _ =>
      if p0 = [] then some alloc
      else
        match psStep prefs objs alloc with
        | none => none
        | some (prefs2, objs2, alloc2) => runPSAux fuel prefs2 objs2 alloc2

/-- `run_ps(n, c, const_prefs)`: the source deep-copies `const_prefs` and
mutates only the copy, so the embedding consumes its argument purely.
Fuel `c*n + 1` suffices because each round exhausts at least one item. -/
def run_ps (n c : ℕ) (constPrefs : List (List ℕ)) : Option (List (List ℚ)) :=
  runPSAux (c * n + 1) constPrefs (List.replicate (c * n) 1)
    (List.replicate n (List.replicate (c * n) 0))

/-- The inner while loop of `representative`: one representative eats `amt`
units from the agent's remaining preference row. Returns the representative's
row, the remaining preference row and the remaining allocation row. `none`
models the `IndexError` of `prefs[agent][0]` on an exhausted row. -/
def eatRep : List ℕ → List ℚ → ℚ → List ℚ → Option (List ℚ × List ℕ × List ℚ)
  | [], arow, amt, sub => if amt ≤ 0 then some (sub, [], arow) else none
  | cur :: rest, arow, amt, sub =>
    if amt ≤ 0 then some (sub, cur :: rest, arow)
    else
      let v := arow.getD cur 0
      if amt < v then some (sub.set cur amt, cur :: rest, arow.set cur (v - amt))
      else eatRep rest (arow.set cur 0) (amt - v) (sub.set cur v)

/-- The `c` representatives of one agent, in order. -/
def repAgent (t : ℕ) : ℕ → List ℕ → List ℚ → Option (List (List ℚ) × List ℕ × List ℚ)
  | 0, prow, arow => some ([], prow, arow)
  | k + 1, prow, arow => do
    let (sub, prow1, arow1) ← eatRep prow arow 1 (List.replicate t 0)
    let (subs, prow2, arow2) ← repAgent t k prow1 arow1
    pure (sub :: subs, prow2, arow2)

/-- Agent-major iteration of `representative`; also returns the final states of
the (mutated, caller-visible) preference and allocation matrices. -/
def representativeAux (t c : ℕ) : List (List ℕ) → List (List ℚ) →
    Option (List (List ℚ) × List (List ℕ) × List (List ℚ))
  | [], [] => some ([], [], [])
  | prow :: ps, arow :: as_ => do
    let (subs, prow1, arow1) ← repAgent t c prow arow
    let (rest, ps1, as1) ← representativeAux t c ps as_
    pure (subs ++ rest, prow1 :: ps1, arow1 :: as1)
  | _, _ => none

/-- `representative(prefs, alloc, n, c)` in state-passing form: the result
rows, together with the final contents of the caller's `prefs` and `alloc`
(the source pops from `prefs[agent]` and zeroes `alloc[agent]` in place). -/
def representative (prefs : List (List ℕ)) (alloc : List (List ℚ)) (n c : ℕ) :
    Option (List (List ℚ) × List (List ℕ) × List (List ℚ)) :=
  representativeAux (c * n) c prefs alloc

/-- Matrix entry accessor (`alloc[i][j]` where both indices are in range). -/
def ent (a : List (List ℚ)) (i j : ℕ) : ℚ := (a.getD i []).getD j 0

/-- `connected(alloc, u, v, n)`: the support-graph adjacency test. -/
def connected (alloc : List (List ℚ)) (u v n : ℕ) : Bool :=
  if u < n then decide (0 < ent alloc u (v - n)) else decide (0 < ent alloc v (u - n))

/-- `allowable(match, u, v, n)`: left-to-right only on non-matched edges,
right-to-left only on the matched edge. -/
def allowable (mtch : List ℤ) (u v n : ℕ) : Bool :=
  if u < n then !(mtch.getD u (-1) == (v : ℤ)) else (mtch.getD v (-1) == (u : ℤ))

/-- One iteration of the BFS inner `for` loop: skip disconnected edges,
disallowed moves and already-found vertices; otherwise enqueue `i`, mark it
found and record its predecessor `v`. -/
def scanStep (alloc : List (List ℚ)) (mtch : List ℤ) (n v : ℕ)
    (st : List ℕ × List Bool × List ℤ) (i : ℕ) : List ℕ × List Bool × List ℤ :=
  let (q, found, pred) := st
  if !(connected alloc v i n) then (q, found, pred)
  else if !(allowable mtch v i n) then (q, found, pred)
  else if found.getD i false then (q, found, pred)
  else (q ++ [i], found.set i true, pred.set i (v : ℤ))

/-- The inner `for` loop of the BFS in `augment`: scan the `n` vertices on the
other side of `v`, enqueueing the connected, allowable, not-yet-found ones. -/
def scanNbrs (alloc : List (List ℚ)) (mtch : List ℤ) (n v base : ℕ)
    (st : List ℕ × List Bool × List ℤ) : List ℕ × List Bool × List ℤ :=
  (List.range' base n).foldl (scanStep alloc mtch n v) st

/-- The fueled BFS while loop of `augment`. Returns the final `found` and
`pred` arrays and `end` (`-1` when no unmatched right vertex was reached). -/
def bfsLoop (alloc : List (List ℚ)) (mtch : List ℤ) (n : ℕ) :
    ℕ → List ℕ → List Bool → List ℤ → List Bool × List ℤ × ℤ
  | 0, _, found, pred => (found, pred, -1)
  | fuel + 1, q, found, pred =>
    match q with
    | [] => (found, pred, -1)
    | v :: q2 =>
      if n ≤ v ∧ mtch.getD v (-1) = -1 then (found, pred, (v : ℤ))
      else
        let base := if n ≤ v then 0 else n
        match scanNbrs alloc mtch n v base (q2, found, pred) with
        | (q3, found3, pred3) => bfsLoop alloc mtch n fuel q3 found3 pred3

/-- The path-reconstruction while loop of `augment`: follow `pred` pointers
from `e` back to `-1`, producing the path root-first. -/
def buildPath (pred : List ℤ) : ℕ → ℤ → List ℕ
  | 0, _ => []
  | fuel + 1, e => if e = -1 then [] else buildPath pred fuel (pred.getD e.toNat (-1)) ++ [e.toNat]

/-- Fuel for the BFS loop: an upper bound on (#unfound)·(2n+1) + |queue|. -/
def bfsFuel (n : ℕ) : ℕ := 2 * n * (2 * n + 1) + n + 1

/-- `augment(alloc, match, n)`: BFS from all unmatched left vertices; `none`
when no augmenting path exists, otherwise the reconstructed path. -/
def augment (alloc : List (List ℚ)) (mtch : List ℤ) (n : ℕ) : Option (List ℕ) :=
  let found0 := (List.range (2 * n)).map (fun i => decide (i < n ∧ mtch.getD i (-1) = -1))
  let q0 := (List.range n).filter (fun i => mtch.getD i (-1) == -1)
  let pred0 : List ℤ := List.replicate (2 * n) (-1)
  match bfsLoop alloc mtch n (bfsFuel n) q0 found0 pred0 with
  | (_, pred, e) => if e = -1 then none else some (buildPath pred (2 * n + 1) e)

/-- Flip the matching along the found path (the `for` loop in
`hopcroft_karp`): left path vertices point forward, right ones backward. -/
def applyPath (mtch : List ℤ) (path : List ℕ) (n : ℕ) : List ℤ :=
  (List.range path.length).foldl (fun m i =>
    let p := path.getD i 0
    if p < n then m.set p ((path.getD (i + 1) 0 : ℕ) : ℤ)
    else m.set p ((path.getD (i - 1) 0 : ℕ) : ℤ)) mtch

/-- The fueled `while 1` loop of `hopcroft_karp`. -/
def hkAux (alloc : List (List ℚ)) (n : ℕ) : ℕ → List ℤ → List ℤ
  | 0, mtch => mtch
  | fuel + 1, mtch =>
    match augment alloc mtch n with
    | none => mtch
    | some path => hkAux alloc n fuel (applyPath mtch path n)

/-- `hopcroft_karp(alloc, n)`: repeatedly augment starting from the empty
matching, then keep the left half shifted down by `n`. Fuel `n + 1` suffices
because each successful augmentation matches one more left vertex. -/
def hopcroft_karp (alloc : List (List ℚ)) (n : ℕ) : List ℤ :=
  ((hkAux alloc n (n + 1) (List.replicate (2 * n) (-1))).take n).map (fun x => x - (n : ℤ))

/-- `reduce(perm, n, m, c)`: collapse each agent's `c` representative rows by
entrywise summation. -/
def reduce (perm : List (List ℚ)) (n m c : ℕ) : List (List ℚ) :=
  (List.range n).map (fun agent =>
    (List.range c).foldl (fun s rep => List.zipWith (· + ·) s (perm.getD (agent * c + rep) []))
      (List.replicate m 0))

/-- Python list read `l[i]` with an `ℤ` index: non-negative indices read
directly, negative indices wrap once from the end, anything further out of
range raises (`none`). -/
def pyGet (l : List ℚ) (i : ℤ) : Option ℚ :=
  if 0 ≤ i then l.get? i.toNat
  else if -(l.length : ℤ) ≤ i then l.get? ((l.length : ℤ) + i).toNat
  else none

/-- Python list write `l[i] = v` with an `ℤ` index, same range rules. -/
def pySet (l : List ℚ) (i : ℤ) (v : ℚ) : Option (List ℚ) :=
  if 0 ≤ i then (if i.toNat < l.length then some (l.set i.toNat v) else none)
  else if -(l.length : ℤ) ≤ i then some (l.set ((l.length : ℤ) + i).toNat v)
  else none

/-- The `min_val` loop of `decompose`: the minimum of `alloc[i][match[i]]`
over `i < size`, seeded with `i = 0`. -/
def minOnMatch (alloc : List (List ℚ)) (mtch : List ℤ) (size : ℕ) : Option ℚ := do
  let first ← pyGet (alloc.getD 0 []) (mtch.getD 0 0)
  (List.range' 1 (size - 1)).foldlM (fun mv i => do
    let v ← pyGet (alloc.getD i []) (mtch.getD i 0)
    pure (if mv > v then v else mv)) first

/-- One row update of the `decompose` extraction loop: mark the matched entry
in the discrete assignment when it is a real item, subtract `min_val` from the
working matrix, and report whether the entry reached exactly 0. -/
def updRow (mv : ℚ) (m : ℕ) (j : ℤ) (drow arow : List ℚ) :
    Option (List ℚ × List ℚ × Bool) := do
  let drow2 ← if j < (m : ℤ) then pySet drow j 1 else pure drow
  let old ← pyGet arow j
  let arow2 ← pySet arow j (old - mv)
  pure (drow2, arow2, decide (old - mv = 0))

/-- The extraction `for` loop of `decompose`, over all `size` rows. -/
def updateLoop (mv : ℚ) (mtch : List ℤ) (size m : ℕ) (alloc : List (List ℚ)) (nz : ℤ) :
    Option (List (List ℚ) × List (List ℚ) × ℤ) :=
  (List.range size).foldlM (fun st i => do
    let (disc, al, cnt) := st
    let j := mtch.getD i 0
    let (drow2, arow2, hit0) ← updRow mv m j (disc.getD i []) (al.getD i [])
    pure (disc.set i drow2, al.set i arow2, if hit0 then cnt - 1 else cnt))
    (List.replicate size (List.replicate m (0 : ℚ)), alloc, nz)

/-- The fueled `while non_zero` loop of `decompose`. -/
def decomposeAux (n c m : ℕ) : ℕ → List (List ℚ) → ℤ → Option (List (ℚ × List (List ℚ)))
  | 0, _, _ => none
  | fuel + 1, alloc, nz =>
    if nz = 0 then some []
    else do
      let mtch := hopcroft_karp alloc (n * c)
      let mv ← minOnMatch alloc mtch (n * c)
      let (disc, alloc2, nz2) ← updateLoop mv mtch (n * c) m alloc nz
      let rest ← decomposeAux n c m fuel alloc2 nz2
      pure ((mv, reduce disc n m c) :: rest)

/-- The initial `non_zero` counter of `decompose`:
`n²c²` minus the number of entries equal to 0. -/
def initNZ (alloc : List (List ℚ)) (n c : ℕ) : ℤ :=
  (n * n * c * c : ℕ) - ((alloc.map (fun row => row.countP (fun v => decide (v = 0)))).sum : ℕ)

/-- `decompose(alloc, n, c, m)`: the Birkhoff–von-Neumann style extraction
loop. Fuel `non_zero + 1` suffices because each round zeroes at least one
positive entry. -/
def decompose (alloc : List (List ℚ)) (n c m : ℕ) : Option (List (ℚ × List (List ℚ))) :=
  decomposeAux n c m ((initNZ alloc n c).toNat + 1) alloc (initNZ alloc n c)

/-- Number of strictly positive entries of a matrix (the quantity tracked by
`decompose`'s `non_zero` counter on non-negative matrices). -/
def posCount (a : List (List ℚ)) : ℕ :=
  (a.map (fun row => row.countP (fun v => decide (0 < v)))).sum

/-! ### Specification-side predicates -/

/-- A valid utility matrix: `n ≥ 1`, `m ≥ 1`, all rows of length `m`. -/
def ValidUtils (utils : List (List ℚ)) : Prop :=
  1 ≤ utils.length ∧ 1 ≤ (utils.getD 0 []).length ∧
    ∀ row ∈ utils, row.length = (utils.getD 0 []).length

/-- A valid ordinal profile for `run_ps`: `n` rows, each a permutation of
`[0, t)`. -/
def ValidPrefs (n t : ℕ) (prefs : List (List ℕ)) : Prop :=
  prefs.length = n ∧ ∀ row ∈ prefs, row.Perm (List.range t)

/-- Matrix shape: `k` rows, each of length `t`. -/
def RowsLen (a : List (List ℚ)) (k t : ℕ) : Prop :=
  a.length = k ∧ ∀ row ∈ a, row.length = t

/-- All entries non-negative. -/
def NonnegM (a : List (List ℚ)) : Prop := ∀ row ∈ a, ∀ v ∈ row, 0 ≤ v

/-- Column sum of a matrix. -/
def colSum (a : List (List ℚ)) (j : ℕ) : ℚ := (a.map (fun row => row.getD j 0)).sum

/-- A scaled doubly stochastic square matrix: `k × k`, non-negative entries,
every row and every column summing to `σ`. -/
def DS (σ : ℚ) (a : List (List ℚ)) (k : ℕ) : Prop :=
  RowsLen a k k ∧ NonnegM a ∧ (∀ row ∈ a, row.sum = σ) ∧ ∀ j < k, colSum a j = σ

/-- The support of the square matrix `alloc` admits a perfect matching. -/
def ExistsPM (alloc : List (List ℚ)) (n : ℕ) : Prop :=
  ∃ f : Fin n → Fin n, Function.Injective f ∧ ∀ u : Fin n, 0 < ent alloc u (f u)

/-- The padded utility of item `i` for agent `a`: the original utility for a
real item (`i < m`), and `minU - 1` (one less than the global minimum
utility) for a dummy item. -/
def padUtil (utils : List (List ℚ)) (minU : ℚ) (m a i : ℕ) : ℚ :=
  if i < m then ent utils a i else minU - 1

/-- The matching array entry of vertex `v` (default `-1`, as in the source's
initial state). -/
def Mentry (mtch : List ℤ) (v : ℕ) : ℤ := mtch.getD v (-1)

/-- A valid state of the matcher's `match` array over the support of `alloc`:
length `2n`, mutually-pointing matched pairs, matched edges in the support. -/
def ValidMatching (alloc : List (List ℚ)) (mtch : List ℤ) (n : ℕ) : Prop :=
  mtch.length = 2 * n ∧
  (∀ u, u < n → Mentry mtch u = -1 ∨
    ∃ j, j < n ∧ Mentry mtch u = ((n + j : ℕ) : ℤ) ∧ Mentry mtch (n + j) = (u : ℤ) ∧
      0 < ent alloc u j) ∧
  (∀ j, j < n → Mentry mtch (n + j) = -1 ∨
    ∃ u, u < n ∧ Mentry mtch (n + j) = (u : ℤ) ∧ Mentry mtch u = ((n + j : ℕ) : ℤ))

/-- The list of currently favoured items, one per agent (the head of each
preference row; rows are nonempty whenever this is used). -/
def favsOf (prefs : List (List ℕ)) : List ℕ := prefs.map (fun r => r.headD 0)

/-- The allocation-row update of one `run_ps` round for one agent. -/
def updRowPS (te : ℚ) (prow : List ℕ) (arow : List ℚ) : List ℚ :=
  arow.set (prow.headD 0) (arow.getD (prow.headD 0) 0 + te)

/-- The loop invariant of `run_ps`: matrix shapes, preference rows are
duplicate-free lists of in-range items that are exactly the items with
remaining supply, supplies stay within `[0, 1]`, allocations are non-negative,
column sums complement the remaining supply, and all agents have eaten the
same amount. -/
def PSInv (n t : ℕ) (prefs : List (List ℕ)) (objs : List ℚ) (alloc : List (List ℚ)) : Prop :=
  prefs.length = n ∧
  objs.length = t ∧
  alloc.length = n ∧
  (∀ row ∈ alloc, row.length = t) ∧
  (∀ row ∈ prefs, row.Nodup) ∧
  (∀ row ∈ prefs, ∀ x ∈ row, x < t) ∧
  (∀ row ∈ prefs, ∀ x, x < t → (x ∈ row ↔ objs.getD x 0 ≠ 0)) ∧
  (∀ x, x < t → 0 ≤ objs.getD x 0 ∧ objs.getD x 0 ≤ 1) ∧
  (∀ i, i < n → ∀ x, x < t → 0 ≤ ent alloc i x) ∧
  (∀ x, x < t → colSum alloc x + objs.getD x 0 = 1) ∧
  (∀ i, i < n → (n : ℚ) * (alloc.getD i []).sum = (t : ℚ) - objs.sum)

/-! ### Proof-side notions for the matcher -/

/-- Vertex `v` is marked found. (Out-of-range reads default to `false`.) -/
def fnd (found : List Bool) (v : ℕ) : Prop := found.getD v false = true

/-- `w` lies on the side opposite to `v` of the bipartite graph on
`[0, n) ∪ [n, 2n)` — exactly the range scanned by the BFS inner loop. -/
def oppSide (n v w : ℕ) : Prop := (v < n ∧ n ≤ w ∧ w < 2 * n) ∨ (n ≤ v ∧ w < n)

/-- The BFS may move from `v` to `w`: the support edge exists and the
alternation rule allows it. -/
def moveOK (alloc : List (List ℚ)) (mtch : List ℤ) (n v w : ℕ) : Prop :=
  connected alloc v w n = true ∧ allowable mtch v w n = true

/-- Number of found vertices. -/
def countB (found : List Bool) : ℕ := found.count true

/-- Iterate the predecessor map `k` times (with `-1` absorbing). -/
def predChain (pred : List ℤ) : ℕ → ℤ → ℤ
  | 0, e => e
  | k + 1, e => if e = -1 then -1 else predChain pred k (pred.getD e.toNat (-1))

/-- Every set predecessor pointer records a legitimate BFS move between two
found vertices. -/
def PredInv (alloc : List (List ℚ)) (mtch : List ℤ) (n : ℕ)
    (found : List Bool) (pred : List ℤ) : Prop :=
  ∀ w, w < 2 * n → pred.getD w (-1) ≠ -1 →
    ∃ v, v < 2 * n ∧ pred.getD w (-1) = (v : ℤ) ∧ fnd found v ∧ fnd found w ∧
      oppSide n v w ∧ moveOK alloc mtch n v w

/-- A found vertex without predecessor is a BFS seed: an unmatched left
vertex. -/
def SeedInv (mtch : List ℤ) (n : ℕ) (found : List Bool) (pred : List ℤ) : Prop :=
  ∀ v, v < 2 * n → fnd found v → pred.getD v (-1) = -1 → v < n ∧ Mentry mtch v = -1

/-- Predecessor chains from found vertices reach `-1` within `countB found`
steps. -/
def ChainInv (n : ℕ) (found : List Bool) (pred : List ℤ) : Prop :=
  ∀ v, v < 2 * n → fnd found v → predChain pred (countB found) (v : ℤ) = -1

/-- The queue holds distinct, in-range, found vertices. -/
def QInv (n : ℕ) (q : List ℕ) (found : List Bool) : Prop :=
  q.Nodup ∧ ∀ v ∈ q, v < 2 * n ∧ fnd found v

/-- Every found vertex is still queued or has all its BFS-allowed neighbours
found. -/
def ClosedAt (alloc : List (List ℚ)) (mtch : List ℤ) (n : ℕ)
    (found : List Bool) (q : List ℕ) : Prop :=
  ∀ u, u < 2 * n → fnd found u → u ∈ q ∨
    ∀ w, w < 2 * n → oppSide n u w → moveOK alloc mtch n u w → fnd found w

/-- Every found unmatched right vertex is still queued. -/
def RightInv (mtch : List ℤ) (n : ℕ) (found : List Bool) (q : List ℕ) : Prop :=
  ∀ w, n ≤ w → w < 2 * n → fnd found w → Mentry mtch w = -1 → w ∈ q

/-- The complete BFS loop invariant. -/
def BInv (alloc : List (List ℚ)) (mtch : List ℤ) (n : ℕ)
    (q : List ℕ) (found : List Bool) (pred : List ℤ) : Prop :=
  found.length = 2 * n ∧ pred.length = 2 * n ∧ QInv n q found ∧
  PredInv alloc mtch n found pred ∧ SeedInv mtch n found pred ∧
  ChainInv n found pred ∧ ClosedAt alloc mtch n found q ∧ RightInv mtch n found q

/-- Number of matched left vertices. -/
def matchedL (mtch : List ℤ) (n : ℕ) : ℕ :=
  ((List.range n).filter (fun u => !(Mentry mtch u == -1))).length

/-- The predecessor chain as a list, starting at `e` (so the reconstructed
path of `augment` is its reverse). -/
def revChain (pred : List ℤ) : ℕ → ℤ → List ℕ
  | 0, _ => []
  | fuel + 1, e => if e = -1 then [] else e.toNat :: revChain pred fuel (pred.getD e.toNat (-1))

/-! ### Generic helper lemmas -/

theorem mapOpt_eq_some_iff {α β : Type*} (f : α → Option β) :
    ∀ (l : List α) (ys : List β),
      mapOpt f l = some ys ↔ List.Forall₂ (fun x y => f x = some y) l ys := by
  intro l
  induction l with
  | nil =>
    intro ys
    constructor
    · intro h
      simp only [mapOpt] at h
      cases h
      exact List.Forall₂.nil
    · intro h
      cases h
      rfl
  | cons x xs ih =>
    intro ys
    constructor
    · intro h
      simp only [mapOpt, Option.bind_eq_bind, Option.bind_eq_some, Option.pure_def,
        Option.some_inj] at h
      obtain ⟨y, hy, ys', hys', rfl⟩ := h
      exact List.Forall₂.cons hy ((ih ys').mp hys')
    · intro h
      cases h with
      | cons hy hys =>
        simp only [mapOpt, Option.bind_eq_bind, Option.bind_eq_some, Option.pure_def,
          Option.some_inj]
        exact ⟨_, hy, _, (ih _).mpr hys, rfl⟩

theorem mapOpt_isSome_iff {α β : Type*} (f : α → Option β) (l : List α) :
    (mapOpt f l).isSome ↔ ∀ x ∈ l, (f x).isSome := by
  induction l with
  | nil => simp [mapOpt]
  | cons x xs ih =>
    simp only [mapOpt, Option.bind_eq_bind, Option.pure_def, List.mem_cons]
    constructor
    · intro h
      rcases hfx : f x with _ | y
      · rw [hfx] at h; simp at h
      · rw [hfx] at h
        simp only [Option.some_bind] at h
        rcases hxs : mapOpt f xs with _ | ys
        · rw [hxs] at h; simp at h
        · intro z hz
          rcases hz with rfl | hz
          · simp [hfx]
          · exact (ih.mp (by simp [hxs])) z hz
    · intro h
      rcases hfx : f x with _ | y
      · have := h x (Or.inl rfl); simp [hfx] at this
      · simp only [Option.some_bind]
        rcases hxs : mapOpt f xs with _ | ys
        · exfalso
          have := ih.mpr (fun z hz => h z (Or.inr hz))
          simp [hxs] at this
        · simp

theorem listMin_isSome_iff (l : List ℚ) : (listMin l).isSome ↔ l ≠ [] := by
  cases l <;> simp [listMin]

theorem foldl_min_le_init : ∀ (l : List ℚ) (a : ℚ), l.foldl min a ≤ a
  | [], a => le_refl a
  | y :: ys, a => (foldl_min_le_init ys (min a y)).trans (min_le_left _ _)

theorem foldl_min_le_mem : ∀ (l : List ℚ) (a : ℚ), ∀ x ∈ l, l.foldl min a ≤ x
  | y :: ys, a, x, hx => by
    rcases List.mem_cons.mp hx with rfl | hx
    · exact (foldl_min_le_init ys (min a x)).trans (min_le_right _ _)
    · exact foldl_min_le_mem ys (min a y) x hx

theorem foldl_min_mem : ∀ (l : List ℚ) (a : ℚ), l.foldl min a = a ∨ l.foldl min a ∈ l
  | [], a => Or.inl rfl
  | y :: ys, a => by
    rcases foldl_min_mem ys (min a y) with h | h
    · show ys.foldl min (min a y) = a ∨ _
      rcases min_choice a y with hm | hm
      · exact Or.inl (h.trans hm)
      · exact Or.inr (List.mem_cons.mpr (Or.inl (h.trans hm)))
    · exact Or.inr (List.mem_cons.mpr (Or.inr h))

theorem listMin_mem : ∀ (l : List ℚ) (q : ℚ), listMin l = some q → q ∈ l
  | [], q => by simp [listMin]
  | x :: xs, q => by
    intro h
    simp only [listMin, Option.some_inj] at h
    subst h
    rcases foldl_min_mem xs x with h | h
    · exact List.mem_cons.mpr (Or.inl h)
    · exact List.mem_cons.mpr (Or.inr h)

theorem listMin_le : ∀ (l : List ℚ) (q : ℚ), listMin l = some q → ∀ x ∈ l, q ≤ x
  | [], q => by simp [listMin]
  | x :: xs, q => by
    intro h
    simp only [listMin, Option.some_inj] at h
    subst h
    intro z hz
    rcases List.mem_cons.mp hz with rfl | hz
    · exact foldl_min_le_init xs z
    · exact foldl_min_le_mem xs x z hz

/-! ### C8: input validation -/

/-- C8 counterexample: on the malformed (non-rectangular) utility matrix
`[[1], [2, 3]]`, `generate_prefs` does not fail: it returns normally, so the
claim that a `ValidationError` is reported for every malformed input is false
on the code. -/
theorem validation_missing_cx :
    generate_prefs [[(1 : ℚ)], [2, 3]] = some (2, 1, 1, [[0, 1], [1, 0]]) := by
  decide

/-- C8 (amended): `generate_prefs` performs no validation at all. It fails
(with a generic Python exception, not a `ValidationError`, which does not
exist in the code) exactly when the input is empty (`n = 0`, an `IndexError`
on `utils[0]`) or some row is empty (a `ValueError` from `min`); in
particular it returns normally on non-rectangular inputs. -/
theorem generate_prefs_some_iff (utils : List (List ℚ)) :
    (generate_prefs utils).isSome ↔ utils ≠ [] ∧ ∀ row ∈ utils, row ≠ [] := by
  cases utils with
  | nil => simp [generate_prefs]
  | cons l0 rest =>
    simp only [generate_prefs, Option.bind_eq_bind, Option.pure_def, ne_eq,
      reduceCtorEq, not_false_eq_true, true_and]
    constructor
    · intro h row hrow
      rcases hmo : mapOpt listMin (l0 :: rest) with _ | mins
      · rw [hmo] at h; simp at h
      · have h1 : ∀ r ∈ (l0 :: rest), (listMin r).isSome := by
          rw [← mapOpt_isSome_iff listMin]
          simp [hmo]
        intro hempty
        have := h1 row hrow
        rw [hempty] at this
        simp [listMin] at this
    · intro h
      have h1 : (mapOpt listMin (l0 :: rest)).isSome := by
        rw [mapOpt_isSome_iff]
        intro r hr
        rw [listMin_isSome_iff]
        exact h r hr
      rcases hmo : mapOpt listMin (l0 :: rest) with _ | mins
      · rw [hmo] at h1; simp at h1
      · have hlen : mins.length = (l0 :: rest).length :=
          (List.Forall₂.length_eq ((mapOpt_eq_some_iff _ _ _).mp hmo)).symm
        have hne : mins ≠ [] := by
          intro hnil
          rw [hnil] at hlen
          simp at hlen
        have h2 : (listMin mins).isSome := (listMin_isSome_iff mins).mpr hne
        rcases hlm : listMin mins with _ | mu
        · rw [hlm] at h2; simp at h2
        · simp [hmo, hlm]

/-! ### C4: structure of the ordinal profile -/

theorem zip_range_pair {xs : List ℚ} {t : ℕ} (hlen : xs.length = t) :
    ∀ p ∈ xs.zip (List.range t), p.1 = xs.getD p.2 0 ∧ p.2 < t := by
  intro p hp
  rw [List.mem_iff_getElem] at hp
  obtain ⟨i, hi, hget⟩ := hp
  have hzl : (xs.zip (List.range t)).length = min xs.length t := by
    simp [List.length_zip]
  have hit : i < t := by
    rw [hzl] at hi; omega
  have hix : i < xs.length := by omega
  have hirt : i < (List.range t).length := by simpa using hit
  have hz : (xs.zip (List.range t))[i] =
      (xs[i], (List.range t)[i]) := by
    apply List.getElem_zip
  rw [hz] at hget
  have hr : (List.range t)[i] = i := List.getElem_range _ _
  subst hget
  refine ⟨?_, by simpa using hit⟩
  simp only [hr]
  exact (List.getD_eq_getElem xs 0 hix).symm

theorem ceil_div_bounds (m n : ℕ) (hn : 1 ≤ n) :
    m ≤ (m + n - 1) / n * n ∧ (m + n - 1) / n * n < m + n := by
  have h1 := Nat.div_add_mod (m + n - 1) n
  have h2 := Nat.mod_lt (m + n - 1) (show 0 < n by omega)
  rw [Nat.mul_comm ((m + n - 1) / n) n]
  generalize hq : n * ((m + n - 1) / n) = NQ at h1 ⊢
  generalize hr : (m + n - 1) % n = R at h1 h2
  omega

theorem pad_getD (la : List ℚ) (minU : ℚ) (m t i : ℕ) (hla : la.length = m)
    (him : i < t) (hmt : m ≤ t) :
    (la ++ List.replicate (t - m) (minU - 1)).getD i 0 =
      if i < m then la.getD i 0 else minU - 1 := by
  by_cases h : i < m
  · rw [if_pos h]
    have : i < la.length := by omega
    rw [List.getD_eq_getElem _ _ (by simp [List.length_append]; omega), List.getD_eq_getElem _ _ this]
    exact List.getElem_append_left this
  · rw [if_neg h]
    have hi2 : i - la.length < t - m := by omega
    rw [List.getD_eq_getElem _ _ (by simp [List.length_append]; omega)]
    rw [List.getElem_append_right (by omega)]
    simp [List.getElem_replicate]

/-- C4: on every valid utility matrix, `generate_prefs` succeeds and returns
`n` rows; `c` is exactly `ceil(m / n)` (characterized by
`m ≤ c·n < m + n`); every row is a permutation of `[0, c·n)` ordered by
strictly decreasing padded utility with ascending index breaking exact ties,
where dummy items `m ≤ i < c·n` are valued at the global minimum utility
minus one. -/
theorem generate_prefs_spec (utils : List (List ℚ)) (hu : ValidUtils utils) :
    ∃ n m c prefs minU,
      generate_prefs utils = some (n, m, c, prefs) ∧
      n = utils.length ∧
      m = (utils.getD 0 []).length ∧
      m ≤ c * n ∧ c * n < m + n ∧
      prefs.length = n ∧
      (∃ row ∈ utils, minU ∈ row) ∧
      (∀ row ∈ utils, ∀ v ∈ row, minU ≤ v) ∧
      ∀ a, a < n →
        (prefs.getD a []).Perm (List.range (c * n)) ∧
        (prefs.getD a []).Pairwise (fun i j =>
          padUtil utils minU m a j < padUtil utils minU m a i ∨
            (padUtil utils minU m a i = padUtil utils minU m a j ∧ i < j)) := by
  obtain ⟨hn1, hm1, hrect⟩ := hu
  cases utils with
  | nil => simp at hn1
  | cons l0 rest =>
    have hall : ∀ row ∈ l0 :: rest, row ≠ [] := by
      intro row hr hnil
      have := hrect row hr
      rw [hnil, List.length_nil] at this
      omega
    rcases hmo : mapOpt listMin (l0 :: rest) with _ | mins
    · exfalso
      have : (mapOpt listMin (l0 :: rest)).isSome := by
        rw [mapOpt_isSome_iff]
        intro r hr
        rw [listMin_isSome_iff]
        exact hall r hr
      rw [hmo] at this; simp at this
    · have hf2 := (mapOpt_eq_some_iff listMin (l0 :: rest) mins).mp hmo
      have hminslen : mins.length = (l0 :: rest).length := (List.Forall₂.length_eq hf2).symm
      rcases hlm : listMin mins with _ | minU
      · exfalso
        have hne : mins ≠ [] := by
          intro h; rw [h] at hminslen; simp at hminslen
        have := (listMin_isSome_iff mins).mpr hne
        rw [hlm] at this; simp at this
      · -- name the output pieces
        refine ⟨(l0 :: rest).length, l0.length,
          (l0.length + (l0 :: rest).length - 1) / (l0 :: rest).length,
          (l0 :: rest).map (fun l => rankRow
            ((l0.length + (l0 :: rest).length - 1) / (l0 :: rest).length * (l0 :: rest).length)
            (l ++ List.replicate
              ((l0.length + (l0 :: rest).length - 1) / (l0 :: rest).length * (l0 :: rest).length
                - l0.length) (minU - 1))), minU, ?_, rfl, by simp, ?_, ?_, by simp, ?_, ?_, ?_⟩
        · simp only [generate_prefs, hmo, hlm, Option.bind_eq_bind, Option.some_bind,
            Option.pure_def]
        · -- m ≤ c * n
          exact (ceil_div_bounds l0.length (l0 :: rest).length (by simp)).1
        · -- c * n < m + n
          exact (ceil_div_bounds l0.length (l0 :: rest).length (by simp)).2
        · -- minU belongs to some row
          obtain ⟨k, hk⟩ := List.get_of_mem (listMin_mem mins minU hlm)
          have hklen : (k : ℕ) < (l0 :: rest).length := by
            have := k.isLt; omega
          refine ⟨(l0 :: rest).get ⟨k, hklen⟩, List.get_mem _ _ _, ?_⟩
          have hrel := (List.forall₂_iff_get.mp hf2).2 k hklen k.isLt
          rw [hk] at hrel
          exact listMin_mem _ _ hrel
        · -- minU is a global lower bound
          intro row hrow v hv
          obtain ⟨k, hk⟩ := List.get_of_mem hrow
          have hkm : (k : ℕ) < mins.length := by
            have := k.isLt; omega
          have hrel := (List.forall₂_iff_get.mp hf2).2 k k.isLt hkm
          rw [hk] at hrel
          refine le_trans ?_ (listMin_le row _ hrel v hv)
          exact listMin_le mins minU hlm _ (List.get_mem mins _ hkm)
        · -- per-row permutation and sortedness
          intro a ha
          have hdm := Nat.div_add_mod (l0.length + (l0 :: rest).length - 1) (l0 :: rest).length
          have hml := Nat.mod_lt (l0.length + (l0 :: rest).length - 1)
            (show 0 < (l0 :: rest).length by simp)
          set n := (l0 :: rest).length with hnd
          set m := l0.length with hmd
          set c := (m + n - 1) / n with hcd
          set t := c * n with htd
          have hn0 : 1 ≤ n := by simp [hnd]
          have hmt : m ≤ t := by
            have hcomm : c * n = n * c := Nat.mul_comm c n
            rw [htd, hcomm]
            omega
          set la := (l0 :: rest).getD a [] with hlad
          have hmem : la ∈ l0 :: rest := by
            rw [hlad]
            rw [List.getD_eq_getElem _ _ ha]
            exact List.getElem_mem ha
          have hlal : la.length = m := hrect la hmem
          set dummy := List.replicate (t - m) (minU - 1) with hdummyd
          set xs := la ++ dummy with hxsd
          have hxslen : xs.length = t := by
            rw [hxsd, List.length_append, hlal, hdummyd, List.length_replicate]
            omega
          have hrowa : ((l0 :: rest).map (fun l => rankRow t
              (l ++ List.replicate (t - m) (minU - 1)))).getD a [] = rankRow t xs := by
            rw [List.getD_eq_getElem _ _ (by simpa using ha), List.getElem_map]
            congr 1
            rw [hxsd, hlad, List.getD_eq_getElem _ _ ha]
          rw [hrowa]
          -- the sorted pair list
          set pairs := xs.zip (List.range t) with hpairsd
          set sorted := pairs.insertionSort prefRel with hsortedd
          have hperm0 : sorted.Perm pairs := List.perm_insertionSort prefRel pairs
          have hsndzip : pairs.map Prod.snd = List.range t :=
            List.map_snd_zip xs (List.range t) (by simp [hxslen])
          have hpermsnd : (sorted.map Prod.snd).Perm (List.range t) := by
            rw [← hsndzip]
            exact hperm0.map Prod.snd
          constructor
          · exact hpermsnd
          · -- sortedness
            have hsorted : sorted.Pairwise prefRel :=
              List.sorted_insertionSort prefRel pairs
            have hnodup : (sorted.map Prod.snd).Nodup :=
              (List.Perm.nodup_iff hpermsnd).mpr (List.nodup_range t)
            have hnesnd : sorted.Pairwise (fun p q => p.2 ≠ q.2) := by
              rw [List.Nodup, List.pairwise_map] at hnodup
              exact hnodup
            have hcomb := hsorted.and hnesnd
            have hmemfact : ∀ p ∈ sorted, p.1 = xs.getD p.2 0 ∧ p.2 < t := by
              intro p hp
              exact zip_range_pair hxslen p (hperm0.mem_iff.mp hp)
            have hrr : rankRow t xs = sorted.map Prod.snd := rfl
            rw [hrr, List.pairwise_map]
            refine List.Pairwise.imp_of_mem ?_ hcomb
            intro p q hp hq hpq
            obtain ⟨hp1, hp2⟩ := hmemfact p hp
            obtain ⟨hq1, hq2⟩ := hmemfact q hq
            have hpadp : xs.getD p.2 0 = padUtil (l0 :: rest) minU m a p.2 := by
              rw [pad_getD la minU m t p.2 hlal hp2 hmt]
              simp only [padUtil, ent, ← hlad]
            have hpadq : xs.getD q.2 0 = padUtil (l0 :: rest) minU m a q.2 := by
              rw [pad_getD la minU m t q.2 hlal hq2 hmt]
              simp only [padUtil, ent, ← hlad]
            obtain ⟨hrel, hne⟩ := hpq
            rcases hrel with hlt | ⟨heq, hle⟩
            · left
              rw [← hpadp, ← hpadq, ← hp1, ← hq1]
              exact hlt
            · right
              constructor
              · rw [← hpadp, ← hpadq, ← hp1, ← hq1, heq]
              · omega

/-- C4 witness: the theorem applied to the concrete utility matrix
`[[2,1],[1,2]]`. -/
theorem generate_prefs_spec_witness :
    ∃ n m c prefs minU,
      generate_prefs [[(2 : ℚ), 1], [1, 2]] = some (n, m, c, prefs) ∧
      n = [[(2 : ℚ), 1], [1, 2]].length ∧
      m = ([[(2 : ℚ), 1], [1, 2]].getD 0 []).length ∧
      m ≤ c * n ∧ c * n < m + n ∧
      prefs.length = n ∧
      (∃ row ∈ [[(2 : ℚ), 1], [1, 2]], minU ∈ row) ∧
      (∀ row ∈ [[(2 : ℚ), 1], [1, 2]], ∀ v ∈ row, minU ≤ v) ∧
      ∀ a, a < n →
        (prefs.getD a []).Perm (List.range (c * n)) ∧
        (prefs.getD a []).Pairwise (fun i j =>
          padUtil [[(2 : ℚ), 1], [1, 2]] minU m a j < padUtil [[(2 : ℚ), 1], [1, 2]] minU m a i ∨
            (padUtil [[(2 : ℚ), 1], [1, 2]] minU m a i =
                padUtil [[(2 : ℚ), 1], [1, 2]] minU m a j ∧ i < j)) :=
  generate_prefs_spec [[(2 : ℚ), 1], [1, 2]] (by constructor <;> simp)

/-! ### List access helper lemmas -/

theorem getD_set_self {α : Type*} (l : List α) (i : ℕ) (v d : α) (h : i < l.length) :
    (l.set i v).getD i d = v := by
  rw [List.getD_eq_getElem _ _ (by simpa using h)]
  simp

theorem getD_set_ne {α : Type*} (l : List α) (i j : ℕ) (v d : α) (h : i ≠ j) :
    (l.set i v).getD j d = l.getD j d := by
  by_cases hj : j < l.length
  · rw [List.getD_eq_getElem _ _ (by simpa using hj), List.getD_eq_getElem _ _ hj]
    exact List.getElem_set_ne h _
  · rw [List.getD_eq_default _ _ (by simpa using Nat.le_of_not_lt hj),
      List.getD_eq_default _ _ (Nat.le_of_not_lt hj)]

theorem sum_set_q : ∀ (l : List ℚ) (i : ℕ) (v : ℚ), i < l.length →
    (l.set i v).sum = l.sum - l.getD i 0 + v
  | [], i, v => by simp
  | x :: xs, 0, v => by
    intro
    simp [List.sum_cons]
    ring
  | x :: xs, i + 1, v => by
    intro h
    simp only [List.set_cons_succ, List.sum_cons, List.getD_cons_succ]
    rw [sum_set_q xs i v (by simpa using h)]
    ring

theorem all_zero_of_sum_zero : ∀ (l : List ℚ), (∀ v ∈ l, 0 ≤ v) → l.sum = 0 →
    ∀ v ∈ l, v = 0
  | [], _, _ => by simp
  | x :: xs, hn, hs => by
    have hx : 0 ≤ x := hn x (by simp)
    have hxs : 0 ≤ xs.sum := List.sum_nonneg (fun v hv => hn v (by simp [hv]))
    rw [List.sum_cons] at hs
    have hx0 : x = 0 := by linarith
    have hs0 : xs.sum = 0 := by linarith
    intro v hv
    rcases List.mem_cons.mp hv with rfl | hv
    · exact hx0
    · exact all_zero_of_sum_zero xs (fun v hv => hn v (by simp [hv])) hs0 v hv

theorem getD_le_sum : ∀ (l : List ℚ), (∀ v ∈ l, 0 ≤ v) → ∀ x, x < l.length →
    l.getD x 0 ≤ l.sum
  | [], _, x => by simp
  | a :: as, hn, 0 => by
    intro
    have : 0 ≤ as.sum := List.sum_nonneg (fun v hv => hn v (by simp [hv]))
    simp only [List.getD_cons_zero, List.sum_cons]
    linarith
  | a :: as, hn, x + 1 => by
    intro h
    have ha : 0 ≤ a := hn a (by simp)
    have := getD_le_sum as (fun v hv => hn v (by simp [hv])) x (by simpa using h)
    simp only [List.getD_cons_succ, List.sum_cons]
    linarith

theorem sum_eq_zero_sum_q (l : List ℚ) (h : ∀ v ∈ l, v = 0) : l.sum = 0 :=
  List.sum_eq_zero h

/-! ### The eating step of `run_ps` -/

theorem mapOpt_headD (prefs : List (List ℕ)) (h : ∀ row ∈ prefs, row ≠ []) :
    mapOpt List.head? prefs = some (favsOf prefs) := by
  induction prefs with
  | nil => rfl
  | cons prow ps ih =>
    cases prow with
    | nil => exact absurd rfl (h [] (by simp))
    | cons fav rest =>
      simp only [mapOpt, List.head?, Option.bind_eq_bind, Option.some_bind, Option.pure_def]
      rw [ih (fun row hr => h row (by simp [hr]))]
      simp [favsOf]

theorem eatStep_spec (te : ℚ) :
    ∀ (prefs : List (List ℕ)) (alloc : List (List ℚ)) (objs : List ℚ),
      prefs.length = alloc.length →
      (∀ row ∈ prefs, row ≠ []) →
      (∀ row ∈ prefs, row.headD 0 < objs.length) →
      ∃ objs2,
        eatStep te prefs alloc objs = some (List.zipWith (updRowPS te) prefs alloc, objs2) ∧
        objs2.length = objs.length ∧
        (∀ x, objs2.getD x 0 = objs.getD x 0 - ((favsOf prefs).count x : ℚ) * te) ∧
        objs2.sum = objs.sum - (prefs.length : ℚ) * te
  | [], alloc, objs => by
    intro hlen _ _
    have : alloc = [] := by
      cases alloc with
      | nil => rfl
      | cons a as => simp at hlen
    subst this
    exact ⟨objs, rfl, rfl, by intro x; simp [favsOf], by simp⟩
  | prow :: ps, alloc, objs => by
    intro hlen hne hlt
    cases alloc with
    | nil => simp at hlen
    | cons arow as =>
      cases prow with
      | nil => exact absurd rfl (hne [] (by simp))
      | cons fav prest =>
        have hfavlt : fav < objs.length := by
          have := hlt (fav :: prest) (by simp)
          simpa using this
        obtain ⟨objs2, heq, hlen2, hpt, hsum⟩ :=
          eatStep_spec te ps as (objs.set fav (objs.getD fav 0 - te))
            (by simpa using hlen)
            (fun row hr => hne row (by simp [hr]))
            (fun row hr => by
              have := hlt row (by simp [hr])
              simpa using this)
        refine ⟨objs2, ?_, ?_, ?_, ?_⟩
        · simp only [eatStep, heq]
          rfl
        · rw [hlen2]; simp
        · intro x
          rw [hpt x]
          by_cases hx : x = fav
          · subst hx
            rw [getD_set_self objs x _ 0 hfavlt]
            have hcnt : (favsOf ((x :: prest) :: ps)).count x = (favsOf ps).count x + 1 := by
              simp only [favsOf, List.map_cons, List.headD_cons, List.count_cons, beq_iff_eq]
              simp
            rw [hcnt]
            push_cast
            ring
          · rw [getD_set_ne objs fav x _ 0 (fun h => hx h.symm)]
            have hcnt : (favsOf ((fav :: prest) :: ps)).count x = (favsOf ps).count x := by
              simp only [favsOf, List.map_cons, List.headD_cons, List.count_cons, beq_iff_eq]
              rw [if_neg (fun h => hx h.symm)]
              simp
            rw [hcnt]
        · rw [hsum, sum_set_q objs fav _ hfavlt]
          simp only [List.length_cons]
          push_cast
          ring

theorem zipWith_upd_getD (te : ℚ) :
    ∀ (prefs : List (List ℕ)) (alloc : List (List ℚ)) (i : ℕ),
      i < prefs.length → prefs.length = alloc.length →
      (List.zipWith (updRowPS te) prefs alloc).getD i [] =
        updRowPS te (prefs.getD i []) (alloc.getD i [])
  | prow :: ps, arow :: as, 0 => by
    intro _ _
    simp
  | prow :: ps, arow :: as, i + 1 => by
    intro hi hlen
    simp only [List.zipWith_cons_cons, List.getD_cons_succ]
    exact zipWith_upd_getD te ps as i (by simpa using hi) (by simpa using hlen)
  | [], _, i => by intro hi _; simp at hi
  | prow :: ps, [], i => by intro _ hlen; simp at hlen

theorem colSum_zipWith_upd (te : ℚ) (x t : ℕ) (hx : x < t) :
    ∀ (prefs : List (List ℕ)) (alloc : List (List ℚ)),
      prefs.length = alloc.length →
      (∀ arow ∈ alloc, arow.length = t) →
      (∀ prow ∈ prefs, prow.headD 0 < t) →
      colSum (List.zipWith (updRowPS te) prefs alloc) x =
        colSum alloc x + ((favsOf prefs).count x : ℚ) * te
  | [], alloc, hlen, _, _ => by
    have : alloc = [] := by
      cases alloc with
      | nil => rfl
      | cons a as => simp at hlen
    subst this
    simp [favsOf, colSum]
  | prow :: ps, alloc, hlen, hrl, hhd => by
    cases alloc with
    | nil => simp at hlen
    | cons arow as =>
      have ih := colSum_zipWith_upd te x t hx ps as (by simpa using hlen)
        (fun r hr => hrl r (by simp [hr])) (fun r hr => hhd r (by simp [hr]))
      have harl : arow.length = t := hrl arow (by simp)
      simp only [List.zipWith_cons_cons, colSum, List.map_cons, List.sum_cons] at ih ⊢
      rw [ih]
      by_cases hfx : prow.headD 0 = x
      · rw [updRowPS, hfx, getD_set_self arow x _ 0 (by omega)]
        have hcnt : (favsOf (prow :: ps)).count x = (favsOf ps).count x + 1 := by
          simp only [favsOf, List.map_cons, List.count_cons, beq_iff_eq, hfx]
          simp
        rw [hcnt]
        push_cast
        ring
      · rw [updRowPS, getD_set_ne arow _ x _ 0 hfx]
        have hcnt : (favsOf (prow :: ps)).count x = (favsOf ps).count x := by
          simp only [favsOf, List.map_cons, List.count_cons, beq_iff_eq]
          rw [if_neg hfx]
          simp
        rw [hcnt]
        ring

theorem getD_mem {α : Type*} (l : List α) (i : ℕ) (d : α) (h : i < l.length) :
    l.getD i d ∈ l := by
  rw [List.getD_eq_getElem _ _ h]
  exact List.getElem_mem h

theorem headD_mem {α : Type*} (l : List α) (d : α) (h : l ≠ []) : l.headD d ∈ l := by
  cases l with
  | nil => exact absurd rfl h
  | cons x xs => simp

theorem head?_eq_headD {α : Type*} (l : List α) (d : α) (h : l ≠ []) :
    l.head? = some (l.headD d) := by
  cases l with
  | nil => exact absurd rfl h
  | cons x xs => rfl

theorem filter_length_lt_of_mem (l : List ℕ) (p : ℕ → Bool) (x : ℕ)
    (hx : x ∈ l) (hp : p x = false) : (l.filter p).length < l.length := by
  have hs := List.filter_sublist (l := l) (p := p)
  rcases Nat.lt_or_ge (l.filter p).length l.length with h | h
  · exact h
  · exfalso
    have heq : l.filter p = l := hs.eq_of_length (Nat.le_antisymm hs.length_le h)
    have : x ∈ l.filter p := heq.symm ▸ hx
    have := (List.mem_filter.mp this).2
    rw [hp] at this
    exact Bool.false_ne_true this

/-- One iteration of the `run_ps` loop from any invariant state with a
nonempty first preference row: it succeeds, preserves the invariant, strictly
shrinks the preference rows, and drives the supply of at least one currently
favoured item to exactly 0, removing it from every preference row. -/
theorem psStep_spec (n t : ℕ) (hn : 1 ≤ n) (prefs : List (List ℕ)) (objs : List ℚ)
    (alloc : List (List ℚ)) (hinv : PSInv n t prefs objs alloc)
    (hne : prefs.getD 0 [] ≠ []) :
    ∃ prefs2 objs2 alloc2,
      psStep prefs objs alloc = some (prefs2, objs2, alloc2) ∧
      PSInv n t prefs2 objs2 alloc2 ∧
      (prefs2.getD 0 []).length < (prefs.getD 0 []).length ∧
      ∃ x0, x0 < t ∧ (∃ i, i < n ∧ (prefs.getD i []).head? = some x0) ∧
        objs2.getD x0 0 = 0 ∧ ∀ row ∈ prefs2, x0 ∉ row := by
  obtain ⟨h1, h2, h3, h4, h5, h6, h7, h8, h9, h10, h11⟩ := hinv
  have hrow0 : prefs.getD 0 [] ∈ prefs := getD_mem prefs 0 [] (by omega)
  -- every row is nonempty
  have hallne : ∀ row ∈ prefs, row ≠ [] := by
    intro row hrow
    obtain ⟨x, hx⟩ : ∃ x, x ∈ prefs.getD 0 [] := by
      cases hr : prefs.getD 0 [] with
      | nil => exact absurd hr hne
      | cons a l => exact ⟨a, by simp [hr]⟩
    have hxt : x < t := h6 _ hrow0 x hx
    have hxobjs : objs.getD x 0 ≠ 0 := (h7 _ hrow0 x hxt).mp hx
    have : x ∈ row := (h7 row hrow x hxt).mpr hxobjs
    exact List.ne_nil_of_mem this
  set favs := favsOf prefs with hfavsd
  have hfav_in_row : ∀ f ∈ favs, ∃ row ∈ prefs, row.headD 0 = f ∧ f ∈ row := by
    intro f hf
    obtain ⟨row, hrow, hfr⟩ := List.mem_map.mp hf
    exact ⟨row, hrow, hfr, hfr ▸ headD_mem row 0 (hallne row hrow)⟩
  have hfavlt : ∀ f ∈ favs, f < t := by
    intro f hf
    obtain ⟨row, hrow, _, hfrow⟩ := hfav_in_row f hf
    exact h6 row hrow f hfrow
  have hfavobjs : ∀ f ∈ favs, 0 < objs.getD f 0 := by
    intro f hf
    obtain ⟨row, hrow, _, hfrow⟩ := hfav_in_row f hf
    have hne0 := (h7 row hrow f (hfavlt f hf)).mp hfrow
    have h0le := (h8 f (hfavlt f hf)).1
    exact lt_of_le_of_ne h0le (Ne.symm hne0)
  have hfavsne : favs ≠ [] := by
    have : favs.length = n := by simp [hfavsd, favsOf, h1]
    intro h
    rw [h] at this
    simp at this
    omega
  set te := toEat objs favs with hted
  -- facts about the step size
  set mapped := favs.dedup.map (fun x => objs.getD x 0 / (favs.count x : ℚ)) with hmappedd
  have hmapped_pos : ∀ e ∈ mapped, 0 < e := by
    intro e he
    obtain ⟨x, hx, hex⟩ := List.mem_map.mp he
    have hxf : x ∈ favs := List.mem_dedup.mp hx
    have hcnt : 0 < favs.count x := List.count_pos_iff.mpr hxf
    rw [← hex]
    exact div_pos (hfavobjs x hxf) (by exact_mod_cast hcnt)
  have hmapped_le_one : ∀ e ∈ mapped, e ≤ 1 := by
    intro e he
    obtain ⟨x, hx, hex⟩ := List.mem_map.mp he
    have hxf : x ∈ favs := List.mem_dedup.mp hx
    have hcnt : (1 : ℚ) ≤ favs.count x := by
      exact_mod_cast List.count_pos_iff.mpr hxf
    rw [← hex]
    calc objs.getD x 0 / (favs.count x : ℚ) ≤ objs.getD x 0 / 1 := by
          apply div_le_div_of_nonneg_left (le_of_lt (hfavobjs x hxf)) (by norm_num) hcnt
      _ = objs.getD x 0 := by ring
      _ ≤ 1 := (h8 x (hfavlt x hxf)).2
  have htpos : 0 < te := by
    rcases foldl_min_mem mapped 1 with h | h
    · rw [hted, toEat, ← hmappedd, h]; norm_num
    · exact hmapped_pos _ h
  have hte_le : ∀ e ∈ mapped, te ≤ e := fun e he => foldl_min_le_mem mapped 1 e he
  have hte_eq : te = mapped.foldl min 1 := by
    rw [hted, toEat, ← hmappedd]
  have hattain : ∃ x0 ∈ favs, (favs.count x0 : ℚ) * te = objs.getD x0 0 := by
    have hmne : mapped ≠ [] := by
      rw [hmappedd]
      intro h
      exact hfavsne ((List.dedup_eq_nil favs).mp (List.map_eq_nil_iff.mp h))
    have hcnt_ne : ∀ x ∈ favs, ((favs.count x : ℚ)) ≠ 0 := by
      intro x hx
      have : 0 < favs.count x := List.count_pos_iff.mpr hx
      exact_mod_cast Nat.pos_iff_ne_zero.mp this
    rcases foldl_min_mem mapped 1 with h | h
    · -- the fold stayed at 1
      obtain ⟨e0, he0⟩ := List.exists_mem_of_ne_nil mapped hmne
      have hte1 : te = 1 := by rw [hte_eq, h]
      have he0te : e0 = te := le_antisymm (hte1 ▸ hmapped_le_one e0 he0)
        (hte_le e0 he0)
      obtain ⟨x0, hx0, hex⟩ := List.mem_map.mp he0
      have hx0f : x0 ∈ favs := List.mem_dedup.mp hx0
      refine ⟨x0, hx0f, ?_⟩
      rw [← he0te, ← hex, mul_comm, div_mul_cancel₀ _ (hcnt_ne x0 hx0f)]
    · -- the fold is attained at some favoured item
      have : te ∈ mapped := hte_eq ▸ h
      obtain ⟨x0, hx0, hex⟩ := List.mem_map.mp this
      have hx0f : x0 ∈ favs := List.mem_dedup.mp hx0
      refine ⟨x0, hx0f, ?_⟩
      rw [← hex, mul_comm, div_mul_cancel₀ _ (hcnt_ne x0 hx0f)]
  have hcount_mul_le : ∀ f ∈ favs, (favs.count f : ℚ) * te ≤ objs.getD f 0 := by
    intro f hf
    have hmem : objs.getD f 0 / (favs.count f : ℚ) ∈ mapped := by
      rw [hmappedd]
      exact List.mem_map.mpr ⟨f, List.mem_dedup.mpr hf, rfl⟩
    have hcp : (0 : ℚ) < (favs.count f : ℚ) := by
      exact_mod_cast List.count_pos_iff.mpr hf
    have := hte_le _ hmem
    calc (favs.count f : ℚ) * te ≤ (favs.count f : ℚ) * (objs.getD f 0 / (favs.count f : ℚ)) :=
          mul_le_mul_of_nonneg_left this (le_of_lt hcp)
      _ = objs.getD f 0 := by rw [mul_comm, div_mul_cancel₀ _ (ne_of_gt hcp)]
  -- run the eating loop
  have heads_lt : ∀ row ∈ prefs, row.headD 0 < objs.length := by
    intro row hrow
    have : row.headD 0 ∈ favs := List.mem_map_of_mem _ hrow
    rw [h2]
    exact hfavlt _ this
  obtain ⟨objs2, heat, hlen2, hpt, hsum2⟩ :=
    eatStep_spec te prefs alloc objs (h1.trans h3.symm) hallne heads_lt
  have hcount_zero : ∀ x, x ∉ favs → favs.count x = 0 := fun x hx =>
    List.count_eq_zero.mpr hx
  -- the new (filtered) preference rows
  have hobjs2_of_not_fav : ∀ x, x ∉ favs → objs2.getD x 0 = objs.getD x 0 := by
    intro x hx
    rw [hpt x, hcount_zero x hx]
    push_cast
    ring
  have hobjs2_ne_imp : ∀ x, objs2.getD x 0 ≠ 0 → objs.getD x 0 ≠ 0 := by
    intro x hne2 hobjs0
    by_cases hf : x ∈ favs
    · exact absurd hobjs0 (ne_of_gt (hfavobjs x hf))
    · rw [hobjs2_of_not_fav x hf] at hne2
      exact hne2 hobjs0
  have halloc2row : ∀ i, i < n →
      (List.zipWith (updRowPS te) prefs alloc).getD i [] =
        updRowPS te (prefs.getD i []) (alloc.getD i []) := by
    intro i hi
    exact zipWith_upd_getD te prefs alloc i (by omega) (h1.trans h3.symm)
  have hrowlen : ∀ i, i < n → (alloc.getD i []).length = t :=
    fun i hi => h4 _ (getD_mem alloc i [] (by omega))
  have hprowmem : ∀ i, i < n → prefs.getD i [] ∈ prefs :=
    fun i hi => getD_mem prefs i [] (by omega)
  have hfavi : ∀ i, i < n → (prefs.getD i []).headD 0 < t :=
    fun i hi => by
      have := heads_lt _ (hprowmem i hi)
      omega
  refine ⟨prefs.map (fun y => y.filter (fun x => decide (objs2.getD x 0 ≠ 0))), objs2,
    List.zipWith (updRowPS te) prefs alloc, ?_, ?_, ?_, ?_⟩
  · -- the step itself computes
    show psStep prefs objs alloc = _
    simp only [psStep, Option.bind_eq_bind, Option.pure_def]
    rw [mapOpt_headD prefs hallne]
    simp only [Option.some_bind]
    have heat' : eatStep (toEat objs (favsOf prefs)) prefs alloc objs =
        some (List.zipWith (updRowPS (toEat objs (favsOf prefs))) prefs alloc, objs2) := heat
    rw [heat']
    rfl
  · -- the invariant is preserved
    refine ⟨by simp [h1], by omega, ?_, ?_, ?_, ?_, ?_, ?_, ?_, ?_, ?_⟩
    · rw [List.length_zipWith, h1, h3]
      omega
    · -- rows of the new allocation have length t
      intro row hrow
      rw [List.mem_iff_getElem] at hrow
      obtain ⟨i, hi, hrieq⟩ := hrow
      have hin : i < n := by
        rw [List.length_zipWith, h1, h3] at hi
        omega
      rw [← List.getD_eq_getElem _ [] hi, halloc2row i hin] at hrieq
      rw [← hrieq, updRowPS, List.length_set]
      exact hrowlen i hin
    · -- new rows are duplicate-free
      intro row hrow
      obtain ⟨row0, hrow0m, hfe⟩ := List.mem_map.mp hrow
      exact hfe ▸ (h5 row0 hrow0m).filter _
    · -- items stay in range
      intro row hrow x hx
      obtain ⟨row0, hrow0m, hfe⟩ := List.mem_map.mp hrow
      rw [← hfe] at hx
      exact h6 row0 hrow0m x (List.mem_of_mem_filter hx)
    · -- membership matches remaining supply
      intro row hrow x hxt
      obtain ⟨row0, hrow0m, hfe⟩ := List.mem_map.mp hrow
      rw [← hfe, List.mem_filter]
      constructor
      · intro ⟨_, hp⟩
        simpa using hp
      · intro hne2
        refine ⟨(h7 row0 hrow0m x hxt).mpr (hobjs2_ne_imp x hne2), by simpa using hne2⟩
    · -- supplies stay within [0, 1]
      intro x hxt
      constructor
      · rw [hpt x]
        by_cases hf : x ∈ favs
        · have := hcount_mul_le x hf
          linarith
        · rw [hcount_zero x hf]
          have := (h8 x hxt).1
          push_cast
          linarith
      · rw [hpt x]
        have hc : (0 : ℚ) ≤ (favs.count x : ℚ) * te :=
          mul_nonneg (by positivity) (le_of_lt htpos)
        have := (h8 x hxt).2
        linarith
    · -- allocations stay non-negative
      intro i hi x hxt
      have hrw : ent (List.zipWith (updRowPS te) prefs alloc) i x =
          (updRowPS te (prefs.getD i []) (alloc.getD i [])).getD x 0 := by
        rw [ent, halloc2row i hi]
      rw [hrw, updRowPS]
      by_cases hfx : (prefs.getD i []).headD 0 = x
      · rw [hfx, getD_set_self _ x _ 0 (by rw [hrowlen i hi]; omega)]
        have := h9 i hi x hxt
        rw [ent] at this
        rw [hfx] at *
        linarith [htpos]
      · rw [getD_set_ne _ _ x _ 0 hfx]
        exact h9 i hi x hxt
    · -- column sums complement supply
      intro x hxt
      rw [colSum_zipWith_upd te x t hxt prefs alloc (h1.trans h3.symm)
        (fun r hr => h4 r hr) (fun r hr => by
          have : r.headD 0 ∈ favs := List.mem_map_of_mem _ hr
          exact hfavlt _ this)]
      rw [hpt x]
      have := h10 x hxt
      linarith
    · -- all agents have eaten the same amount
      intro i hi
      have hrw : (List.zipWith (updRowPS te) prefs alloc).getD i [] =
          updRowPS te (prefs.getD i []) (alloc.getD i []) := halloc2row i hi
      rw [hrw, updRowPS, sum_set_q _ _ _ (by rw [hrowlen i hi]; exact hfavi i hi)]
      rw [hsum2, h1]
      have := h11 i hi
      push_cast
      linarith
  · -- the first preference row strictly shrinks
    obtain ⟨x0, hx0f, hx0eq⟩ := hattain
    have hx0t : x0 < t := hfavlt x0 hx0f
    have hx0row0 : x0 ∈ prefs.getD 0 [] := by
      refine (h7 _ hrow0 x0 hx0t).mpr ?_
      exact ne_of_gt (hfavobjs x0 hx0f)
    have hobjs2x0 : objs2.getD x0 0 = 0 := by
      rw [hpt x0, hx0eq]
      ring
    have hmap0 : (prefs.map (fun y => y.filter (fun x => decide (objs2.getD x 0 ≠ 0)))).getD 0 []
        = (prefs.getD 0 []).filter (fun x => decide (objs2.getD x 0 ≠ 0)) := by
      rw [List.getD_eq_getElem _ [] (by simp; omega), List.getElem_map,
        List.getD_eq_getElem _ [] (by omega)]
    rw [hmap0]
    refine filter_length_lt_of_mem _ _ x0 hx0row0 ?_
    show decide (objs2.getD x0 0 ≠ 0) = false
    rw [hobjs2x0]
    decide
  · -- some favoured item is exhausted and vanishes from every row
    obtain ⟨x0, hx0f, hx0eq⟩ := hattain
    have hx0t : x0 < t := hfavlt x0 hx0f
    have hobjs2x0 : objs2.getD x0 0 = 0 := by
      rw [hpt x0, hx0eq]
      ring
    obtain ⟨row, hrowm, hhd, _⟩ := hfav_in_row x0 hx0f
    obtain ⟨⟨i, hi⟩, hgi⟩ := List.mem_iff_get.mp hrowm
    refine ⟨x0, hx0t, ⟨i, by omega, ?_⟩, hobjs2x0, ?_⟩
    · have hgd : prefs.getD i [] = row := by
        rw [List.getD_eq_getElem _ [] hi, ← hgi]
        simp [List.get_eq_getElem]
      rw [hgd, head?_eq_headD row 0 (hallne row hrowm), hhd]
    · intro row2 hrow2 hmem2
      obtain ⟨row0, hrow0m, hfe⟩ := List.mem_map.mp hrow2
      rw [← hfe, List.mem_filter] at hmem2
      have h2x := hmem2.2
      rw [hobjs2x0] at h2x
      exact absurd h2x (by decide)

theorem getD_replicate {α : Type*} (t x : ℕ) (v d : α) (h : x < t) :
    (List.replicate t v).getD x d = v := by
  rw [List.getD_eq_getElem _ _ (by simpa using h)]
  exact List.getElem_replicate _ _

/-- Running the fueled `run_ps` loop from any invariant state, with fuel
exceeding the current preference-row length, terminates with an allocation
whose columns all sum to exactly 1 and whose rows all sum to the same value
`(t : ℚ) / n`. -/
theorem runPSAux_spec : ∀ (fuel : ℕ) (prefs : List (List ℕ)) (objs : List ℚ)
    (alloc : List (List ℚ)) (n t : ℕ), 1 ≤ n →
    PSInv n t prefs objs alloc →
    (prefs.getD 0 []).length < fuel →
    ∃ alloc2, runPSAux fuel prefs objs alloc = some alloc2 ∧
      alloc2.length = n ∧ (∀ row ∈ alloc2, row.length = t) ∧
      (∀ i, i < n → ∀ x, x < t → 0 ≤ ent alloc2 i x) ∧
      (∀ x, x < t → colSum alloc2 x = 1) ∧
      (∀ i, i < n → (n : ℚ) * (alloc2.getD i []).sum = t)
  | 0, prefs, objs, alloc, n, t => by
    intro _ _ hf
    omega
  | fuel + 1, prefs, objs, alloc, n, t => by
    intro hn hinv hf
    have h1 := hinv.1
    cases prefs with
    | nil => simp at h1; omega
    | cons p0 rest =>
      by_cases hp0 : p0 = []
      · -- the loop guard fails: termination
        subst hp0
        obtain ⟨h1, h2, h3, h4, h5, h6, h7, h8, h9, h10, h11⟩ := hinv
        have hrow0 : ([] : List ℕ) ∈ ([] :: rest : List (List ℕ)) := by simp
        have hzero : ∀ x, x < t → objs.getD x 0 = 0 := by
          intro x hx
          by_contra hne
          have : x ∈ ([] : List ℕ) := (h7 _ hrow0 x hx).mpr hne
          simp at this
        have hsum0 : objs.sum = 0 := by
          apply sum_eq_zero_sum_q
          intro v hv
          rw [List.mem_iff_getElem] at hv
          obtain ⟨i, hi, hie⟩ := hv
          rw [← List.getD_eq_getElem _ 0 hi] at hie
          rw [← hie]
          exact hzero i (by omega)
        refine ⟨alloc, ?_, h3, h4, h9, ?_, ?_⟩
        · simp [runPSAux]
        · intro x hx
          have := h10 x hx
          rw [hzero x hx] at this
          linarith
        · intro i hi
          rw [h11 i hi, hsum0]
          ring
      · -- one more round
        obtain ⟨prefs2, objs2, alloc2, hps, hinv2, hdec, _⟩ :=
          psStep_spec n t hn (p0 :: rest) objs alloc hinv (by simpa using hp0)
        have hrec := runPSAux_spec fuel prefs2 objs2 alloc2 n t hn hinv2 (by
          simp only [List.getD_cons_zero] at hdec hf ⊢
          omega)
        obtain ⟨alloc3, hrun, hprops⟩ := hrec
        refine ⟨alloc3, ?_, hprops⟩
        simp only [runPSAux, if_neg hp0]
        rw [hps]
        exact hrun

/-- The full correctness of `run_ps` on a valid ordinal profile: it
terminates, the result is an `n × (c·n)` non-negative matrix, every column
sums to exactly 1 and every row sums to exactly `c`. -/
theorem run_ps_main (n c : ℕ) (prefs : List (List ℕ)) (hn : 1 ≤ n)
    (hv : ValidPrefs n (c * n) prefs) :
    ∃ alloc, run_ps n c prefs = some alloc ∧
      alloc.length = n ∧ (∀ row ∈ alloc, row.length = c * n) ∧
      (∀ i, i < n → ∀ x, x < c * n → 0 ≤ ent alloc i x) ∧
      (∀ x, x < c * n → colSum alloc x = 1) ∧
      (∀ row ∈ alloc, row.sum = (c : ℚ)) := by
  obtain ⟨hlen, hperm⟩ := hv
  set t := c * n with htd
  have hinv : PSInv n t prefs (List.replicate t 1)
      (List.replicate n (List.replicate t 0)) := by
    refine ⟨hlen, by simp, by simp, ?_, ?_, ?_, ?_, ?_, ?_, ?_, ?_⟩
    · intro row hrow
      rw [List.eq_of_mem_replicate hrow]
      simp
    · intro row hrow
      exact ((hperm row hrow).nodup_iff).mpr (List.nodup_range t)
    · intro row hrow x hx
      have := (hperm row hrow).mem_iff.mp hx
      simpa using this
    · intro row hrow x hx
      rw [getD_replicate t x 1 0 hx]
      constructor
      · intro _
        norm_num
      · intro _
        exact (hperm row hrow).mem_iff.mpr (by simpa using hx)
    · intro x hx
      rw [getD_replicate t x 1 0 hx]
      norm_num
    · intro i hi x hx
      rw [ent, getD_replicate n i (List.replicate t 0) [] hi, getD_replicate t x 0 0 hx]
    · intro x hx
      rw [colSum, List.map_replicate, getD_replicate t x 1 0 hx]
      rw [getD_replicate t x 0 0 hx]
      simp
    · intro i hi
      rw [getD_replicate n i (List.replicate t 0) [] hi]
      simp [List.sum_replicate]
  have hfuel : (prefs.getD 0 []).length < c * n + 1 := by
    have hrow0 : prefs.getD 0 [] ∈ prefs := getD_mem prefs 0 [] (by omega)
    have := (hperm _ hrow0).length_eq
    rw [this, List.length_range]
    omega
  obtain ⟨alloc, hrun, hl, hrl, hnn, hcol, hrow⟩ :=
    runPSAux_spec (c * n + 1) prefs (List.replicate t 1)
      (List.replicate n (List.replicate t 0)) n t hn hinv hfuel
  refine ⟨alloc, hrun, hl, hrl, hnn, hcol, ?_⟩
  intro row hrowm
  rw [List.mem_iff_getElem] at hrowm
  obtain ⟨i, hi, hie⟩ := hrowm
  have hin : i < n := by omega
  have := hrow i hin
  rw [List.getD_eq_getElem _ [] hi, hie] at this
  have hn0 : (n : ℚ) ≠ 0 := by
    exact_mod_cast Nat.pos_iff_ne_zero.mp hn
  have ht : (t : ℚ) = (n : ℚ) * (c : ℚ) := by
    rw [htd]
    push_cast
    ring
  rw [ht] at this
  exact mul_left_cancel₀ hn0 this

/-! ### C2 and C3: the PS allocation invariants -/

/-- C2 counterexample: on the valid ordinal profile `[[0, 1]]` (n = 1, c = 2)
`run_ps` returns `[[1, 1]]`, whose single row sums to 2, not 1.  The claim
that every row of the fractional allocation sums to exactly 1 is false: rows
sum to `c`, which exceeds 1 whenever `m > n`. -/
theorem run_ps_row_sum_one_refuted :
    run_ps 1 2 [[0, 1]] = some [[1, 1]] ∧
      ¬ (∀ row ∈ [[(1 : ℚ), 1]], row.sum = 1) := by
  constructor
  · decide
  · intro h
    have := h [1, 1] (by simp)
    norm_num [List.sum_cons] at this

/-- C2 (amended): on every valid ordinal profile, every row of the `run_ps`
allocation sums to exactly `c` (so to 1 exactly when `c = 1`), and every
column sums to at most 1 (in fact exactly 1). -/
theorem run_ps_rows_sum_c_cols_le_one (n c : ℕ) (prefs : List (List ℕ))
    (hn : 1 ≤ n) (hv : ValidPrefs n (c * n) prefs) :
    ∃ alloc, run_ps n c prefs = some alloc ∧
      (∀ row ∈ alloc, row.sum = (c : ℚ)) ∧
      (∀ x, x < c * n → colSum alloc x ≤ 1) := by
  obtain ⟨alloc, hrun, _, _, _, hcol, hrow⟩ := run_ps_main n c prefs hn hv
  exact ⟨alloc, hrun, hrow, fun x hx => le_of_eq (hcol x hx)⟩

/-- C2 amended-claim witness: the amended theorem applied to the concrete
profile `[[0, 1]]` with `n = 1`, `c = 2`. -/
theorem run_ps_rows_sum_c_cols_le_one_witness :
    ∃ alloc, run_ps 1 2 [[0, 1]] = some alloc ∧
      (∀ row ∈ alloc, row.sum = ((2 : ℕ) : ℚ)) ∧
      (∀ x, x < 2 * 1 → colSum alloc x ≤ 1) :=
  run_ps_rows_sum_c_cols_le_one 1 2 [[0, 1]] (by norm_num)
    ⟨by norm_num, by decide⟩

/-- C3: on every valid ordinal profile (each row a permutation of
`[0, c·n)`), `run_ps` terminates and its allocation has every row summing to
exactly `c` and every column (item or dummy) summing to exactly 1: the entire
supply is consumed, shared equally in time across the agents. -/
theorem run_ps_rows_c_cols_one (n c : ℕ) (prefs : List (List ℕ))
    (hn : 1 ≤ n) (hv : ValidPrefs n (c * n) prefs) :
    ∃ alloc, run_ps n c prefs = some alloc ∧
      alloc.length = n ∧ (∀ row ∈ alloc, row.length = c * n) ∧
      (∀ row ∈ alloc, row.sum = (c : ℚ)) ∧
      (∀ x, x < c * n → colSum alloc x = 1) := by
  obtain ⟨alloc, hrun, hl, hrl, _, hcol, hrow⟩ := run_ps_main n c prefs hn hv
  exact ⟨alloc, hrun, hl, hrl, hrow, hcol⟩

/-- C3 witness: the theorem applied to the concrete profile
`[[0, 1], [1, 0]]` with `n = 2`, `c = 1`. -/
theorem run_ps_rows_c_cols_one_witness :
    ∃ alloc, run_ps 2 1 [[0, 1], [1, 0]] = some alloc ∧
      alloc.length = 2 ∧ (∀ row ∈ alloc, row.length = 1 * 2) ∧
      (∀ row ∈ alloc, row.sum = ((1 : ℕ) : ℚ)) ∧
      (∀ x, x < 1 * 2 → colSum alloc x = 1) :=
  run_ps_rows_c_cols_one 2 1 [[0, 1], [1, 0]] (by norm_num)
    ⟨by norm_num, by decide⟩

/-! ### The representative splitter -/

theorem forall_mem_of_getD (l : List ℚ) (P : ℚ → Prop)
    (h : ∀ x, x < l.length → P (l.getD x 0)) : ∀ v ∈ l, P v := by
  intro v hv
  rw [List.mem_iff_getElem] at hv
  obtain ⟨i, hi, hie⟩ := hv
  rw [← List.getD_eq_getElem _ 0 hi] at hie
  exact hie ▸ h i hi

theorem sum_eq_zero_of_getD (l : List ℚ) (h : ∀ x, x < l.length → l.getD x 0 = 0) :
    l.sum = 0 :=
  sum_eq_zero_sum_q l (forall_mem_of_getD l (fun v => v = 0) h)

/-- The inner eating loop of `representative`, fully characterized: it
succeeds whenever the demanded amount fits in the remaining row mass, it
moves exactly `amt` units of mass from the allocation row into the (fresh)
representative row, pointwise, consuming a prefix of the preference row. -/
theorem eatRep_spec : ∀ (prow : List ℕ) (arow : List ℚ) (amt : ℚ) (sub : List ℚ) (t : ℕ),
    prow.Nodup →
    (∀ x ∈ prow, x < t) →
    arow.length = t →
    sub.length = t →
    (∀ x, x < t → 0 ≤ arow.getD x 0) →
    (∀ x, x < t → 0 ≤ sub.getD x 0) →
    (∀ x ∈ prow, sub.getD x 0 = 0) →
    (∀ x, x < t → x ∉ prow → arow.getD x 0 = 0) →
    0 ≤ amt →
    amt ≤ arow.sum →
    ∃ sub2 prow2 arow2 k,
      eatRep prow arow amt sub = some (sub2, prow2, arow2) ∧
      sub2.length = t ∧ arow2.length = t ∧
      prow2 = prow.drop k ∧
      (0 < amt → arow.getD (prow.headD 0) 0 ≤ amt → 1 ≤ k) ∧
      (∀ x, x < t → sub2.getD x 0 + arow2.getD x 0 = sub.getD x 0 + arow.getD x 0) ∧
      (∀ x, x < t → 0 ≤ arow2.getD x 0) ∧
      (∀ x, x < t → 0 ≤ sub2.getD x 0) ∧
      (∀ x, x < t → x ∉ prow2 → arow2.getD x 0 = 0) ∧
      sub2.sum = sub.sum + amt ∧
      arow2.sum = arow.sum - amt
  | prow, arow, amt, sub, t => by
    intro hnd hlt hal hsl han hsn hs0 hout hamt hmass
    by_cases hle : amt ≤ 0
    · -- the loop guard fails immediately
      have hamt0 : amt = 0 := le_antisymm hle hamt
      refine ⟨sub, prow, arow, 0, ?_, hsl, hal, by simp, ?_, ?_, han, hsn, hout, ?_, ?_⟩
      · cases prow <;> simp [eatRep, hle]
      · intro h0
        rw [hamt0] at h0
        exact absurd h0 (by norm_num)
      · intro x _
        ring
      · rw [hamt0]; ring
      · rw [hamt0]; ring
    · cases prow with
      | nil =>
        exfalso
        have : arow.sum = 0 := by
          apply sum_eq_zero_of_getD
          intro x hx
          exact hout x (by omega) (by simp)
        rw [this] at hmass
        exact hle hmass
      | cons cur rest =>
        have hcurt : cur < t := hlt cur (by simp)
        have hcural : cur < arow.length := by omega
        have hcursl : cur < sub.length := by omega
        have hsubcur : sub.getD cur 0 = 0 := hs0 cur (by simp)
        have hvnn : 0 ≤ arow.getD cur 0 := han cur hcurt
        by_cases hav : amt < arow.getD cur 0
        · -- partial consumption of the head item; the loop then exits
          refine ⟨sub.set cur amt, cur :: rest, arow.set cur (arow.getD cur 0 - amt), 0,
            ?_, by simp [hsl], by simp [hal], by simp, ?_, ?_, ?_, ?_, ?_, ?_, ?_⟩
          · simp only [eatRep, if_neg hle]
            rw [if_pos hav]
          · intro _ habs
            simp only [List.headD_cons] at habs
            exact absurd (lt_of_lt_of_le hav habs) (lt_irrefl amt)
          · intro x hx
            by_cases hxc : x = cur
            · subst hxc
              rw [getD_set_self _ _ _ 0 hcursl, getD_set_self _ _ _ 0 hcural, hsubcur]
              ring
            · rw [getD_set_ne _ _ _ _ 0 (fun h => hxc h.symm),
                getD_set_ne _ _ _ _ 0 (fun h => hxc h.symm)]
          · intro x hx
            by_cases hxc : x = cur
            · subst hxc
              rw [getD_set_self _ _ _ 0 hcural]
              linarith
            · rw [getD_set_ne _ _ _ _ 0 (fun h => hxc h.symm)]
              exact han x hx
          · intro x hx
            by_cases hxc : x = cur
            · subst hxc
              rw [getD_set_self _ _ _ 0 hcursl]
              linarith
            · rw [getD_set_ne _ _ _ _ 0 (fun h => hxc h.symm)]
              exact hsn x hx
          · intro x hx hnx
            have hxc : x ≠ cur := fun h => hnx (h ▸ List.mem_cons_self cur rest)
            rw [getD_set_ne _ _ _ _ 0 (fun h => hxc h.symm)]
            exact hout x hx hnx
          · rw [sum_set_q sub cur amt hcursl, hsubcur]
            ring
          · rw [sum_set_q arow cur _ hcural]
            ring
        · -- full consumption of the head item; pop it and continue
          have hvle : arow.getD cur 0 ≤ amt := le_of_not_lt hav
          have hrec := eatRep_spec rest (arow.set cur 0) (amt - arow.getD cur 0)
            (sub.set cur (arow.getD cur 0)) t
            (List.Nodup.of_cons hnd)
            (fun x hx => hlt x (by simp [hx]))
            (by simp [hal]) (by simp [hsl])
            (by
              intro x hx
              by_cases hxc : x = cur
              · subst hxc
                rw [getD_set_self _ _ _ 0 hcural]
              · rw [getD_set_ne _ _ _ _ 0 (fun h => hxc h.symm)]
                exact han x hx)
            (by
              intro x hx
              by_cases hxc : x = cur
              · subst hxc
                rw [getD_set_self _ _ _ 0 hcursl]
                exact hvnn
              · rw [getD_set_ne _ _ _ _ 0 (fun h => hxc h.symm)]
                exact hsn x hx)
            (by
              intro x hx
              have hxc : x ≠ cur := by
                intro h
                subst h
                exact (List.nodup_cons.mp hnd).1 hx
              rw [getD_set_ne _ _ _ _ 0 (fun h => hxc h.symm)]
              exact hs0 x (by simp [hx]))
            (by
              intro x hx hnx
              by_cases hxc : x = cur
              · subst hxc
                rw [getD_set_self _ _ _ 0 hcural]
              · rw [getD_set_ne _ _ _ _ 0 (fun h => hxc h.symm)]
                exact hout x hx (by simp [hxc, hnx]))
            (by linarith)
            (by
              rw [sum_set_q arow cur 0 hcural]
              linarith)
          obtain ⟨sub2, prow2, arow2, k, heq, hsl2, hal2, hdk, _, hcons, han2, hsn2,
            hout2, hsum2, hasum2⟩ := hrec
          refine ⟨sub2, prow2, arow2, k + 1, ?_, hsl2, hal2, by simp [hdk], ?_, ?_,
            han2, hsn2, hout2, ?_, ?_⟩
          · simp only [eatRep, if_neg hle]
            rw [if_neg hav]
            exact heq
          · intro _ _
            omega
          · intro x hx
            rw [hcons x hx]
            by_cases hxc : x = cur
            · subst hxc
              rw [getD_set_self _ _ _ 0 hcursl, getD_set_self _ _ _ 0 hcural, hsubcur]
              ring
            · rw [getD_set_ne _ _ _ _ 0 (fun h => hxc h.symm),
                getD_set_ne _ _ _ _ 0 (fun h => hxc h.symm)]
          · rw [hsum2, sum_set_q sub cur _ hcursl, hsubcur]
            ring
          · rw [hasum2, sum_set_q arow cur 0 hcural]
            ring

/-- The `c`-fold representative split of one agent's row: produces `k` rows
each summing to 1, pointwise exhausting the agent's allocation row. -/
theorem repAgent_spec : ∀ (k : ℕ) (prow : List ℕ) (arow : List ℚ) (t : ℕ),
    prow.Nodup →
    (∀ x ∈ prow, x < t) →
    arow.length = t →
    (∀ x, x < t → 0 ≤ arow.getD x 0) →
    (∀ x, x < t → x ∉ prow → arow.getD x 0 = 0) →
    ((k : ℚ) ≤ arow.sum) →
    ∃ subs prow2 arow2,
      repAgent t k prow arow = some (subs, prow2, arow2) ∧
      subs.length = k ∧
      (∀ s ∈ subs, s.length = t ∧ s.sum = 1 ∧ ∀ x, x < t → 0 ≤ s.getD x 0) ∧
      (∃ j, prow2 = prow.drop j ∧
        (1 ≤ k → (∀ x, x < t → arow.getD x 0 ≤ 1) → prow ≠ [] → 1 ≤ j)) ∧
      arow2.length = t ∧
      (∀ x, x < t → 0 ≤ arow2.getD x 0) ∧
      (∀ x, x < t → x ∉ prow2 → arow2.getD x 0 = 0) ∧
      arow2.sum = arow.sum - k ∧
      (∀ x, x < t → ((subs.map (fun s => s.getD x 0)).sum) + arow2.getD x 0 = arow.getD x 0)
  | 0, prow, arow, t => by
    intro hnd hlt hal han hout _
    refine ⟨[], prow, arow, rfl, rfl, by simp, ⟨0, by simp, by omega⟩, hal, han, hout,
      by push_cast; ring, ?_⟩
    intro x _
    simp
  | k + 1, prow, arow, t => by
    intro hnd hlt hal han hout hmass
    have h1le : (1 : ℚ) ≤ arow.sum := by
      have : (0 : ℚ) ≤ (k : ℚ) := by positivity
      push_cast at hmass
      linarith
    obtain ⟨sub2, prow1, arow1, k1, heq1, hsl2, hal1, hdk1, hpop1, hcons1, han1, hsn1,
      hout1, hsum1, hasum1⟩ :=
      eatRep_spec prow arow 1 (List.replicate t 0) t hnd hlt hal (by simp)
        han (fun x hx => le_of_eq (getD_replicate t x 0 0 hx).symm)
        (fun x hx => getD_replicate t x 0 0 (hlt x hx))
        hout (by norm_num) h1le
    obtain ⟨subs, prow2, arow2, heq2, hlen2, hrows2, ⟨j2, hdj2, _⟩, hal2, han2, hout2,
      hasum2, hacc2⟩ :=
      repAgent_spec k prow1 arow1 t
        (hdk1 ▸ (List.drop_sublist k1 prow).nodup hnd)
        (fun x hx => hlt x (List.mem_of_mem_drop (hdk1 ▸ hx)))
        hal1 han1 hout1
        (by rw [hasum1]; push_cast at hmass ⊢; linarith)
    refine ⟨sub2 :: subs, prow2, arow2, ?_, by simp [hlen2], ?_, ?_, hal2, han2, hout2,
      ?_, ?_⟩
    · simp only [repAgent, heq1, Option.bind_eq_bind, Option.some_bind, heq2,
        Option.pure_def]
    · intro s hs
      rcases List.mem_cons.mp hs with rfl | hs
      · refine ⟨hsl2, ?_, hsn1⟩
        rw [hsum1]
        simp
      · exact hrows2 s hs
    · refine ⟨j2 + k1, ?_, ?_⟩
      · rw [hdj2, hdk1, List.drop_drop]
        congr 1
        omega
      · intro _ hle1 hne
        have := hpop1 (by norm_num) (hle1 _ (hlt _ (headD_mem prow 0 hne)))
        omega
    · rw [hasum2, hasum1]
      push_cast
      ring
    · intro x hx
      simp only [List.map_cons, List.sum_cons]
      have := hacc2 x hx
      have hc1 := hcons1 x hx
      rw [getD_replicate t x 0 0 hx] at hc1
      linarith

/-- The agent-major loop of `representative`: produces `c` rows per agent,
each summing to 1, block-wise exhausting each agent's allocation row and
preserving every column sum; when `c ≥ 1` and allocation entries are at most
1, every agent's (caller-visible) preference row strictly shrinks. -/
theorem representativeAux_spec : ∀ (prefs : List (List ℕ)) (alloc : List (List ℚ)) (t c : ℕ),
    prefs.length = alloc.length →
    (∀ row ∈ prefs, row.Nodup) →
    (∀ row ∈ prefs, ∀ x ∈ row, x < t) →
    (∀ row ∈ alloc, row.length = t) →
    (∀ row ∈ alloc, ∀ x, x < t → 0 ≤ row.getD x 0) →
    (∀ i, i < prefs.length → ∀ x, x < t → x ∉ prefs.getD i [] →
      (alloc.getD i []).getD x 0 = 0) →
    (∀ row ∈ alloc, row.sum = (c : ℚ)) →
    ∃ res prefs2 alloc2,
      representativeAux t c prefs alloc = some (res, prefs2, alloc2) ∧
      res.length = c * prefs.length ∧
      (∀ s ∈ res, s.length = t ∧ s.sum = 1 ∧ ∀ x, x < t → 0 ≤ s.getD x 0) ∧
      (∀ i, i < prefs.length → ∀ x, x < t →
        (((res.drop (c * i)).take c).map (fun s => s.getD x 0)).sum = ent alloc i x) ∧
      (∀ x, x < t → colSum res x = colSum alloc x) ∧
      prefs2.length = prefs.length ∧
      (1 ≤ c → (∀ row ∈ alloc, ∀ x, x < t → row.getD x 0 ≤ 1) →
        ∀ i, i < prefs.length → prefs.getD i [] ≠ [] →
          (prefs2.getD i []).length < (prefs.getD i []).length)
  | [], alloc, t, c => by
    intro hlen _ _ _ _ _ _
    have : alloc = [] := by
      cases alloc with
      | nil => rfl
      | cons a as => simp at hlen
    subst this
    refine ⟨[], [], [], rfl, by simp, by simp, by simp, ?_, rfl, by simp⟩
    intro x _
    simp [colSum]
  | prow :: ps, alloc, t, c => by
    intro hlen hnd hlt harl hann hzero hasum
    cases alloc with
    | nil => simp at hlen
    | cons arow as =>
      have harow : arow.length = t := harl arow (by simp)
      obtain ⟨subs, prow1, arow1, heqA, hlenA, hrowsA, ⟨jA, hdjA, hpopA⟩, halA, hanA,
        houtA, hasumA, haccA⟩ :=
        repAgent_spec c prow arow t (hnd prow (by simp))
          (fun x hx => hlt prow (by simp) x hx) harow
          (fun x hx => hann arow (by simp) x hx)
          (fun x hx hnx => by
            have := hzero 0 (by simp) x hx
            simpa using this hnx)
          (le_of_eq (hasum arow (by simp)).symm)
      obtain ⟨res, ps2, as2, heqB, hlenB, hrowsB, hblockB, hcolB, hplB, hmutB⟩ :=
        representativeAux_spec ps as t c (by simpa using hlen)
          (fun r hr => hnd r (by simp [hr]))
          (fun r hr => hlt r (by simp [hr]))
          (fun r hr => harl r (by simp [hr]))
          (fun r hr => hann r (by simp [hr]))
          (fun i hi x hx hnx => by
            have := hzero (i + 1) (by simpa using hi) x hx
            simpa using this hnx)
          (fun r hr => hasum r (by simp [hr]))
      -- agent 0's residual allocation row is identically zero
      have harow1zero : ∀ x, x < t → arow1.getD x 0 = 0 := by
        intro x hx
        have hz : arow1.sum = 0 := by
          rw [hasumA, hasum arow (by simp)]
          ring
        have hnn : ∀ v ∈ arow1, 0 ≤ v :=
          forall_mem_of_getD arow1 _ (fun x hx => hanA x (by omega))
        have := all_zero_of_sum_zero arow1 hnn hz
        have hmem : arow1.getD x 0 ∈ arow1 := getD_mem arow1 x 0 (by omega)
        exact this _ hmem
      refine ⟨subs ++ res, prow1 :: ps2, arow1 :: as2, ?_, ?_, ?_, ?_, ?_, by simp [hplB], ?_⟩
      · simp only [representativeAux, heqA, Option.bind_eq_bind, Option.some_bind, heqB,
          Option.pure_def]
      · simp only [List.length_append, hlenA, hlenB, List.length_cons]
        ring
      · intro s hs
        rcases List.mem_append.mp hs with hs | hs
        · exact hrowsA s hs
        · exact hrowsB s hs
      · intro i hi x hx
        cases i with
        | zero =>
          have hdrop : ((subs ++ res).drop (c * 0)).take c = subs := by
            simp only [Nat.mul_zero, List.drop_zero]
            rw [← hlenA, List.take_left]
          rw [hdrop]
          have := haccA x hx
          rw [harow1zero x hx] at this
          simp only [ent, List.getD_cons_zero]
          linarith
        | succ i =>
          have hdrop : (subs ++ res).drop (c * (i + 1)) = res.drop (c * i) := by
            have : c * (i + 1) = subs.length + c * i := by
              rw [hlenA]; ring
            rw [this, List.drop_append]
          rw [hdrop]
          have := hblockB i (by simpa using hi) x hx
          rw [this]
          simp [ent]
      · intro x hx
        have hsplit : colSum (subs ++ res) x =
            (subs.map (fun s => s.getD x 0)).sum + colSum res x := by
          rw [colSum, List.map_append, List.sum_append]
          rfl
        rw [hsplit, hcolB x hx]
        have := haccA x hx
        rw [harow1zero x hx] at this
        have hsubs : (subs.map (fun s => s.getD x 0)).sum = arow.getD x 0 := by linarith
        rw [hsubs]
        simp [colSum]
      · intro hc hle1 i hi hne
        cases i with
        | zero =>
          have hj : 1 ≤ jA := hpopA hc (fun x hx => hle1 arow (by simp) x hx)
            (by simpa using hne)
          simp only [List.getD_cons_zero] at hne ⊢
          rw [hdjA, List.length_drop]
          have : prow.length ≠ 0 := by
            intro h
            exact hne (List.eq_nil_of_length_eq_zero h)
          omega
        | succ i =>
          simp only [List.getD_cons_succ] at hne ⊢
          exact hmutB hc (fun r hr => hle1 r (by simp [hr])) i (by simpa using hi) hne

/-! ### C5: the representative split -/

/-- C5: on pipeline input (a full ordinal profile and a PS allocation, i.e.
an `n × (c·n)` non-negative matrix with rows summing to `c`), `representative`
succeeds and returns exactly `c·n` rows; rows `k·c .. (k+1)·c − 1` form agent
`k`'s block; each returned row sums to exactly 1; and for every item column
the sum of agent `k`'s `c` representative rows equals agent `k`'s original
allocation of that item. -/
theorem representative_spec (n c : ℕ) (prefs : List (List ℕ)) (alloc : List (List ℚ))
    (hpl : prefs.length = n)
    (hperm : ∀ row ∈ prefs, row.Perm (List.range (c * n)))
    (hal : alloc.length = n)
    (harl : ∀ row ∈ alloc, row.length = c * n)
    (hann : ∀ row ∈ alloc, ∀ x, x < c * n → 0 ≤ row.getD x 0)
    (hasum : ∀ row ∈ alloc, row.sum = (c : ℚ)) :
    ∃ res prefs2 alloc2,
      representative prefs alloc n c = some (res, prefs2, alloc2) ∧
      res.length = c * n ∧
      (∀ s ∈ res, s.sum = 1) ∧
      (∀ k, k < n → ∀ x, x < c * n →
        (((res.drop (c * k)).take c).map (fun s => s.getD x 0)).sum = ent alloc k x) := by
  obtain ⟨res, prefs2, alloc2, heq, hlen, hrows, hblock, _, _, _⟩ :=
    representativeAux_spec prefs alloc (c * n) c (by omega)
      (fun row hr => ((hperm row hr).nodup_iff).mpr (List.nodup_range _))
      (fun row hr x hx => by
        have := (hperm row hr).mem_iff.mp hx
        simpa using this)
      harl hann
      (fun i hi x hx hnx => by
        exfalso
        have hrm : prefs.getD i [] ∈ prefs := getD_mem prefs i [] hi
        exact hnx ((hperm _ hrm).mem_iff.mpr (by simpa using hx)))
      hasum
  exact ⟨res, prefs2, alloc2, heq, by rw [hlen, hpl], fun s hs => (hrows s hs).2.1,
    fun k hk x hx => hblock k (by omega) x hx⟩

/-- C5 witness: the theorem applied to the concrete pipeline values for the
utility matrix `[[2,1],[1,2]]`: profile `[[0,1],[1,0]]`, PS allocation
`[[1,0],[0,1]]`, `n = 2`, `c = 1`. -/
theorem representative_spec_witness :
    ∃ res prefs2 alloc2,
      representative [[0, 1], [1, 0]] [[(1 : ℚ), 0], [0, 1]] 2 1 = some (res, prefs2, alloc2) ∧
      res.length = 1 * 2 ∧
      (∀ s ∈ res, s.sum = 1) ∧
      (∀ k, k < 2 → ∀ x, x < 1 * 2 →
        (((res.drop (1 * k)).take 1).map (fun s => s.getD x 0)).sum =
          ent [[(1 : ℚ), 0], [0, 1]] k x) :=
  representative_spec 2 1 [[0, 1], [1, 0]] [[(1 : ℚ), 0], [0, 1]] (by norm_num)
    (by decide) (by norm_num) (by decide) (by decide) (by decide)

/-! ### C9: mutation of the caller's ordinal profile -/

/-- C9 counterexample: on genuine pipeline values (`generate_prefs [[2,1]]`
yields the profile `[[0,1]]` with `n = 1`, `c = 2`; `run_ps` on it yields
`[[1,1]]`), `representative` leaves the caller-visible preference state as
`[[]]`: both items were popped off the caller's list, so the claim that
`representative` does not mutate the caller's ordinal profile is false. -/
theorem representative_mutates_cx :
    representative [[0, 1]] [[(1 : ℚ), 1]] 1 2 = some ([[1, 0], [0, 1]], [[]], [[0, 0]]) ∧
      ([[]] : List (List ℕ)) ≠ [[0, 1]] := by
  constructor
  · decide
  · decide

/-- C9 (amended): `run_ps` operates on a deep copy and never mutates the
caller's profile, but `representative` consumes the caller-visible preference
lists in place: on every pipeline input (valid profile, PS allocation with
entries ≤ 1 and rows summing to `c ≥ 1`), every agent's preference list is
strictly shorter after the call, so the final preference state differs from
the input. -/
theorem representative_mutates (n c : ℕ) (prefs : List (List ℕ)) (alloc : List (List ℚ))
    (hn : 1 ≤ n) (hc : 1 ≤ c)
    (hpl : prefs.length = n)
    (hperm : ∀ row ∈ prefs, row.Perm (List.range (c * n)))
    (hal : alloc.length = n)
    (harl : ∀ row ∈ alloc, row.length = c * n)
    (hann : ∀ row ∈ alloc, ∀ x, x < c * n → 0 ≤ row.getD x 0)
    (hle1 : ∀ row ∈ alloc, ∀ x, x < c * n → row.getD x 0 ≤ 1)
    (hasum : ∀ row ∈ alloc, row.sum = (c : ℚ)) :
    ∃ res prefs2 alloc2,
      representative prefs alloc n c = some (res, prefs2, alloc2) ∧
      (∀ i, i < n → (prefs2.getD i []).length < (prefs.getD i []).length) ∧
      prefs2 ≠ prefs := by
  obtain ⟨res, prefs2, alloc2, heq, _, _, _, _, _, hmut⟩ :=
    representativeAux_spec prefs alloc (c * n) c (by omega)
      (fun row hr => ((hperm row hr).nodup_iff).mpr (List.nodup_range _))
      (fun row hr x hx => by
        have := (hperm row hr).mem_iff.mp hx
        simpa using this)
      harl hann
      (fun i hi x hx hnx => by
        exfalso
        have hrm : prefs.getD i [] ∈ prefs := getD_mem prefs i [] hi
        exact hnx ((hperm _ hrm).mem_iff.mpr (by simpa using hx)))
      hasum
  have hne : ∀ i, i < n → prefs.getD i [] ≠ [] := by
    intro i hi hnil
    have hrm : prefs.getD i [] ∈ prefs := getD_mem prefs i [] (by omega)
    have := (hperm _ hrm).length_eq
    rw [hnil] at this
    simp at this
    have hcn : 1 ≤ c * n := Nat.one_le_iff_ne_zero.mpr (Nat.mul_ne_zero (by omega) (by omega))
    omega
  have hmut2 : ∀ i, i < n → (prefs2.getD i []).length < (prefs.getD i []).length :=
    fun i hi => hmut hc (fun row hr x hx => hle1 row hr x hx) i (by omega) (hne i hi)
  refine ⟨res, prefs2, alloc2, heq, hmut2, ?_⟩
  intro hperf
  have := hmut2 0 (by omega)
  rw [hperf] at this
  omega

/-- C9 amended-claim witness: the amended theorem applied to the concrete
pipeline values with `n = 1`, `c = 2`. -/
theorem representative_mutates_witness :
    ∃ res prefs2 alloc2,
      representative [[0, 1]] [[(1 : ℚ), 1]] 1 2 = some (res, prefs2, alloc2) ∧
      (∀ i, i < 1 → (prefs2.getD i []).length < (([[0, 1]] : List (List ℕ)).getD i []).length) ∧
      prefs2 ≠ [[0, 1]] :=
  representative_mutates 1 2 [[0, 1]] [[(1 : ℚ), 1]] (by norm_num) (by norm_num)
    (by norm_num) (by decide) (by norm_num) (by decide) (by decide) (by decide) (by decide)

/-! ### Matcher: basic facts about found arrays and predecessor chains -/

theorem fnd_lt {found : List Bool} {v : ℕ} (h : fnd found v) : v < found.length := by
  by_contra hge
  rw [fnd, List.getD_eq_default _ _ (Nat.le_of_not_lt hge)] at h
  exact Bool.false_ne_true h

theorem fnd_set_self {found : List Bool} {v : ℕ} (h : v < found.length) :
    fnd (found.set v true) v := by
  rw [fnd, getD_set_self _ _ _ _ h]

theorem fnd_set_mono {found : List Bool} {v w : ℕ} (h : fnd found w) :
    fnd (found.set v true) w := by
  by_cases hvw : v = w
  · subst hvw
    exact fnd_set_self (fnd_lt h)
  · rw [fnd, getD_set_ne _ _ _ _ _ hvw]
    exact h

theorem fnd_set_elim {found : List Bool} {v w : ℕ} (h : fnd (found.set v true) w) :
    w = v ∨ fnd found w := by
  by_cases hvw : w = v
  · exact Or.inl hvw
  · right
    rw [fnd, getD_set_ne _ _ _ _ _ (fun hh => hvw hh.symm)] at h
    exact h

theorem countB_set_true : ∀ (found : List Bool) (i : ℕ), i < found.length →
    found.getD i false = false → (found.set i true).count true = found.count true + 1
  | [], i, h => by simp at h
  | b :: bs, 0, h => by
    intro hb
    simp only [List.getD_cons_zero] at hb
    subst hb
    simp [List.count_cons]
  | b :: bs, i + 1, h => by
    intro hb
    simp only [List.getD_cons_succ] at hb
    simp only [List.set_cons_succ, List.count_cons]
    rw [countB_set_true bs i (by simpa using h) hb]
    ring

theorem countB_le_length (found : List Bool) : countB found ≤ found.length :=
  List.count_le_length true found

theorem predChain_neg_one (pred : List ℤ) : ∀ k, predChain pred k (-1) = -1
  | 0 => rfl
  | k + 1 => by simp [predChain]

theorem predChain_mono (pred : List ℤ) :
    ∀ (k : ℕ) (e : ℤ), predChain pred k e = -1 → ∀ m, k ≤ m → predChain pred m e = -1
  | 0, e => by
    intro h m _
    simp only [predChain] at h
    subst h
    exact predChain_neg_one pred m
  | k + 1, e => by
    intro h m hm
    by_cases he : e = -1
    · subst he
      exact predChain_neg_one pred m
    · simp only [predChain, if_neg he] at h
      cases m with
      | zero => omega
      | succ m =>
        simp only [predChain, if_neg he]
        exact predChain_mono pred k _ h m (by omega)

/-- Setting a predecessor pointer at a not-yet-found vertex does not disturb
chains that start at found vertices. -/
theorem predChain_set_of_found (alloc : List (List ℚ)) (mtch : List ℤ) (n : ℕ)
    (found : List Bool) (pred : List ℤ) (w0 : ℕ) (z : ℤ)
    (hplen : pred.length = 2 * n)
    (hPred : PredInv alloc mtch n found pred)
    (hw0new : ¬ fnd found w0) :
    ∀ (k : ℕ) (e : ℤ), (e = -1 ∨ (0 ≤ e ∧ fnd found e.toNat)) →
      predChain (pred.set w0 z) k e = predChain pred k e
  | 0, e => by intro _; rfl
  | k + 1, e => by
    intro he
    by_cases hne : e = -1
    · subst hne
      simp [predChain]
    · rcases he with he | ⟨hnn, hef⟩
      · exact absurd he hne
      · have hew : e.toNat ≠ w0 := fun h => hw0new (h ▸ hef)
        have hset : (pred.set w0 z).getD e.toNat (-1) = pred.getD e.toNat (-1) :=
          getD_set_ne _ _ _ _ _ (fun h => hew h.symm)
        simp only [predChain, if_neg hne, hset]
        apply predChain_set_of_found alloc mtch n found pred w0 z hplen hPred hw0new k
        by_cases hnext : pred.getD e.toNat (-1) = -1
        · exact Or.inl hnext
        · right
          have he2n : e.toNat < 2 * n := by
            by_contra hge
            rw [List.getD_eq_default _ _ (by omega : pred.length ≤ e.toNat)] at hnext
            exact hnext rfl
          obtain ⟨v, hv, heq, hvf, _, _, _⟩ := hPred e.toNat he2n hnext
          rw [heq]
          exact ⟨by positivity, by simpa using hvf⟩

/-- Enqueueing a fresh vertex `w0` (found from `v` via a legitimate move)
preserves the predecessor, seed and chain invariants, and increments the
found count. -/
theorem enqueue_transport (alloc : List (List ℚ)) (mtch : List ℤ) (n : ℕ)
    (found : List Bool) (pred : List ℤ) (v w0 : ℕ)
    (hflen : found.length = 2 * n) (hplen : pred.length = 2 * n)
    (hPred : PredInv alloc mtch n found pred)
    (hSeed : SeedInv mtch n found pred)
    (hChain : ChainInv n found pred)
    (hvf : fnd found v) (hv2n : v < 2 * n) (hw0 : w0 < 2 * n)
    (hnew : ¬ fnd found w0) (hopp : oppSide n v w0)
    (hmv : moveOK alloc mtch n v w0) :
    PredInv alloc mtch n (found.set w0 true) (pred.set w0 (v : ℤ)) ∧
    SeedInv mtch n (found.set w0 true) (pred.set w0 (v : ℤ)) ∧
    ChainInv n (found.set w0 true) (pred.set w0 (v : ℤ)) ∧
    countB (found.set w0 true) = countB found + 1 := by
  have hw0len : w0 < found.length := by omega
  have hw0plen : w0 < pred.length := by omega
  have hw0false : found.getD w0 false = false := by
    rcases hb : found.getD w0 false with _ | _
    · rfl
    · exact absurd hb hnew
  have hcb : countB (found.set w0 true) = countB found + 1 :=
    countB_set_true found w0 hw0len hw0false
  refine ⟨?_, ?_, ?_, hcb⟩
  · -- PredInv
    intro w hw hne
    by_cases hww0 : w = w0
    · subst hww0
      rw [getD_set_self _ _ _ _ hw0plen]
      exact ⟨v, hv2n, rfl, fnd_set_mono hvf, fnd_set_self hw0len, hopp, hmv⟩
    · rw [getD_set_ne _ _ _ _ _ (fun h => hww0 h.symm)] at hne ⊢
      obtain ⟨u, hu, hueq, huf, hwf, huo, hum⟩ := hPred w hw hne
      exact ⟨u, hu, hueq, fnd_set_mono huf, fnd_set_mono hwf, huo, hum⟩
  · -- SeedInv
    intro u hu huf hupred
    by_cases huw0 : u = w0
    · subst huw0
      rw [getD_set_self _ _ _ _ hw0plen] at hupred
      exact absurd hupred (by omega)
    · rw [getD_set_ne _ _ _ _ _ (fun h => huw0 h.symm)] at hupred
      rcases fnd_set_elim huf with h | h
      · exact absurd h huw0
      · exact hSeed u hu h hupred
  · -- ChainInv
    intro u hu huf
    rw [hcb]
    rcases fnd_set_elim huf with h | h
    · subst h
      have hstep : predChain (pred.set u (v : ℤ)) (countB found + 1) (u : ℤ) =
          predChain (pred.set u (v : ℤ)) (countB found) (v : ℤ) := by
        simp only [predChain]
        rw [if_neg (by omega), Int.toNat_natCast, getD_set_self _ _ _ _ hw0plen]
      rw [hstep,
        predChain_set_of_found alloc mtch n found pred u (v : ℤ) hplen hPred hnew
          (countB found) (v : ℤ) (Or.inr ⟨by positivity, by simpa using hvf⟩)]
      exact hChain v hv2n hvf
    · rw [predChain_set_of_found alloc mtch n found pred w0 (v : ℤ) hplen hPred hnew
        _ (u : ℤ) (Or.inr ⟨by positivity, by simpa using h⟩)]
      exact predChain_mono pred _ _ (hChain u hu h) _ (by omega)

/-- Characterization of the BFS inner scan over an arbitrary target list. -/
theorem scan_fold_spec (alloc : List (List ℚ)) (mtch : List ℤ) (n v : ℕ) :
    ∀ (L : List ℕ) (q : List ℕ) (found : List Bool) (pred : List ℤ),
      found.length = 2 * n → pred.length = 2 * n →
      fnd found v → v < 2 * n →
      (∀ w ∈ L, w < 2 * n ∧ oppSide n v w) →
      PredInv alloc mtch n found pred →
      SeedInv mtch n found pred →
      ChainInv n found pred →
      ∃ q3 found3 pred3 extras,
        L.foldl (scanStep alloc mtch n v) (q, found, pred) = (q3, found3, pred3) ∧
        found3.length = 2 * n ∧ pred3.length = 2 * n ∧
        q3 = q ++ extras ∧
        extras.Nodup ∧
        (∀ w ∈ extras, w ∈ L ∧ ¬ fnd found w ∧ fnd found3 w ∧ w < 2 * n) ∧
        (∀ w, fnd found w → fnd found3 w) ∧
        (∀ w, fnd found3 w → fnd found w ∨ w ∈ extras) ∧
        (∀ w ∈ L, moveOK alloc mtch n v w → fnd found3 w) ∧
        PredInv alloc mtch n found3 pred3 ∧
        SeedInv mtch n found3 pred3 ∧
        ChainInv n found3 pred3 ∧
        countB found3 = countB found + extras.length
  | [], q, found, pred => by
    intro hflen hplen hvf hv2n _ hPred hSeed hChain
    exact ⟨q, found, pred, [], rfl, hflen, hplen, by simp, List.nodup_nil, by simp,
      fun w h => h, fun w h => Or.inl h, by simp, hPred, hSeed, hChain, by simp⟩
  | i :: L', q, found, pred => by
    intro hflen hplen hvf hv2n hL hPred hSeed hChain
    have hi2n : i < 2 * n := (hL i (by simp)).1
    have hiopp : oppSide n v i := (hL i (by simp)).2
    simp only [List.foldl_cons]
    by_cases hc : connected alloc v i n = true
    · by_cases ha : allowable mtch v i n = true
      · by_cases hf : found.getD i false = true
        · -- already found: skip
          have hf2 : found[i]?.getD false = true := by simpa [List.getD] using hf
          have hstep : scanStep alloc mtch n v (q, found, pred) i = (q, found, pred) := by
            simp [scanStep, hc, ha, hf2]
          rw [hstep]
          obtain ⟨q3, found3, pred3, extras, heq, h1, h2, h3, h4, h5, h6, h7, h8, h9,
            h10, h11, h12⟩ :=
            scan_fold_spec alloc mtch n v L' q found pred hflen hplen hvf hv2n
              (fun w hw => hL w (by simp [hw])) hPred hSeed hChain
          refine ⟨q3, found3, pred3, extras, heq, h1, h2, h3, h4, ?_, h6, h7, ?_, h9,
            h10, h11, h12⟩
          · intro w hw
            obtain ⟨hwl, hrest⟩ := h5 w hw
            exact ⟨by simp [hwl], hrest⟩
          · intro w hw hmv
            rcases List.mem_cons.mp hw with rfl | hw
            · exact h6 w hf
            · exact h8 w hw hmv
        · -- fresh vertex: enqueue it
          have hf2 : found[i]?.getD false = false := by
            rcases hb : found.getD i false with _ | _
            · simpa [List.getD] using hb
            · exact absurd hb hf
          have hstep : scanStep alloc mtch n v (q, found, pred) i =
              (q ++ [i], found.set i true, pred.set i (v : ℤ)) := by
            simp [scanStep, hc, ha, hf2]
          rw [hstep]
          have hnew : ¬ fnd found i := by
            rw [fnd]
            intro h
            exact hf h
          obtain ⟨hP1, hS1, hC1, hcb1⟩ :=
            enqueue_transport alloc mtch n found pred v i hflen hplen hPred hSeed
              hChain hvf hv2n hi2n hnew hiopp ⟨hc, ha⟩
          obtain ⟨q3, found3, pred3, extras, heq, h1, h2, h3, h4, h5, h6, h7, h8, h9,
            h10, h11, h12⟩ :=
            scan_fold_spec alloc mtch n v L' (q ++ [i]) (found.set i true)
              (pred.set i (v : ℤ)) (by simp [hflen]) (by simp [hplen])
              (fnd_set_mono hvf) hv2n (fun w hw => hL w (by simp [hw])) hP1 hS1 hC1
          refine ⟨q3, found3, pred3, i :: extras, heq, h1, h2, ?_, ?_, ?_, ?_, ?_, ?_,
            h9, h10, h11, ?_⟩
          · rw [h3, List.append_assoc]
            rfl
          · refine List.nodup_cons.mpr ⟨?_, h4⟩
            intro hmem
            exact (h5 i hmem).2.1 (fnd_set_self (by omega))
          · intro w hw
            rcases List.mem_cons.mp hw with rfl | hw
            · exact ⟨by simp, hnew, h6 w (fnd_set_self (by omega)), hi2n⟩
            · obtain ⟨hwl, hwnf, hwf3, hw2n⟩ := h5 w hw
              refine ⟨by simp [hwl], ?_, hwf3, hw2n⟩
              intro hwf
              exact hwnf (fnd_set_mono hwf)
          · intro w hw
            exact h6 w (fnd_set_mono hw)
          · intro w hw
            rcases h7 w hw with hw1 | hw1
            · rcases fnd_set_elim hw1 with rfl | hw2
              · exact Or.inr (by simp)
              · exact Or.inl hw2
            · exact Or.inr (by simp [hw1])
          · intro w hw hmv
            rcases List.mem_cons.mp hw with rfl | hw
            · exact h6 w (fnd_set_self (by omega))
            · exact h8 w hw hmv
          · rw [h12, hcb1, List.length_cons]
            ring
      · -- move not allowable: skip
        have hstep : scanStep alloc mtch n v (q, found, pred) i = (q, found, pred) := by
          simp [scanStep, hc, ha]
        rw [hstep]
        obtain ⟨q3, found3, pred3, extras, heq, h1, h2, h3, h4, h5, h6, h7, h8, h9,
          h10, h11, h12⟩ :=
          scan_fold_spec alloc mtch n v L' q found pred hflen hplen hvf hv2n
            (fun w hw => hL w (by simp [hw])) hPred hSeed hChain
        refine ⟨q3, found3, pred3, extras, heq, h1, h2, h3, h4, ?_, h6, h7, ?_, h9,
          h10, h11, h12⟩
        · intro w hw
          obtain ⟨hwl, hrest⟩ := h5 w hw
          exact ⟨by simp [hwl], hrest⟩
        · intro w hw hmv
          rcases List.mem_cons.mp hw with rfl | hw
          · exact absurd hmv.2 ha
          · exact h8 w hw hmv
    · -- edge not in the support: skip
      have hstep : scanStep alloc mtch n v (q, found, pred) i = (q, found, pred) := by
        simp [scanStep, hc]
      rw [hstep]
      obtain ⟨q3, found3, pred3, extras, heq, h1, h2, h3, h4, h5, h6, h7, h8, h9,
        h10, h11, h12⟩ :=
        scan_fold_spec alloc mtch n v L' q found pred hflen hplen hvf hv2n
          (fun w hw => hL w (by simp [hw])) hPred hSeed hChain
      refine ⟨q3, found3, pred3, extras, heq, h1, h2, h3, h4, ?_, h6, h7, ?_, h9,
        h10, h11, h12⟩
      · intro w hw
        obtain ⟨hwl, hrest⟩ := h5 w hw
        exact ⟨by simp [hwl], hrest⟩
      · intro w hw hmv
        rcases List.mem_cons.mp hw with rfl | hw
        · exact absurd hmv.1 hc
        · exact h8 w hw hmv

theorem mem_scan_range (n v : ℕ) (hv : v < 2 * n) (w : ℕ) :
    w ∈ List.range' (if n ≤ v then 0 else n) n ↔ oppSide n v w := by
  rw [List.mem_range']
  by_cases h : n ≤ v
  · rw [if_pos h]
    constructor
    · rintro ⟨i, hi, rfl⟩
      exact Or.inr ⟨h, by omega⟩
    · rintro (⟨hvn, _⟩ | ⟨_, hw⟩)
      · omega
      · exact ⟨w, by omega, by omega⟩
  · rw [if_neg h]
    constructor
    · rintro ⟨i, hi, rfl⟩
      exact Or.inl ⟨by omega, by omega, by omega⟩
    · rintro (⟨_, hw1, hw2⟩ | ⟨hvn, _⟩)
      · exact ⟨w - n, by omega, by omega⟩
      · omega

/-- Full characterization of the BFS while loop: with sufficient fuel and the
loop invariant, it either terminates with `-1` and a closed found set whose
right vertices are all matched, or stops at a found unmatched right vertex
with intact predecessor structure. -/
theorem bfsLoop_spec (alloc : List (List ℚ)) (mtch : List ℤ) (n : ℕ) :
    ∀ (fuel : ℕ) (q : List ℕ) (found : List Bool) (pred : List ℤ),
      BInv alloc mtch n q found pred →
      (2 * n - countB found) * (2 * n + 1) + q.length < fuel →
      ∃ found3 pred3 e,
        bfsLoop alloc mtch n fuel q found pred = (found3, pred3, e) ∧
        found3.length = 2 * n ∧ pred3.length = 2 * n ∧
        (∀ w, fnd found w → fnd found3 w) ∧
        ((e = -1 ∧
          (∀ u, u < 2 * n → fnd found3 u →
            ∀ w, w < 2 * n → oppSide n u w → moveOK alloc mtch n u w → fnd found3 w) ∧
          (∀ w, n ≤ w → w < 2 * n → fnd found3 w → Mentry mtch w ≠ -1) ∧
          PredInv alloc mtch n found3 pred3 ∧ SeedInv mtch n found3 pred3) ∨
         (∃ v : ℕ, e = (v : ℤ) ∧ n ≤ v ∧ v < 2 * n ∧ Mentry mtch v = -1 ∧
           fnd found3 v ∧ PredInv alloc mtch n found3 pred3 ∧
           SeedInv mtch n found3 pred3 ∧ ChainInv n found3 pred3))
  | 0, q, found, pred => by
    intro _ hf
    omega
  | fuel + 1, q, found, pred => by
    intro hinv hfuel
    obtain ⟨hflen, hplen, ⟨hqnd, hqmem⟩, hPred, hSeed, hChain, hClosed, hRight⟩ := hinv
    cases q with
    | nil =>
      refine ⟨found, pred, -1, rfl, hflen, hplen, fun w h => h,
        Or.inl ⟨rfl, ?_, ?_, hPred, hSeed⟩⟩
      · intro u hu huf w hw hop hmv
        rcases hClosed u hu huf with h | h
        · simp at h
        · exact h w hw hop hmv
      · intro w hn hw hwf hwm
        have := hRight w hn hw hwf hwm
        simp at this
    | cons v q2 =>
      have hv2n : v < 2 * n := (hqmem v (by simp)).1
      have hvf : fnd found v := (hqmem v (by simp)).2
      by_cases hguard : n ≤ v ∧ mtch.getD v (-1) = -1
      · -- an unmatched right vertex is popped: break
        refine ⟨found, pred, (v : ℤ), ?_, hflen, hplen, fun w h => h,
          Or.inr ⟨v, rfl, hguard.1, hv2n, hguard.2, hvf, hPred, hSeed, hChain⟩⟩
        simp only [bfsLoop, if_pos hguard]
      · -- scan v's neighbours and continue
        obtain ⟨q3, found3, pred3, extras, hfold, h1, h2, h3, h4, h5, h6, h7, h8, h9,
          h10, h11, h12⟩ :=
          scan_fold_spec alloc mtch n v (List.range' (if n ≤ v then 0 else n) n)
            q2 found pred hflen hplen hvf hv2n
            (fun w hw => by
              have := (mem_scan_range n v hv2n w).mp hw
              rcases this with ⟨_, h1, h2⟩ | ⟨_, h2⟩ <;> exact ⟨by omega, by
                first
                | exact Or.inl (by omega)
                | exact Or.inr (by omega)⟩)
            hPred hSeed hChain
    -- rebuild the invariant for the recursive call
        have hq2sub : ∀ w ∈ q2, w < 2 * n ∧ fnd found3 w :=
          fun w hw => ⟨(hqmem w (by simp [hw])).1, h6 w (hqmem w (by simp [hw])).2⟩
        have hBInv3 : BInv alloc mtch n q3 found3 pred3 := by
          refine ⟨h1, h2, ⟨?_, ?_⟩, h9, h10, h11, ?_, ?_⟩
          · rw [h3, List.nodup_append]
            refine ⟨(List.nodup_cons.mp hqnd).2, h4, ?_⟩
            intro w hw hw2
            exact (h5 w hw2).2.1 (hqmem w (by simp [hw])).2
          · intro w hw
            rw [h3, List.mem_append] at hw
            rcases hw with hw | hw
            · exact hq2sub w hw
            · exact ⟨(h5 w hw).2.2.2, (h5 w hw).2.2.1⟩
          · -- closure
            intro u hu huf
            rcases h7 u huf with hold | hnew
            · by_cases huv : u = v
              · subst huv
                right
                intro w hw hop hmv
                exact h8 w ((mem_scan_range n u hu w).mpr hop) hmv
              · rcases hClosed u hu hold with hq | hcl
                · left
                  rw [h3, List.mem_append]
                  rcases List.mem_cons.mp hq with h | h
                  · exact absurd h huv
                  · exact Or.inl h
                · right
                  intro w hw hop hmv
                  exact h6 w (hcl w hw hop hmv)
            · left
              rw [h3, List.mem_append]
              exact Or.inr hnew
          · -- right vertices
            intro w hn hw hwf hwm
            rcases h7 w hwf with hold | hnew
            · have := hRight w hn hw hold hwm
              rcases List.mem_cons.mp this with h | h
              · exfalso
                subst h
                exact hguard ⟨hn, hwm⟩
              · rw [h3, List.mem_append]
                exact Or.inl h
            · rw [h3, List.mem_append]
              exact Or.inr hnew
        -- fuel accounting
        have hq3len : q3.length = q2.length + extras.length := by
          rw [h3, List.length_append]
        have hcb3le : countB found3 ≤ 2 * n := by
          have := countB_le_length found3
          omega
        have hcble : countB found ≤ 2 * n := by
          have := countB_le_length found
          omega
        have hA : 2 * n - countB found = (2 * n - countB found3) + extras.length := by
          omega
        have hsplit : (2 * n - countB found) * (2 * n + 1) =
            (2 * n - countB found3) * (2 * n + 1) + extras.length * (2 * n + 1) := by
          rw [hA, Nat.add_mul]
        have hk : extras.length ≤ extras.length * (2 * n + 1) :=
          Nat.le_mul_of_pos_right _ (by omega)
        have hfuel3 : (2 * n - countB found3) * (2 * n + 1) + q3.length < fuel := by
          rw [hq3len]
          simp only [List.length_cons] at hfuel
          generalize (2 * n - countB found) * (2 * n + 1) = M at hsplit hfuel
          generalize (2 * n - countB found3) * (2 * n + 1) = M3 at hsplit ⊢
          generalize extras.length * (2 * n + 1) = K at hsplit hk
          omega
        obtain ⟨found4, pred4, e, hrun, hf4, hp4, hmono4, hpost⟩ :=
          bfsLoop_spec alloc mtch n fuel q3 found3 pred3 hBInv3 hfuel3
        refine ⟨found4, pred4, e, ?_, hf4, hp4, fun w h => hmono4 w (h6 w h), hpost⟩
        simp only [bfsLoop, if_neg hguard, scanNbrs]
        rw [hfold]
        exact hrun

/-! ### Path reconstruction -/

theorem buildPath_eq_reverse (pred : List ℤ) :
    ∀ (fuel : ℕ) (e : ℤ), buildPath pred fuel e = (revChain pred fuel e).reverse
  | 0, e => rfl
  | fuel + 1, e => by
    by_cases he : e = -1
    · simp [buildPath, revChain, he]
    · simp only [buildPath, revChain, if_neg he]
      rw [buildPath_eq_reverse pred fuel]
      simp

theorem predChain_add (pred : List ℤ) :
    ∀ (a b : ℕ) (e : ℤ),
      predChain pred (a + b) e = predChain pred b (predChain pred a e)
  | 0, b, e => by simp [predChain]
  | a + 1, b, e => by
    by_cases he : e = -1
    · subst he
      rw [predChain_neg_one, predChain_neg_one, predChain_neg_one]
    · have : a + 1 + b = (a + b) + 1 := by omega
      rw [this]
      simp only [predChain, if_neg he]
      exact predChain_add pred a b _

/-- Iterate/termination structure of `revChain`: entry `i` of the chain is
the `i`-th predecessor iterate (never `-1` inside the chain), and the iterate
at the chain's length is exactly `-1`. -/
theorem revChain_iter (pred : List ℤ)
    (hge : ∀ w : ℕ, pred.getD w (-1) = -1 ∨ 0 ≤ pred.getD w (-1)) :
    ∀ (fuel : ℕ) (e : ℤ), predChain pred fuel e = -1 → 0 ≤ e →
      (∀ i, i < (revChain pred fuel e).length →
        0 ≤ predChain pred i e ∧
        (revChain pred fuel e).getD i 0 = (predChain pred i e).toNat) ∧
      predChain pred (revChain pred fuel e).length e = -1
  | 0, e => by
    intro hterm _
    simp only [predChain] at hterm
    exact ⟨by simp [revChain], by simpa [revChain, predChain] using hterm⟩
  | fuel + 1, e => by
    intro hterm hnn
    have hne : ¬ e = -1 := by omega
    simp only [revChain, if_neg hne]
    simp only [predChain, if_neg hne] at hterm
    set e2 := pred.getD e.toNat (-1) with he2d
    rcases hge e.toNat with hh | hh
    · -- the chain stops right after e
      rw [← he2d] at hh
      have hrc : revChain pred fuel e2 = [] := by
        cases fuel with
        | zero => rfl
        | succ fuel => simp [revChain, hh]
      rw [hrc]
      constructor
      · intro i hi
        simp only [List.length_cons, List.length_nil] at hi
        interval_cases i
        · exact ⟨hnn, by simp [predChain]⟩
      · simp only [List.length_cons, List.length_nil, predChain, if_neg hne]
        rw [← he2d, hh]
    · obtain ⟨ha, hb⟩ := revChain_iter pred hge fuel e2 hterm hh
      constructor
      · intro i hi
        cases i with
        | zero => exact ⟨hnn, by simp [predChain]⟩
        | succ i =>
          simp only [List.length_cons] at hi
          obtain ⟨ha1, ha2⟩ := ha i (by omega)
          constructor
          · have : predChain pred (i + 1) e = predChain pred i e2 := by
              simp only [predChain, if_neg hne, ← he2d]
            rw [this]
            exact ha1
          · simp only [List.getD_cons_succ, ha2]
            congr 1
            simp only [predChain, if_neg hne, ← he2d]
      · simp only [List.length_cons, predChain, if_neg hne, ← he2d]
        exact hb

/-- A list whose `getD` values at distinct in-range indices differ is
duplicate-free. -/
theorem nodup_of_getD_inj (l : List ℕ)
    (h : ∀ i j, i < j → j < l.length → l.getD i 0 ≠ l.getD j 0) : l.Nodup := by
  rw [List.nodup_iff_getElem?_ne_getElem?]
  intro i j hij hj
  have := h i j hij hj
  rw [List.getD_eq_getElem _ 0 (by omega), List.getD_eq_getElem _ 0 hj] at this
  rw [List.getElem?_eq_getElem (by omega), List.getElem?_eq_getElem hj]
  intro hcon
  exact this (by simpa using hcon)

/-- The reconstructed predecessor chain has no duplicate vertices. -/
theorem revChain_nodup (pred : List ℤ)
    (hge : ∀ w : ℕ, pred.getD w (-1) = -1 ∨ 0 ≤ pred.getD w (-1))
    (fuel : ℕ) (e : ℤ) (hterm : predChain pred fuel e = -1) (hnn : 0 ≤ e) :
    (revChain pred fuel e).Nodup := by
  obtain ⟨ha, hb⟩ := revChain_iter pred hge fuel e hterm hnn
  apply nodup_of_getD_inj
  intro i j hij hj hcon
  obtain ⟨hi1, hi2⟩ := ha i (by omega)
  obtain ⟨hj1, hj2⟩ := ha j hj
  have heq : predChain pred i e = predChain pred j e := by
    rw [hi2, hj2] at hcon
    omega
  set L := (revChain pred fuel e).length with hLd
  have hsplit : L = j + (L - j) := by omega
  have h1 : predChain pred (L - j) (predChain pred j e) = -1 := by
    rw [← predChain_add, ← hsplit]
    exact hb
  have h2 : predChain pred (i + (L - j)) e = -1 := by
    rw [predChain_add, heq]
    exact h1
  have hlt : i + (L - j) < L := by omega
  obtain ⟨hc1, _⟩ := ha (i + (L - j)) hlt
  omega

/-! ### The augment procedure -/

theorem getD_map_range {α : Type*} (k i : ℕ) (f : ℕ → α) (d : α) (h : i < k) :
    ((List.range k).map f).getD i d = f i := by
  rw [List.getD_eq_getElem _ _ (by simpa using h), List.getElem_map, List.getElem_range]

theorem getD_replicate_neg (k w : ℕ) :
    (List.replicate k (-1 : ℤ)).getD w (-1) = -1 := by
  by_cases h : w < k
  · exact getD_replicate k w (-1) (-1) h
  · exact List.getD_eq_default _ _ (by simpa using Nat.le_of_not_lt h)

/-- Running the BFS of `augment` from its initial state. -/
theorem augment_run (alloc : List (List ℚ)) (mtch : List ℤ) (n : ℕ) :
    ∃ found3 pred3 e,
      bfsLoop alloc mtch n (bfsFuel n)
        ((List.range n).filter (fun i => mtch.getD i (-1) == -1))
        ((List.range (2 * n)).map (fun i => decide (i < n ∧ mtch.getD i (-1) = -1)))
        (List.replicate (2 * n) (-1 : ℤ)) = (found3, pred3, e) ∧
      found3.length = 2 * n ∧ pred3.length = 2 * n ∧
      (∀ u, u < n → Mentry mtch u = -1 → fnd found3 u) ∧
      ((e = -1 ∧
        (∀ u, u < 2 * n → fnd found3 u →
          ∀ w, w < 2 * n → oppSide n u w → moveOK alloc mtch n u w → fnd found3 w) ∧
        (∀ w, n ≤ w → w < 2 * n → fnd found3 w → Mentry mtch w ≠ -1) ∧
        PredInv alloc mtch n found3 pred3 ∧ SeedInv mtch n found3 pred3) ∨
       (∃ v : ℕ, e = (v : ℤ) ∧ n ≤ v ∧ v < 2 * n ∧ Mentry mtch v = -1 ∧
         fnd found3 v ∧ PredInv alloc mtch n found3 pred3 ∧
         SeedInv mtch n found3 pred3 ∧ ChainInv n found3 pred3)) := by
  set q0 := (List.range n).filter (fun i => mtch.getD i (-1) == -1) with hq0d
  set found0 := (List.range (2 * n)).map (fun i => decide (i < n ∧ mtch.getD i (-1) = -1))
    with hf0d
  set pred0 := (List.replicate (2 * n) (-1 : ℤ)) with hp0d
  have hflen : found0.length = 2 * n := by simp [hf0d]
  have hplen : pred0.length = 2 * n := by simp [hp0d]
  have hfnd0 : ∀ w, fnd found0 w ↔ (w < n ∧ Mentry mtch w = -1) := by
    intro w
    constructor
    · intro h
      have hw : w < 2 * n := by
        have := fnd_lt h
        omega
      rw [fnd, hf0d, getD_map_range _ _ _ _ hw] at h
      exact of_decide_eq_true h
    · intro ⟨h1, h2⟩
      rw [fnd, hf0d, getD_map_range _ _ _ _ (by omega)]
      exact decide_eq_true ⟨h1, h2⟩
  have hpred0 : ∀ w : ℕ, pred0.getD w (-1) = -1 := fun w => getD_replicate_neg _ _
  have hq0 : ∀ i, i ∈ q0 ↔ (i < n ∧ Mentry mtch i = -1) := by
    intro i
    rw [hq0d, List.mem_filter, List.mem_range]
    constructor
    · intro ⟨h1, h2⟩
      exact ⟨h1, by simpa [Mentry] using h2⟩
    · intro ⟨h1, h2⟩
      exact ⟨h1, by simpa [Mentry] using h2⟩
  have hBInv : BInv alloc mtch n q0 found0 pred0 := by
    refine ⟨hflen, hplen, ⟨?_, ?_⟩, ?_, ?_, ?_, ?_, ?_⟩
    · exact (List.nodup_range n).filter _
    · intro v hv
      obtain ⟨h1, h2⟩ := (hq0 v).mp hv
      exact ⟨by omega, (hfnd0 v).mpr ⟨h1, h2⟩⟩
    · intro w hw hne
      exact absurd (hpred0 w) hne
    · intro v hv hvf _
      exact (hfnd0 v).mp hvf
    · intro v hv hvf
      obtain ⟨k, hk⟩ : ∃ k, countB found0 = k + 1 := by
        have : (true : Bool) ∈ found0 := by
          have h := (hfnd0 v).mp hvf
          have hgd : found0.getD v false = true := hvf
          have hvlen : v < found0.length := fnd_lt hvf
          rw [List.getD_eq_getElem _ _ hvlen] at hgd
          exact hgd ▸ List.getElem_mem hvlen
        have := List.count_pos_iff.mpr this
        exact ⟨countB found0 - 1, by rw [countB]; omega⟩
      rw [hk]
      simp only [predChain]
      rw [if_neg (by omega), Int.toNat_natCast, hpred0 v]
      exact predChain_neg_one _ _
    · intro u hu huf
      left
      obtain ⟨h1, h2⟩ := (hfnd0 u).mp huf
      exact (hq0 u).mpr ⟨h1, h2⟩
    · intro w hn hw hwf _
      obtain ⟨h1, _⟩ := (hfnd0 w).mp hwf
      omega
  have hfuel : (2 * n - countB found0) * (2 * n + 1) + q0.length < bfsFuel n := by
    have h1 : q0.length ≤ n := by
      rw [hq0d]
      calc ((List.range n).filter _).length ≤ (List.range n).length :=
            List.length_filter_le _ _
        _ = n := List.length_range n
    have h2 : (2 * n - countB found0) * (2 * n + 1) ≤ 2 * n * (2 * n + 1) :=
      Nat.mul_le_mul_right _ (by omega)
    rw [bfsFuel]
    omega
  obtain ⟨found3, pred3, e, hrun, hf3, hp3, hmono, hpost⟩ :=
    bfsLoop_spec alloc mtch n (bfsFuel n) q0 found0 pred0 hBInv hfuel
  exact ⟨found3, pred3, e, hrun, hf3, hp3,
    fun u hu hm => hmono u ((hfnd0 u).mpr ⟨hu, hm⟩), hpost⟩

/-- When `augment` finds no path, the final found set contains all unmatched
left vertices, is closed under BFS moves, and contains no unmatched right
vertex. -/
theorem augment_none_spec (alloc : List (List ℚ)) (mtch : List ℤ) (n : ℕ)
    (h : augment alloc mtch n = none) :
    ∃ F : ℕ → Prop,
      (∀ u, u < n → Mentry mtch u = -1 → F u) ∧
      (∀ u, u < 2 * n → F u → ∀ w, w < 2 * n → oppSide n u w →
        moveOK alloc mtch n u w → F w) ∧
      (∀ w, n ≤ w → w < 2 * n → F w → Mentry mtch w ≠ -1) ∧
      (∀ u, u < n → F u → Mentry mtch u ≠ -1 →
        ∃ w, n ≤ w ∧ w < 2 * n ∧ Mentry mtch u = ((w : ℕ) : ℤ) ∧ F w) := by
  obtain ⟨found3, pred3, e, hrun, hf3, hp3, hseeds, hpost⟩ := augment_run alloc mtch n
  rw [augment] at h
  rw [hrun] at h
  rcases hpost with ⟨he, hclose, hright, hPred, hSeed⟩ | ⟨v, hev, _, _, _, _, _, _, _⟩
  · refine ⟨fnd found3, hseeds, hclose, hright, ?_⟩
    intro u hu huf hum
    by_cases hpu : pred3.getD u (-1) = -1
    · exact absurd (hSeed u (by omega) huf hpu).2 hum
    · obtain ⟨w, hw2n, hweq, hwf, _, hopp, hcon, hall⟩ := hPred u (by omega) hpu
      have hwge : n ≤ w := by
        rcases hopp with ⟨h1, h2, h3⟩ | ⟨h1, h2⟩
        · omega
        · exact h1
      refine ⟨w, hwge, hw2n, ?_, hwf⟩
      rw [allowable, if_neg (by omega)] at hall
      rw [Mentry]
      exact eq_of_beq hall
  · rw [hev] at h
    simp at h

/-- When `augment` returns a path, it is a genuine augmenting path: it starts
at an unmatched left vertex, ends at an unmatched right vertex, alternates
sides along legitimate moves, and repeats no vertex. -/
theorem augment_some_spec (alloc : List (List ℚ)) (mtch : List ℤ) (n : ℕ)
    (hvm : ValidMatching alloc mtch n)
    (path : List ℕ) (h : augment alloc mtch n = some path) :
    2 ≤ path.length ∧
    path.Nodup ∧
    (∀ i, i < path.length → path.getD i 0 < 2 * n) ∧
    (path.getD 0 0 < n ∧ Mentry mtch (path.getD 0 0) = -1) ∧
    (n ≤ path.getD (path.length - 1) 0 ∧
      Mentry mtch (path.getD (path.length - 1) 0) = -1) ∧
    (∀ i, i + 1 < path.length → oppSide n (path.getD i 0) (path.getD (i + 1) 0) ∧
      moveOK alloc mtch n (path.getD i 0) (path.getD (i + 1) 0)) := by
  obtain ⟨found3, pred3, e, hrun, hf3, hp3, hseeds, hpost⟩ := augment_run alloc mtch n
  rw [augment] at h
  rw [hrun] at h
  rcases hpost with ⟨he, _, _, _, _⟩ | ⟨v, hev, hvn, hv2n, hvm1, hvf, hPred, hSeed, hChain⟩
  · rw [he] at h
    simp at h
  · rw [hev] at h
    have h2 : (if (v : ℤ) = -1 then none
        else some (buildPath pred3 (2 * n + 1) (v : ℤ))) = some path := h
    rw [if_neg (show ¬((v : ℤ) = -1) by omega)] at h2
    have hterm : predChain pred3 (2 * n + 1) (v : ℤ) = -1 := by
      refine predChain_mono pred3 _ _ (hChain v hv2n hvf) _ ?_
      have := countB_le_length found3
      omega
    have hge : ∀ w : ℕ, pred3.getD w (-1) = -1 ∨ 0 ≤ pred3.getD w (-1) := by
      intro w
      by_cases hw : w < 2 * n
      · by_cases hne : pred3.getD w (-1) = -1
        · exact Or.inl hne
        · obtain ⟨u, _, hueq, _, _, _, _⟩ := hPred w hw hne
          rw [hueq]
          exact Or.inr (by positivity)
      · exact Or.inl (List.getD_eq_default _ _ (by omega))
    -- structure of the chain
    have hstruct : ∀ (fuel : ℕ) (w : ℕ), w < 2 * n → fnd found3 w →
        predChain pred3 fuel (w : ℤ) = -1 →
        ∃ l, revChain pred3 fuel (w : ℤ) = w :: l ∧
          (∀ u ∈ w :: l, u < 2 * n ∧ fnd found3 u) ∧
          (∀ i, i + 1 < (w :: l).length →
            pred3.getD ((w :: l).getD i 0) (-1) = (((w :: l).getD (i + 1) 0 : ℕ) : ℤ) ∧
            oppSide n ((w :: l).getD (i + 1) 0) ((w :: l).getD i 0) ∧
            moveOK alloc mtch n ((w :: l).getD (i + 1) 0) ((w :: l).getD i 0)) ∧
          (∃ u, (w :: l).getLast? = some u ∧ pred3.getD u (-1) = -1) := by
      intro fuel
      induction fuel with
      | zero =>
        intro w hw hwf hterm
        simp only [predChain] at hterm
        omega
      | succ fuel ih =>
        intro w hw hwf hterm
        simp only [predChain, if_neg (show ¬((w : ℤ) = -1) by omega),
          Int.toNat_natCast] at hterm
        simp only [revChain, if_neg (show ¬((w : ℤ) = -1) by omega), Int.toNat_natCast]
        by_cases hpw : pred3.getD w (-1) = -1
        · have hrc : revChain pred3 fuel (pred3.getD w (-1)) = [] := by
            rw [hpw]
            cases fuel with
            | zero => rfl
            | succ fuel => simp [revChain]
          rw [hrc]
          refine ⟨[], rfl, ?_, ?_, ⟨w, rfl, hpw⟩⟩
          · intro u hu
            rcases List.mem_cons.mp hu with rfl | hu
            · exact ⟨hw, hwf⟩
            · simp at hu
          · intro i hi
            simp at hi
        · obtain ⟨u, hu2n, hueq, huf, _, huo, hum⟩ := hPred w hw hpw
          have hterm2 : predChain pred3 fuel (u : ℤ) = -1 := by
            rw [← hueq]
            exact hterm
          obtain ⟨l, hl, hmem, hlink, hlast⟩ := ih u hu2n huf hterm2
          rw [hueq, hl]
          refine ⟨u :: l, rfl, ?_, ?_, ?_⟩
          · intro z hz
            rcases List.mem_cons.mp hz with rfl | hz
            · exact ⟨hw, hwf⟩
            · exact hmem z hz
          · intro i hi
            cases i with
            | zero =>
              refine ⟨by simpa using hueq, ?_, ?_⟩
              · simpa using huo
              · simpa using hum
            | succ i =>
              simp only [List.length_cons] at hi
              have := hlink i (by simpa using hi)
              simpa using this
          · obtain ⟨z, hz1, hz2⟩ := hlast
            refine ⟨z, ?_, hz2⟩
            rw [List.getLast?_cons_cons]
            exact hz1
    -- instantiate at the end vertex
    obtain ⟨l, hl, hmem, hlink, hlast⟩ := hstruct (2 * n + 1) v hv2n hvf hterm
    have hpath : path = (v :: l).reverse := by
      have hbp := buildPath_eq_reverse pred3 (2 * n + 1) (v : ℤ)
      rw [hbp, hl] at h2
      exact (Option.some_inj.mp h2).symm
    have hnodup : path.Nodup := by
      rw [hpath]
      rw [List.nodup_reverse]
      rw [← hl]
      exact revChain_nodup pred3 hge (2 * n + 1) (v : ℤ) hterm (by positivity)
    set L := path.length with hLd
    have hLlen : L = (v :: l).length := by
      rw [hpath] at hLd
      simpa using hLd
    have hrevget : ∀ i, i < L → path.getD i 0 = (v :: l).getD (L - 1 - i) 0 := by
      intro i hi
      have hrl : (v :: l).length = L := hLlen.symm
      have hi2 : i < ((v :: l).reverse).length := by
        rw [List.length_reverse, hrl]
        exact hi
      rw [hpath, List.getD_eq_getElem _ 0 hi2,
        List.getD_eq_getElem _ 0 (show L - 1 - i < (v :: l).length by omega),
        List.getElem_reverse]
      congr 1
      rw [hrl]
    -- the last chain element (= head of the path) is a seed
    obtain ⟨z, hz1, hz2⟩ := hlast
    have hzget : (v :: l).getD ((v :: l).length - 1) 0 = z := by
      rw [List.getD_eq_getElem?_getD, ← List.getLast?_eq_getElem?, hz1]
      rfl
    have hzmem : z ∈ v :: l := by
      rw [← hzget]
      exact getD_mem _ _ _ (by simp)
    obtain ⟨hz2n, hzf⟩ := hmem z hzmem
    obtain ⟨hzn, hzum⟩ := hSeed z hz2n hzf hz2
    have hL1 : 1 ≤ L := by
      rw [hLlen]
      simp
    have hL2 : 2 ≤ L := by
      rcases Nat.lt_or_ge L 2 with h2 | h2
      · exfalso
        have hL1' : L = 1 := by omega
        have : (v :: l).length = 1 := by rw [← hLlen, hL1']
        have hl0 : l = [] := by
          cases l with
          | nil => rfl
          | cons a b => simp at this
        subst hl0
        simp at hzget
        omega
      · exact h2
    refine ⟨hL2, hnodup, ?_, ?_, ?_, ?_⟩
    · intro i hi
      have hb : L - 1 - i < (v :: l).length := by
        rw [← hLlen]
        omega
      rw [hrevget i hi]
      exact (hmem _ (getD_mem _ _ _ hb)).1
    · have h0 : path.getD 0 0 = z := by
        rw [hrevget 0 (by omega), ← hzget]
        congr 1
        rw [hLlen]
        omega
      rw [h0]
      exact ⟨hzn, hzum⟩
    · have hd : path.getD (L - 1) 0 = v := by
        rw [hrevget (L - 1) (by omega)]
        have hz0 : L - 1 - (L - 1) = 0 := by omega
        rw [hz0]
        rfl
      rw [hd]
      exact ⟨hvn, hvm1⟩
    · intro i hi
      have hlk := hlink (L - 2 - i) (by rw [← hLlen]; omega)
      have e1 : path.getD i 0 = (v :: l).getD (L - 1 - i) 0 := hrevget i (by omega)
      have e2 : path.getD (i + 1) 0 = (v :: l).getD (L - 2 - i) 0 := by
        rw [hrevget (i + 1) (by omega)]
        congr 1
        omega
      have e3 : L - 2 - i + 1 = L - 1 - i := by omega
      rw [e3] at hlk
      rw [e1, e2]
      exact ⟨hlk.2.1, hlk.2.2⟩

/-! ### Applying an augmenting path to the matching -/

theorem foldl_set_length (tgt : ℕ → ℕ) (val : ℕ → ℤ) :
    ∀ (idxs : List ℕ) (m : List ℤ),
      (idxs.foldl (fun m2 i => m2.set (tgt i) (val i)) m).length = m.length
  | [], _ => rfl
  | i :: is, m => by
    rw [List.foldl_cons, foldl_set_length tgt val is (m.set (tgt i) (val i)), List.length_set]

theorem foldl_set_getD_notin (tgt : ℕ → ℕ) (val : ℕ → ℤ) :
    ∀ (idxs : List ℕ) (m : List ℤ) (v : ℕ), (∀ i ∈ idxs, tgt i ≠ v) →
      (idxs.foldl (fun m2 i => m2.set (tgt i) (val i)) m).getD v (-1) = m.getD v (-1)
  | [], _, _, _ => rfl
  | i :: is, m, v, h => by
    rw [List.foldl_cons,
      foldl_set_getD_notin tgt val is (m.set (tgt i) (val i)) v (fun j hj => h j (by simp [hj]))]
    exact getD_set_ne m (tgt i) v (val i) (-1) (h i (by simp))

theorem foldl_set_getD_mem (tgt : ℕ → ℕ) (val : ℕ → ℤ) :
    ∀ (idxs : List ℕ) (m : List ℤ) (i : ℕ), idxs.Nodup → i ∈ idxs →
      tgt i < m.length → (∀ j ∈ idxs, tgt j = tgt i → j = i) →
      (idxs.foldl (fun m2 j => m2.set (tgt j) (val j)) m).getD (tgt i) (-1) = val i
  | [], _, i, _, hmem, _, _ => by simp at hmem
  | a :: is, m, i, hnd, hmem, hlt, hinj => by
    rw [List.foldl_cons]
    rcases List.mem_cons.mp hmem with rfl | hmem2
    · have hne : ∀ j ∈ is, tgt j ≠ tgt i := by
        intro j hj heq
        have hji : j = i := hinj j (by simp [hj]) heq
        exact (List.nodup_cons.mp hnd).1 (hji ▸ hj)
      rw [foldl_set_getD_notin tgt val is (m.set (tgt i) (val i)) (tgt i) hne]
      exact getD_set_self m (tgt i) (val i) (-1) hlt
    · exact foldl_set_getD_mem tgt val is (m.set (tgt a) (val a)) i
        (List.nodup_cons.mp hnd).2 hmem2 (by rw [List.length_set]; exact hlt)
        (fun j hj heq => hinj j (by simp [hj]) heq)

theorem getD_inj_of_nodup (l : List ℕ) (hnd : l.Nodup) :
    ∀ i j, i < l.length → j < l.length → l.getD i 0 = l.getD j 0 → i = j := by
  have hne2 : ∀ i j, i < j → j < l.length → l.getD i 0 ≠ l.getD j 0 := by
    intro i j hij hj
    have h0 := (List.nodup_iff_getElem?_ne_getElem?.mp hnd) i j hij hj
    rw [List.getD_eq_getElem _ 0 (by omega), List.getD_eq_getElem _ 0 hj]
    intro hcon
    exact h0 (by rw [List.getElem?_eq_getElem (by omega), List.getElem?_eq_getElem hj, hcon])
  intro i j hi hj heq
  by_contra hcne
  rcases Nat.lt_or_ge i j with h | h
  · exact hne2 i j h hj heq
  · exact hne2 j i (by omega) hi heq.symm

theorem applyPath_eq_foldl (mtch : List ℤ) (path : List ℕ) (n : ℕ) :
    applyPath mtch path n = (List.range path.length).foldl
      (fun m2 i => m2.set (path.getD i 0)
        (if path.getD i 0 < n then ((path.getD (i + 1) 0 : ℕ) : ℤ)
         else ((path.getD (i - 1) 0 : ℕ) : ℤ))) mtch := by
  rw [applyPath]
  congr 1
  funext m2 i
  dsimp only
  by_cases h : path.getD i 0 < n
  · simp only [if_pos h]
  · simp only [if_neg h]

theorem applyPath_getD (mtch : List ℤ) (path : List ℕ) (n : ℕ) (hnd : path.Nodup) :
    (applyPath mtch path n).length = mtch.length ∧
    (∀ v, (∀ i, i < path.length → path.getD i 0 ≠ v) →
      Mentry (applyPath mtch path n) v = Mentry mtch v) ∧
    (∀ i, i < path.length → path.getD i 0 < mtch.length →
      Mentry (applyPath mtch path n) (path.getD i 0) =
        (if path.getD i 0 < n then ((path.getD (i + 1) 0 : ℕ) : ℤ)
         else ((path.getD (i - 1) 0 : ℕ) : ℤ))) := by
  rw [applyPath_eq_foldl]
  simp only [Mentry]
  refine ⟨foldl_set_length _ _ _ _, ?_, ?_⟩
  · intro v hv
    exact foldl_set_getD_notin (fun i => path.getD i 0)
      (fun i => if path.getD i 0 < n then ((path.getD (i + 1) 0 : ℕ) : ℤ)
        else ((path.getD (i - 1) 0 : ℕ) : ℤ)) (List.range path.length) mtch v
      (fun i hi => hv i (List.mem_range.mp hi))
  · intro i hi hlt
    exact foldl_set_getD_mem (fun i => path.getD i 0)
      (fun i => if path.getD i 0 < n then ((path.getD (i + 1) 0 : ℕ) : ℤ)
        else ((path.getD (i - 1) 0 : ℕ) : ℤ)) (List.range path.length) mtch i
      (List.nodup_range _) (List.mem_range.mpr hi) hlt
      (fun j hj heq => getD_inj_of_nodup path hnd j i (List.mem_range.mp hj) hi heq)

theorem countP_flip_one (f g : ℕ → Bool) :
    ∀ (l : List ℕ) (u0 : ℕ), l.Nodup → u0 ∈ l →
      f u0 = false → g u0 = true → (∀ u ∈ l, u ≠ u0 → f u = g u) →
      l.countP g = l.countP f + 1
  | [], u0, _, hmem, _, _, _ => by simp at hmem
  | a :: t, u0, hnd, hmem, hf, hg, hagree => by
    rcases List.mem_cons.mp hmem with heq | hmem2
    · subst heq
      have ht : t.countP f = t.countP g := by
        apply List.countP_congr
        intro u hu
        have heqfg := hagree u (by simp [hu]) (fun h => (List.nodup_cons.mp hnd).1 (h ▸ hu))
        rw [heqfg]
      rw [List.countP_cons, List.countP_cons, hf, hg]
      simp [ht]
    · have ha : f a = g a :=
        hagree a (by simp) (fun h => (List.nodup_cons.mp hnd).1 (h ▸ hmem2))
      rw [List.countP_cons, List.countP_cons, ← ha,
        countP_flip_one f g t u0 (List.nodup_cons.mp hnd).2 hmem2 hf hg
          (fun u hu hne => hagree u (by simp [hu]) hne)]
      omega

/-- Applying a genuine augmenting path to a valid matching (the `for` loop of
`hopcroft_karp`) yields a valid matching with exactly one more matched left
vertex. -/
theorem applyPath_valid (alloc : List (List ℚ)) (mtch : List ℤ) (n : ℕ) (path : List ℕ)
    (hvm : ValidMatching alloc mtch n)
    (hlen2 : 2 ≤ path.length)
    (hnd : path.Nodup)
    (hrange : ∀ i, i < path.length → path.getD i 0 < 2 * n)
    (hstart : path.getD 0 0 < n ∧ Mentry mtch (path.getD 0 0) = -1)
    (hend : n ≤ path.getD (path.length - 1) 0 ∧
      Mentry mtch (path.getD (path.length - 1) 0) = -1)
    (hlinks : ∀ i, i + 1 < path.length →
      oppSide n (path.getD i 0) (path.getD (i + 1) 0) ∧
      moveOK alloc mtch n (path.getD i 0) (path.getD (i + 1) 0)) :
    ValidMatching alloc (applyPath mtch path n) n ∧
    matchedL (applyPath mtch path n) n = matchedL mtch n + 1 := by
  obtain ⟨hml, hleft, hright⟩ := hvm
  obtain ⟨hs1, hs2⟩ := hstart
  obtain ⟨he1, he2⟩ := hend
  obtain ⟨hAlen, hAout, hAin⟩ := applyPath_getD mtch path n hnd
  set A := applyPath mtch path n with hAd
  -- sides alternate along the path
  have hside : ∀ i, i < path.length → (path.getD i 0 < n ↔ i % 2 = 0) := by
    intro i
    induction i with
    | zero =>
      intro _
      exact iff_of_true hs1 rfl
    | succ i ih =>
      intro hi1
      have hi : i < path.length := by omega
      have hiff := ih hi
      obtain ⟨hopp, _⟩ := hlinks i hi1
      constructor
      · intro hlt
        rcases hopp with ⟨h1, h2, h3⟩ | ⟨h1, h2⟩
        · omega
        · have hmod : ¬ i % 2 = 0 := fun h => by
            have := hiff.mpr h
            omega
          omega
      · intro hmod
        rcases hopp with ⟨h1, h2, h3⟩ | ⟨h1, h2⟩
        · have := hiff.mp h1
          omega
        · exact h2
  have hLeven : path.length % 2 = 0 := by
    have h2 := hside (path.length - 1) (by omega)
    have h3 : ¬ (path.length - 1) % 2 = 0 := fun h => by
      have := h2.mpr h
      omega
    omega
  have hAeven : ∀ i, i < path.length → i % 2 = 0 →
      Mentry A (path.getD i 0) = ((path.getD (i + 1) 0 : ℕ) : ℤ) := by
    intro i hi hmod
    rw [hAin i hi (by rw [hml]; exact hrange i hi), if_pos ((hside i hi).mpr hmod)]
  have hAodd : ∀ i, i < path.length → i % 2 = 1 →
      Mentry A (path.getD i 0) = ((path.getD (i - 1) 0 : ℕ) : ℤ) := by
    intro i hi hmod
    have hge : ¬ path.getD i 0 < n := fun h => by
      have := (hside i hi).mp h
      omega
    rw [hAin i hi (by rw [hml]; exact hrange i hi), if_neg hge]
  have hsucc : ∀ i, i < path.length → i % 2 = 0 → i + 1 < path.length := by
    intro i hi hmod
    rcases Nat.lt_or_ge (i + 1) path.length with h | h
    · exact h
    · exfalso
      omega
  have hmvL : ∀ i, i + 1 < path.length → path.getD i 0 < n →
      0 < ent alloc (path.getD i 0) (path.getD (i + 1) 0 - n) ∧
      Mentry mtch (path.getD i 0) ≠ ((path.getD (i + 1) 0 : ℕ) : ℤ) := by
    intro i hi1 hlt
    obtain ⟨hopp, hcon, hall⟩ := hlinks i hi1
    constructor
    · rw [connected, if_pos hlt] at hcon
      exact of_decide_eq_true hcon
    · rw [allowable, if_pos hlt] at hall
      intro hcon2
      rw [Mentry] at hcon2
      rw [hcon2] at hall
      simp at hall
  have hmvR : ∀ i, i + 1 < path.length → ¬ path.getD i 0 < n →
      0 < ent alloc (path.getD (i + 1) 0) (path.getD i 0 - n) ∧
      Mentry mtch (path.getD (i + 1) 0) = ((path.getD i 0 : ℕ) : ℤ) := by
    intro i hi1 hge
    obtain ⟨hopp, hcon, hall⟩ := hlinks i hi1
    constructor
    · rw [connected, if_neg hge] at hcon
      exact of_decide_eq_true hcon
    · rw [allowable, if_neg hge] at hall
      rw [Mentry]
      exact eq_of_beq hall
  refine ⟨⟨by rw [hAlen]; exact hml, ?_, ?_⟩, ?_⟩
  · -- left vertices of the new matching
    intro u hu
    by_cases hupath : ∃ i, i < path.length ∧ path.getD i 0 = u
    · obtain ⟨i, hi, hieq⟩ := hupath
      have hieven : i % 2 = 0 := (hside i hi).mp (by rw [hieq]; exact hu)
      have hi1 : i + 1 < path.length := hsucc i hi hieven
      have hwge : n ≤ path.getD (i + 1) 0 := by
        have h2 := hside (i + 1) hi1
        rcases Nat.lt_or_ge (path.getD (i + 1) 0) n with h | h
        · have := h2.mp h
          omega
        · exact h
      have hwlt : path.getD (i + 1) 0 < 2 * n := hrange (i + 1) hi1
      right
      refine ⟨path.getD (i + 1) 0 - n, by omega, ?_, ?_, ?_⟩
      · rw [← hieq, hAeven i hi hieven]
        omega
      · have hiodd : (i + 1) % 2 = 1 := by omega
        have heq2 : n + (path.getD (i + 1) 0 - n) = path.getD (i + 1) 0 := by omega
        rw [heq2, hAodd (i + 1) hi1 hiodd]
        simp only [Nat.add_sub_cancel]
        rw [hieq]
      · have hpos := (hmvL i hi1 (by rw [hieq]; exact hu)).1
        rw [hieq] at hpos
        exact hpos
    · push_neg at hupath
      have hsame : Mentry A u = Mentry mtch u := hAout u hupath
      rcases hleft u hu with hm1 | ⟨j, hj, hj1, hj2, hj3⟩
      · left
        rw [hsame]
        exact hm1
      · right
        refine ⟨j, hj, by rw [hsame]; exact hj1, ?_, hj3⟩
        have hnjpath : ∀ i, i < path.length → path.getD i 0 ≠ n + j := by
          intro i hi heq
          have hgei : ¬ path.getD i 0 < n := by omega
          have hiodd : i % 2 = 1 := by
            have h2 := hside i hi
            have : ¬ i % 2 = 0 := fun h => hgei (h2.mpr h)
            omega
          by_cases hlast : i = path.length - 1
          · rw [hlast] at heq
            rw [heq] at he2
            rw [he2] at hj2
            omega
          · have hi1 : i + 1 < path.length := by omega
            have hnext := (hmvR i hi1 hgei).2
            have hnlt : path.getD (i + 1) 0 < n :=
              (hside (i + 1) hi1).mpr (by omega)
            rcases hleft (path.getD (i + 1) 0) hnlt with hx | ⟨j2, hj2', hx1, hx2, _⟩
            · rw [hx] at hnext
              omega
            · rw [hnext] at hx1
              have hj2eq : j2 = j := by
                rw [heq] at hx1
                omega
              rw [hj2eq] at hx2
              rw [hx2] at hj2
              have hueq : path.getD (i + 1) 0 = u := by omega
              exact hupath (i + 1) hi1 hueq
        rw [hAout (n + j) hnjpath]
        exact hj2
  · -- right vertices of the new matching
    intro j hj
    by_cases hvpath : ∃ i, i < path.length ∧ path.getD i 0 = n + j
    · obtain ⟨i, hi, hieq⟩ := hvpath
      have hgei : ¬ path.getD i 0 < n := by omega
      have hiodd : i % 2 = 1 := by
        have h2 := hside i hi
        have : ¬ i % 2 = 0 := fun h => hgei (h2.mpr h)
        omega
      have hi1 : 1 ≤ i := by omega
      have hprevlt : path.getD (i - 1) 0 < n :=
        (hside (i - 1) (by omega)).mpr (by omega)
      right
      refine ⟨path.getD (i - 1) 0, hprevlt, ?_, ?_⟩
      · rw [← hieq, hAodd i hi hiodd]
      · have him : i - 1 < path.length := by omega
        have hprev_even : (i - 1) % 2 = 0 := by omega
        rw [hAeven (i - 1) him hprev_even]
        have hii : i - 1 + 1 = i := by omega
        rw [hii, hieq]
    · push_neg at hvpath
      have hsame : Mentry A (n + j) = Mentry mtch (n + j) := hAout (n + j) hvpath
      rcases hright j hj with hm1 | ⟨u, hult, hueq, humu⟩
      · left
        rw [hsame]
        exact hm1
      · right
        refine ⟨u, hult, by rw [hsame]; exact hueq, ?_⟩
        have hupath : ∀ i, i < path.length → path.getD i 0 ≠ u := by
          intro i hi heq
          have hieven : i % 2 = 0 := (hside i hi).mp (by rw [heq]; exact hult)
          by_cases hzero : i = 0
          · rw [hzero] at heq
            rw [heq] at hs2
            rw [hs2] at humu
            omega
          · have hi1 : 1 ≤ i := by omega
            have hprevge : ¬ path.getD (i - 1) 0 < n := fun h => by
              have := (hside (i - 1) (by omega)).mp h
              omega
            have hnext := (hmvR (i - 1) (by omega) hprevge).2
            have hii : i - 1 + 1 = i := by omega
            rw [hii, heq] at hnext
            rw [humu] at hnext
            have hprev : path.getD (i - 1) 0 = n + j := by omega
            exact hvpath (i - 1) (by omega) hprev
        rw [hAout u hupath]
        exact humu
  · -- the number of matched left vertices grows by one
    rw [matchedL, matchedL, ← List.countP_eq_length_filter, ← List.countP_eq_length_filter]
    refine countP_flip_one (fun u => !(Mentry mtch u == -1)) (fun u => !(Mentry A u == -1))
      (List.range n) (path.getD 0 0) (List.nodup_range n) (List.mem_range.mpr hs1)
      ?_ ?_ ?_
    · show (!(Mentry mtch (path.getD 0 0) == -1)) = false
      rw [hs2]
      simp
    · show (!(Mentry A (path.getD 0 0) == -1)) = true
      have h0e := hAeven 0 (by omega) (by omega)
      rw [h0e]
      have hne1 : ¬ ((path.getD 1 0 : ℕ) : ℤ) = -1 := by omega
      simp [hne1]
    · intro u hu hne
      show (!(Mentry mtch u == -1)) = (!(Mentry A u == -1))
      by_cases hup : ∃ i, i < path.length ∧ path.getD i 0 = u
      · obtain ⟨i, hi, hieq⟩ := hup
        have hult : u < n := List.mem_range.mp hu
        have hieven : i % 2 = 0 := (hside i hi).mp (by rw [hieq]; exact hult)
        have hipos : i ≠ 0 := fun h => hne (by rw [← hieq, h])
        have hi1 : 1 ≤ i := by omega
        have hprevge : ¬ path.getD (i - 1) 0 < n := fun h => by
          have := (hside (i - 1) (by omega)).mp h
          omega
        have hbefore := (hmvR (i - 1) (by omega) hprevge).2
        have hii : i - 1 + 1 = i := by omega
        rw [hii, hieq] at hbefore
        have hafter := hAeven i hi hieven
        rw [hieq] at hafter
        rw [hbefore, hafter]
        have hx1 : ¬ ((path.getD (i - 1) 0 : ℕ) : ℤ) = -1 := by omega
        have hx2 : ¬ ((path.getD (i + 1) 0 : ℕ) : ℤ) = -1 := by omega
        simp [hx1, hx2]
      · push_neg at hup
        rw [hAout u hup]

theorem matchedL_le (mtch : List ℤ) (n : ℕ) : matchedL mtch n ≤ n := by
  rw [matchedL]
  calc ((List.range n).filter _).length ≤ (List.range n).length := List.length_filter_le _ _
    _ = n := List.length_range n

/-- The `while 1` loop of `hopcroft_karp`: with enough fuel it reaches a valid
matching on which `augment` finds no path. -/
theorem hkAux_spec (alloc : List (List ℚ)) (n : ℕ) :
    ∀ (fuel : ℕ) (mtch : List ℤ), ValidMatching alloc mtch n →
      n - matchedL mtch n < fuel →
      ∃ mtch2, hkAux alloc n fuel mtch = mtch2 ∧ ValidMatching alloc mtch2 n ∧
        augment alloc mtch2 n = none
  | 0, mtch => by
    intro _ h
    omega
  | fuel + 1, mtch => by
    intro hvm hfuel
    cases haug : augment alloc mtch n with
    | none =>
      refine ⟨mtch, ?_, hvm, haug⟩
      simp [hkAux, haug]
    | some path =>
      obtain ⟨hp1, hp2, hp3, hp4, hp5, hp6⟩ := augment_some_spec alloc mtch n hvm path haug
      obtain ⟨hvm2, hcount⟩ := applyPath_valid alloc mtch n path hvm hp1 hp2 hp3 hp4 hp5 hp6
      have hle := matchedL_le (applyPath mtch path n) n
      obtain ⟨mtch2, hrun, hvm3, hnone⟩ :=
        hkAux_spec alloc n fuel (applyPath mtch path n) hvm2 (by omega)
      refine ⟨mtch2, ?_, hvm3, hnone⟩
      simp only [hkAux, haug]
      exact hrun

/-- `hopcroft_karp` runs its loop to quiescence: the final internal matching
is valid and admits no augmenting path, and the output is its left half
shifted down by `n`. -/
theorem hopcroft_karp_spec (alloc : List (List ℚ)) (n : ℕ) :
    ∃ mtch, ValidMatching alloc mtch n ∧ augment alloc mtch n = none ∧
      hopcroft_karp alloc n = (mtch.take n).map (fun x => x - (n : ℤ)) := by
  have hvm0 : ValidMatching alloc (List.replicate (2 * n) (-1 : ℤ)) n := by
    refine ⟨by simp, ?_, ?_⟩
    · intro u _
      left
      rw [Mentry]
      exact getD_replicate_neg _ _
    · intro j _
      left
      rw [Mentry]
      exact getD_replicate_neg _ _
  have hle := matchedL_le (List.replicate (2 * n) (-1 : ℤ)) n
  obtain ⟨mtch2, hrun, hvm2, hnone⟩ :=
    hkAux_spec alloc n (n + 1) (List.replicate (2 * n) (-1 : ℤ)) hvm0 (by omega)
  refine ⟨mtch2, hvm2, hnone, ?_⟩
  rw [hopcroft_karp, hrun]

/-- If a perfect matching exists in the support, the quiescent matching of
`hopcroft_karp` matches every left vertex (Hall-style counting argument on
the final BFS found set). -/
theorem matching_complete (alloc : List (List ℚ)) (mtch : List ℤ) (n : ℕ)
    (hvm : ValidMatching alloc mtch n) (hnone : augment alloc mtch n = none)
    (hpm : ExistsPM alloc n) :
    ∀ u, u < n → Mentry mtch u ≠ -1 := by
  by_contra hcon
  push_neg at hcon
  obtain ⟨u0, hu0n, hu0m⟩ := hcon
  obtain ⟨hml, hleft, hright⟩ := hvm
  obtain ⟨F, hseed, hclose, hnoright, hpartner⟩ := augment_none_spec alloc mtch n hnone
  obtain ⟨f, hfinj, hfsup⟩ := hpm
  classical
  set S : Finset ℕ := (Finset.range n).filter (fun u => F u) with hSd
  set T : Finset ℕ := (Finset.range n).filter (fun j => F (n + j)) with hTd
  set MS : Finset ℕ := S.filter (fun u => Mentry mtch u ≠ -1) with hMSd
  have hmemS : ∀ u, u ∈ S ↔ (u < n ∧ F u) := by
    intro u
    rw [hSd, Finset.mem_filter, Finset.mem_range]
  have hmemT : ∀ j, j ∈ T ↔ (j < n ∧ F (n + j)) := by
    intro j
    rw [hTd, Finset.mem_filter, Finset.mem_range]
  -- the perfect matching maps the found left set into the found right set
  have h1 : S.card ≤ T.card := by
    apply Finset.card_le_card_of_injOn
      (fun u => if h : u < n then ((f ⟨u, h⟩ : Fin n) : ℕ) else 0)
    · intro u hu
      obtain ⟨hun, huF⟩ := (hmemS u).mp hu
      rw [dif_pos hun]
      rw [hmemT]
      refine ⟨(f ⟨u, hun⟩).isLt, ?_⟩
      by_cases hm : Mentry mtch u = ((n + ((f ⟨u, hun⟩ : Fin n) : ℕ) : ℕ) : ℤ)
      · have hFne : Mentry mtch u ≠ -1 := by
          rw [hm]
          omega
        obtain ⟨w, hw1, hw2, hw3, hw4⟩ := hpartner u hun huF hFne
        have hweq : w = n + ((f ⟨u, hun⟩ : Fin n) : ℕ) := by
          rw [hm] at hw3
          omega
        rw [← hweq]
        exact hw4
      · apply hclose u (by omega) huF (n + ((f ⟨u, hun⟩ : Fin n) : ℕ))
          (by have := (f ⟨u, hun⟩).isLt; omega)
          (Or.inl ⟨hun, by omega, by have := (f ⟨u, hun⟩).isLt; omega⟩)
        constructor
        · rw [connected, if_pos hun]
          apply decide_eq_true
          have hsup := hfsup ⟨u, hun⟩
          simpa using hsup
        · rw [allowable, if_pos hun]
          have hm2 : (mtch.getD u (-1) == ((n + ((f ⟨u, hun⟩ : Fin n) : ℕ) : ℕ) : ℤ)) = false :=
            beq_eq_false_iff_ne.mpr hm
          rw [hm2]
          rfl
    · intro u1 hu1 u2 hu2 heq
      obtain ⟨h1n, _⟩ := (hmemS u1).mp hu1
      obtain ⟨h2n, _⟩ := (hmemS u2).mp hu2
      have heq2 : (if h : u1 < n then ((f ⟨u1, h⟩ : Fin n) : ℕ) else 0) =
          (if h : u2 < n then ((f ⟨u2, h⟩ : Fin n) : ℕ) else 0) := heq
      rw [dif_pos h1n, dif_pos h2n] at heq2
      have hfeq : f ⟨u1, h1n⟩ = f ⟨u2, h2n⟩ := Fin.val_injective heq2
      have := hfinj hfeq
      exact congrArg Fin.val this
  -- every found right vertex is matched, to a found matched left vertex
  have h2 : T.card ≤ MS.card := by
    apply Finset.card_le_card_of_injOn (fun j => (Mentry mtch (n + j)).toNat)
    · intro j hj
      obtain ⟨hjn, hjF⟩ := (hmemT j).mp hj
      have hne := hnoright (n + j) (by omega) (by omega) hjF
      rcases hright j hjn with hc | ⟨u, hun, hueq, hmu⟩
      · exact absurd hc hne
      · rw [hueq, Int.toNat_natCast]
        rw [hMSd, Finset.mem_filter]
        have humne : Mentry mtch u ≠ -1 := by
          rw [hmu]
          omega
        refine ⟨?_, humne⟩
        rw [hmemS]
        refine ⟨hun, ?_⟩
        -- the matched edge is in the support
        obtain ⟨j2, hj2n, hx1, hx2, hx3⟩ := (hleft u hun).resolve_left humne
        have hj2 : j2 = j := by
          rw [hmu] at hx1
          omega
        subst hj2
        apply hclose (n + j2) (by omega) hjF u (by omega) (Or.inr ⟨by omega, hun⟩)
        constructor
        · rw [connected, if_neg (by omega)]
          apply decide_eq_true
          have hj2eq : n + j2 - n = j2 := by omega
          rw [hj2eq]
          exact hx3
        · rw [allowable, if_neg (by omega)]
          apply beq_iff_eq.mpr
          rw [Mentry] at hmu
          rw [hmu]
    · intro j1 hj1 j2 hj2 heq
      obtain ⟨hj1n, hj1F⟩ := (hmemT j1).mp hj1
      obtain ⟨hj2n, hj2F⟩ := (hmemT j2).mp hj2
      rcases hright j1 hj1n with hc | ⟨v1, hv1n, hv1eq, hv1mu⟩
      · exact absurd hc (hnoright (n + j1) (by omega) (by omega) hj1F)
      rcases hright j2 hj2n with hc | ⟨v2, hv2n, hv2eq, hv2mu⟩
      · exact absurd hc (hnoright (n + j2) (by omega) (by omega) hj2F)
      have heq2 : (Mentry mtch (n + j1)).toNat = (Mentry mtch (n + j2)).toNat := heq
      rw [hv1eq, hv2eq, Int.toNat_natCast, Int.toNat_natCast] at heq2
      subst heq2
      rw [hv1mu] at hv2mu
      omega
  -- the unmatched seed witnesses strictness
  have h3 : MS.card < S.card := by
    apply Finset.card_lt_card
    rw [Finset.ssubset_iff_of_subset (Finset.filter_subset _ _)]
    refine ⟨u0, ?_, ?_⟩
    · rw [hmemS]
      exact ⟨hu0n, hseed u0 hu0n hu0m⟩
    · intro hc
      exact (Finset.mem_filter.mp hc).2 hu0m
  omega

/-! ### Scaled doubly stochastic matrices support a perfect matching -/

theorem list_sum_getD {M : Type*} [AddCommMonoid M] :
    ∀ l : List M, l.sum = ∑ i ∈ Finset.range l.length, l.getD i 0
  | [] => by simp
  | a :: t => by
    rw [List.sum_cons, List.length_cons, Finset.sum_range_succ', list_sum_getD t]
    simp [add_comm]

theorem sum_range_map {M : Type*} [AddCommMonoid M] (f : ℕ → M) :
    ∀ k : ℕ, ((List.range k).map f).sum = ∑ i ∈ Finset.range k, f i
  | 0 => by simp
  | k + 1 => by
    rw [List.range_succ, List.map_append, List.sum_append, Finset.sum_range_succ,
      sum_range_map f k]
    simp

theorem colSum_eq_sum (a : List (List ℚ)) (k j : ℕ) (hlen : a.length = k) :
    colSum a j = ∑ i ∈ Finset.range k, ent a i j := by
  rw [colSum, list_sum_getD, List.length_map, hlen]
  apply Finset.sum_congr rfl
  intro i hi
  rw [Finset.mem_range] at hi
  have h1 : i < (a.map (fun row => row.getD j 0)).length := by
    rw [List.length_map, hlen]
    exact hi
  have h2 : i < a.length := by
    rw [hlen]
    exact hi
  rw [List.getD_eq_getElem _ _ h1, List.getElem_map, ent, List.getD_eq_getElem _ _ h2]

theorem row_sum_eq (a : List (List ℚ)) (k : ℕ) (i : ℕ) (hi : i < a.length)
    (hrl : (a.getD i []).length = k) :
    (a.getD i []).sum = ∑ j ∈ Finset.range k, ent a i j := by
  rw [list_sum_getD, hrl]
  apply Finset.sum_congr rfl
  intro j _
  rw [ent]

theorem ent_nonneg (a : List (List ℚ)) (hnn : NonnegM a) (u j : ℕ)
    (hu : u < a.length) (hj : j < (a.getD u []).length) : 0 ≤ ent a u j := by
  rw [ent]
  exact hnn _ (getD_mem a u [] hu) _ (getD_mem _ j 0 hj)

/-- A scaled doubly stochastic matrix with positive scale satisfies Hall's
condition, hence its support admits a perfect matching. -/
theorem DS_existsPM (σ : ℚ) (a : List (List ℚ)) (k : ℕ)
    (hds : DS σ a k) (hσ : 0 < σ) : ExistsPM a k := by
  obtain ⟨⟨hlen, hrl⟩, hnn, hrow, hcol⟩ := hds
  classical
  have hentnn : ∀ u j : ℕ, u < k → j < k → 0 ≤ ent a u j := by
    intro u j hu hj
    apply ent_nonneg a hnn u j (by omega)
    rw [hrl _ (getD_mem a u [] (by omega))]
    exact hj
  set r : Fin k → Finset (Fin k) := fun u => Finset.univ.filter (fun j => 0 < ent a u j)
    with hrd
  have hhall : ∀ s : Finset (Fin k), s.card ≤ (s.biUnion r).card := by
    intro s
    have key : σ * (s.card : ℚ) ≤ σ * ((s.biUnion r).card : ℚ) := by
      have step1 : σ * (s.card : ℚ) = ∑ u ∈ s, ∑ j ∈ r u, ent a (u : ℕ) (j : ℕ) := by
        rw [Finset.card_eq_sum_ones, Nat.cast_sum, Finset.mul_sum]
        apply Finset.sum_congr rfl
        intro u _
        have hrowu : (a.getD (u : ℕ) []).sum = σ :=
          hrow _ (getD_mem a (u : ℕ) [] (by rw [hlen]; exact u.isLt))
        have hrs := row_sum_eq a k (u : ℕ) (by rw [hlen]; exact u.isLt)
          (hrl _ (getD_mem a (u : ℕ) [] (by rw [hlen]; exact u.isLt)))
        have hfin : ∑ j ∈ Finset.range k, ent a (u : ℕ) j =
            ∑ j : Fin k, ent a (u : ℕ) (j : ℕ) := by
          rw [← Fin.sum_univ_eq_sum_range]
        have hfilter : ∑ j : Fin k, ent a (u : ℕ) (j : ℕ) =
            ∑ j ∈ r u, ent a (u : ℕ) (j : ℕ) := by
          symm
          apply Finset.sum_filter_of_ne
          intro j _ hne
          rcases lt_or_eq_of_le (hentnn (u : ℕ) (j : ℕ) u.isLt j.isLt) with h | h
          · exact h
          · exact absurd h.symm hne
        rw [← hfilter, ← hfin, ← hrs, hrowu]
        ring
      have step2 : ∑ u ∈ s, ∑ j ∈ r u, ent a (u : ℕ) (j : ℕ) ≤
          ∑ u ∈ s, ∑ j ∈ s.biUnion r, ent a (u : ℕ) (j : ℕ) := by
        apply Finset.sum_le_sum
        intro u hu
        apply Finset.sum_le_sum_of_subset_of_nonneg (Finset.subset_biUnion_of_mem r hu)
        intro j _ _
        exact hentnn _ _ u.isLt j.isLt
      have step3 : ∑ u ∈ s, ∑ j ∈ s.biUnion r, ent a (u : ℕ) (j : ℕ) ≤
          σ * ((s.biUnion r).card : ℚ) := by
        rw [Finset.sum_comm, Finset.card_eq_sum_ones, Nat.cast_sum, Finset.mul_sum]
        apply Finset.sum_le_sum
        intro j _
        have hcolj : colSum a (j : ℕ) = σ := hcol (j : ℕ) j.isLt
        have hcs := colSum_eq_sum a k (j : ℕ) hlen
        have hle : ∑ u ∈ s, ent a (u : ℕ) (j : ℕ) ≤ ∑ u : Fin k, ent a (u : ℕ) (j : ℕ) := by
          apply Finset.sum_le_sum_of_subset_of_nonneg (Finset.subset_univ s)
          intro u _ _
          exact hentnn _ _ u.isLt j.isLt
        have hval : ∑ u : Fin k, ent a (u : ℕ) (j : ℕ) = σ := by
          rw [Fin.sum_univ_eq_sum_range (fun u => ent a u (j : ℕ)) k, ← hcs, hcolj]
        calc ∑ u ∈ s, ent a (u : ℕ) (j : ℕ) ≤ ∑ u : Fin k, ent a (u : ℕ) (j : ℕ) := hle
          _ = σ := hval
          _ = σ * ((1 : ℕ) : ℚ) := by norm_num
      calc σ * (s.card : ℚ) = ∑ u ∈ s, ∑ j ∈ r u, ent a (u : ℕ) (j : ℕ) := step1
        _ ≤ ∑ u ∈ s, ∑ j ∈ s.biUnion r, ent a (u : ℕ) (j : ℕ) := step2
        _ ≤ σ * ((s.biUnion r).card : ℚ) := step3
    have hq : (s.card : ℚ) ≤ ((s.biUnion r).card : ℚ) := le_of_mul_le_mul_left key hσ
    exact_mod_cast hq
  obtain ⟨f, hfinj, hfmem⟩ := (Finset.all_card_le_biUnion_card_iff_exists_injective r).mp hhall
  refine ⟨f, hfinj, ?_⟩
  intro u
  have := hfmem u
  rw [hrd] at this
  simpa using this

/-! ### The output of `hopcroft_karp` -/

theorem hk_output_getD (mtch : List ℤ) (n u : ℕ) (hml : mtch.length = 2 * n) (hu : u < n) :
    ((mtch.take n).map (fun x => x - (n : ℤ))).getD u 0 = Mentry mtch u - n := by
  have h1 : u < ((mtch.take n).map (fun x => x - (n : ℤ))).length := by
    rw [List.length_map, List.length_take]
    omega
  have h3 : u < mtch.length := by omega
  rw [List.getD_eq_getElem _ _ h1, List.getElem_map, Mentry, List.getD_eq_getElem _ _ h3]
  congr 1
  rw [List.getElem_take]

/-- `hopcroft_karp` always returns normally: a list of length `size` whose
entries are either a matched item index in `[0, size)` or the sentinel
`-1 - size` for an unmatched agent; and if no entry is the sentinel then the
support admits a perfect matching. -/
theorem hopcroft_karp_out (alloc : List (List ℚ)) (k : ℕ) :
    (hopcroft_karp alloc k).length = k ∧
    (∀ u, u < k → (hopcroft_karp alloc k).getD u 0 = -1 - k ∨
      ∃ j, j < k ∧ (hopcroft_karp alloc k).getD u 0 = (j : ℤ)) ∧
    ((∀ u, u < k → (hopcroft_karp alloc k).getD u 0 ≠ -1 - k) → ExistsPM alloc k) := by
  obtain ⟨mtch, hvm, hnone, hout⟩ := hopcroft_karp_spec alloc k
  obtain ⟨hml, hleft, hright⟩ := hvm
  have hget : ∀ u, u < k → (hopcroft_karp alloc k).getD u 0 = Mentry mtch u - k := by
    intro u hu
    rw [hout]
    exact hk_output_getD mtch k u hml hu
  refine ⟨?_, ?_, ?_⟩
  · rw [hout, List.length_map, List.length_take]
    omega
  · intro u hu
    rcases hleft u hu with hm | ⟨j, hj, hj1, _, _⟩
    · left
      rw [hget u hu, hm]
    · right
      refine ⟨j, hj, ?_⟩
      rw [hget u hu, hj1]
      push_cast
      ring
  · intro hall
    have hmt : ∀ u, u < k → ∃ j, j < k ∧ Mentry mtch u = ((k + j : ℕ) : ℤ) ∧
        Mentry mtch (k + j) = (u : ℤ) ∧ 0 < ent alloc u j := by
      intro u hu
      rcases hleft u hu with hm | h
      · exfalso
        apply hall u hu
        rw [hget u hu, hm]
      · exact h
    refine ⟨fun u => ⟨min ((Mentry mtch (u : ℕ)).toNat - k) (k - 1), by
        have := u.isLt
        omega⟩, ?_, ?_⟩
    · intro u1 u2 heq
      obtain ⟨j1, hj1, he1, hm1, _⟩ := hmt (u1 : ℕ) u1.isLt
      obtain ⟨j2, hj2, he2, hm2, _⟩ := hmt (u2 : ℕ) u2.isLt
      have hv1 : (Mentry mtch (u1 : ℕ)).toNat - k = j1 := by
        rw [he1, Int.toNat_natCast]
        omega
      have hv2 : (Mentry mtch (u2 : ℕ)).toNat - k = j2 := by
        rw [he2, Int.toNat_natCast]
        omega
      have hvals := congrArg Fin.val heq
      simp only [hv1, hv2] at hvals
      have hjeq : j1 = j2 := by omega
      rw [hjeq] at hm1
      rw [hm1] at hm2
      have : (u1 : ℕ) = (u2 : ℕ) := by omega
      exact Fin.val_injective this
    · intro u
      obtain ⟨j, hj, he, _, hsup⟩ := hmt (u : ℕ) u.isLt
      have hv : (Mentry mtch (u : ℕ)).toNat - k = j := by
        rw [he, Int.toNat_natCast]
        omega
      have hmin : min ((Mentry mtch (u : ℕ)).toNat - k) (k - 1) = j := by omega
      show 0 < ent alloc (u : ℕ) (min ((Mentry mtch (u : ℕ)).toNat - k) (k - 1))
      rw [hmin]
      exact hsup

/-- When the support admits a perfect matching, `hopcroft_karp` returns a
complete assignment: every agent is matched to a distinct supported item, and
every item is used. -/
theorem hopcroft_karp_perfect (alloc : List (List ℚ)) (k : ℕ) (hpm : ExistsPM alloc k) :
    (hopcroft_karp alloc k).length = k ∧
    (∀ u, u < k → ∃ j, j < k ∧ (hopcroft_karp alloc k).getD u 0 = (j : ℤ) ∧
      0 < ent alloc u j) ∧
    (∀ u1 u2, u1 < k → u2 < k →
      (hopcroft_karp alloc k).getD u1 0 = (hopcroft_karp alloc k).getD u2 0 → u1 = u2) ∧
    (∀ j, j < k → ∃ u, u < k ∧ (hopcroft_karp alloc k).getD u 0 = (j : ℤ)) := by
  obtain ⟨mtch, hvm, hnone, hout⟩ := hopcroft_karp_spec alloc k
  obtain ⟨hml, hleft, hright⟩ := hvm
  have hcomp := matching_complete alloc mtch k ⟨hml, hleft, hright⟩ hnone hpm
  have hget : ∀ u, u < k → (hopcroft_karp alloc k).getD u 0 = Mentry mtch u - k := by
    intro u hu
    rw [hout]
    exact hk_output_getD mtch k u hml hu
  have hmt : ∀ u, u < k → ∃ j, j < k ∧ Mentry mtch u = ((k + j : ℕ) : ℤ) ∧
      Mentry mtch (k + j) = (u : ℤ) ∧ 0 < ent alloc u j :=
    fun u hu => (hleft u hu).resolve_left (hcomp u hu)
  have hmatched : ∀ u, u < k → ∃ j, j < k ∧ (hopcroft_karp alloc k).getD u 0 = (j : ℤ) ∧
      0 < ent alloc u j := by
    intro u hu
    obtain ⟨j, hj, hj1, _, hj3⟩ := hmt u hu
    refine ⟨j, hj, ?_, hj3⟩
    rw [hget u hu, hj1]
    push_cast
    ring
  have hinj : ∀ u1 u2, u1 < k → u2 < k →
      (hopcroft_karp alloc k).getD u1 0 = (hopcroft_karp alloc k).getD u2 0 → u1 = u2 := by
    intro u1 u2 hu1 hu2 heq
    obtain ⟨j1, hj1, he1, hm1, _⟩ := hmt u1 hu1
    obtain ⟨j2, hj2, he2, hm2, _⟩ := hmt u2 hu2
    rw [hget u1 hu1, hget u2 hu2, he1, he2] at heq
    have hjeq : j1 = j2 := by omega
    rw [hjeq] at hm1
    rw [hm1] at hm2
    omega
  refine ⟨?_, hmatched, hinj, ?_⟩
  · rw [hout, List.length_map, List.length_take]
    omega
  · intro j hj
    classical
    by_contra hcon
    push_neg at hcon
    set g : ℕ → ℕ := fun u => ((hopcroft_karp alloc k).getD u 0).toNat with hgd
    have hgmem : (Finset.range k).image g ⊆ (Finset.range k).erase j := by
      intro x hx
      obtain ⟨u, hu, hux⟩ := Finset.mem_image.mp hx
      rw [Finset.mem_range] at hu
      obtain ⟨ju, hju, hjue, _⟩ := hmatched u hu
      have hxval : x = ju := by
        rw [hgd] at hux
        simp only at hux
        rw [hjue, Int.toNat_natCast] at hux
        omega
      rw [Finset.mem_erase, Finset.mem_range]
      refine ⟨?_, by omega⟩
      intro hxj
      apply hcon u hu
      rw [hjue, ← hxval, hxj]
    have hcard1 : ((Finset.range k).image g).card = k := by
      rw [Finset.card_image_of_injOn, Finset.card_range]
      intro u1 hu1 u2 hu2 heq
      rw [Finset.mem_coe, Finset.mem_range] at hu1 hu2
      obtain ⟨j1, hj1, he1, _⟩ := hmatched u1 hu1
      obtain ⟨j2, hj2, he2, _⟩ := hmatched u2 hu2
      apply hinj u1 u2 hu1 hu2
      rw [he1, he2]
      rw [hgd] at heq
      simp only at heq
      rw [he1, he2, Int.toNat_natCast, Int.toNat_natCast] at heq
      omega
    have hcard2 := Finset.card_le_card hgmem
    rw [hcard1, Finset.card_erase_of_mem (Finset.mem_range.mpr hj), Finset.card_range]
      at hcard2
    omega

/-! ### The decompose loop: reading and updating along the matching -/

theorem pyGet_nonneg (l : List ℚ) (i : ℤ) (h0 : 0 ≤ i) (hlt : i.toNat < l.length) :
    pyGet l i = some (l.getD i.toNat 0) := by
  rw [pyGet, if_pos h0, List.get?_eq_getElem?, List.getElem?_eq_getElem hlt,
    List.getD_eq_getElem _ _ hlt]

theorem pySet_nonneg (l : List ℚ) (i : ℤ) (v : ℚ) (h0 : 0 ≤ i) (hlt : i.toNat < l.length) :
    pySet l i v = some (l.set i.toNat v) := by
  rw [pySet, if_pos h0, if_pos hlt]

theorem countP_set_q (p : ℚ → Bool) :
    ∀ (l : List ℚ) (i : ℕ) (v : ℚ), i < l.length →
      (l.set i v).countP p + (if p (l.getD i 0) then 1 else 0) =
        l.countP p + (if p v then 1 else 0)
  | [], i, v => by simp
  | a :: t, 0, v => by
    intro _
    simp only [List.set_cons_zero, List.countP_cons, List.getD_cons_zero]
    omega
  | a :: t, i + 1, v => by
    intro h
    simp only [List.set_cons_succ, List.countP_cons, List.getD_cons_succ]
    have := countP_set_q p t i v (by simpa using h)
    omega

theorem countP_range_eq_sum (p : ℕ → Bool) :
    ∀ k : ℕ, (List.range k).countP p = ∑ i ∈ Finset.range k, (if p i then 1 else 0)
  | 0 => by simp
  | k + 1 => by
    rw [List.range_succ, List.countP_append, Finset.sum_range_succ, countP_range_eq_sum p k]
    simp [List.countP_cons]

theorem posCount_eq_sum (a : List (List ℚ)) (k : ℕ) (hlen : a.length = k) :
    posCount a = ∑ i ∈ Finset.range k, (a.getD i []).countP (fun v => decide (0 < v)) := by
  rw [posCount, list_sum_getD, List.length_map, hlen]
  apply Finset.sum_congr rfl
  intro i hi
  rw [Finset.mem_range] at hi
  have h1 : i < (a.map (fun row => row.countP (fun v => decide (0 < v)))).length := by
    rw [List.length_map, hlen]
    exact hi
  have h2 : i < a.length := by
    rw [hlen]
    exact hi
  rw [List.getD_eq_getElem _ _ h1, List.getElem_map, List.getD_eq_getElem _ _ h2]

theorem posCount_zero_entries (a : List (List ℚ)) (hnn : NonnegM a)
    (hpc : posCount a = 0) : ∀ row ∈ a, ∀ v ∈ row, v = 0 := by
  intro row hrow v hv
  rw [posCount, List.sum_eq_zero_iff] at hpc
  have hcz : row.countP (fun v => decide (0 < v)) = 0 :=
    hpc _ (List.mem_map.mpr ⟨row, hrow, rfl⟩)
  rw [List.countP_eq_zero] at hcz
  have := hcz v hv
  have hnv := hnn row hrow v hv
  rcases lt_or_eq_of_le hnv with h | h
  · exact absurd (decide_eq_true h) this
  · exact h.symm

/-- The inner fold of `min_val` over a list of row indices. -/
theorem minFold_spec (alloc : List (List ℚ)) (mtch : List ℤ) (k : ℕ)
    (halen : alloc.length = k) (harl : ∀ i, i < k → (alloc.getD i []).length = k)
    (hmtch : ∀ u, u < k → ∃ j, j < k ∧ mtch.getD u 0 = (j : ℤ)) :
    ∀ (l : List ℕ) (mv0 : ℚ), (∀ i ∈ l, i < k) →
      ∃ mv, l.foldlM (fun mv i => do
          let v ← pyGet (alloc.getD i []) (mtch.getD i 0)
          pure (if mv > v then v else mv)) mv0 = some mv ∧
        mv ≤ mv0 ∧ (∀ i ∈ l, mv ≤ ent alloc i (mtch.getD i 0).toNat) ∧
        (mv = mv0 ∨ ∃ i ∈ l, mv = ent alloc i (mtch.getD i 0).toNat)
  | [], mv0, _ => ⟨mv0, rfl, le_rfl, by simp, Or.inl rfl⟩
  | i :: t, mv0, hmem => by
    have hik : i < k := hmem i (by simp)
    obtain ⟨j, hj, hje⟩ := hmtch i hik
    have htn : (mtch.getD i 0).toNat = j := by
      rw [hje, Int.toNat_natCast]
    have hget : pyGet (alloc.getD i []) (mtch.getD i 0) =
        some ((alloc.getD i []).getD j 0) := by
      rw [hje]
      rw [pyGet_nonneg _ _ (by omega) (by rw [Int.toNat_natCast, harl i hik]; exact hj)]
      rw [Int.toNat_natCast]
    set e := (alloc.getD i []).getD j 0 with hed
    set mv1 := if mv0 > e then e else mv0 with hmv1d
    obtain ⟨mv, hrun, hle, hall, hatt⟩ :=
      minFold_spec alloc mtch k halen harl hmtch t mv1 (fun x hx => hmem x (by simp [hx]))
    refine ⟨mv, ?_, ?_, ?_, ?_⟩
    · rw [List.foldlM_cons, hget]
      simp only [Option.bind_eq_bind, Option.some_bind, Option.pure_def]
      exact hrun
    · have h1 : mv1 ≤ mv0 := by
        rw [hmv1d]
        split_ifs with h
        · linarith
        · exact le_rfl
      linarith
    · intro x hx
      rcases List.mem_cons.mp hx with rfl | hx2
      · rw [htn]
        have h2 : mv1 ≤ e := by
          rw [hmv1d]
          split_ifs with h
          · exact le_rfl
          · linarith
        show mv ≤ e
        linarith
      · exact hall x hx2
    · rcases hatt with h | ⟨x, hx, he2⟩
      · rw [hmv1d] at h
        by_cases hc : mv0 > e
        · rw [if_pos hc] at h
          right
          refine ⟨i, by simp, ?_⟩
          rw [htn]
          exact h
        · rw [if_neg hc] at h
          left
          exact h
      · right
        exact ⟨x, by simp [hx], he2⟩

/-- The `min_val` computation of `decompose`: on a square matrix and a
complete matching it returns the least matched entry. -/
theorem minOnMatch_spec (alloc : List (List ℚ)) (mtch : List ℤ) (k : ℕ) (hk : 1 ≤ k)
    (halen : alloc.length = k) (harl : ∀ i, i < k → (alloc.getD i []).length = k)
    (hmtch : ∀ u, u < k → ∃ j, j < k ∧ mtch.getD u 0 = (j : ℤ)) :
    ∃ mv, minOnMatch alloc mtch k = some mv ∧
      (∀ u, u < k → mv ≤ ent alloc u (mtch.getD u 0).toNat) ∧
      (∃ u, u < k ∧ mv = ent alloc u (mtch.getD u 0).toNat) := by
  obtain ⟨j0, hj0, hje0⟩ := hmtch 0 (by omega)
  have hfirst : pyGet (alloc.getD 0 []) (mtch.getD 0 0) =
      some ((alloc.getD 0 []).getD j0 0) := by
    rw [hje0, pyGet_nonneg _ _ (by omega)
      (by rw [Int.toNat_natCast, harl 0 (by omega)]; exact hj0), Int.toNat_natCast]
  have htn0 : (mtch.getD 0 0).toNat = j0 := by
    rw [hje0, Int.toNat_natCast]
  obtain ⟨mv, hrun, hle, hall, hatt⟩ :=
    minFold_spec alloc mtch k halen harl hmtch (List.range' 1 (k - 1))
      ((alloc.getD 0 []).getD j0 0)
      (fun i hi => by
        rw [List.mem_range'] at hi
        obtain ⟨x, hx, rfl⟩ := hi
        omega)
  refine ⟨mv, ?_, ?_, ?_⟩
  · rw [minOnMatch, hfirst]
    simp only [Option.bind_eq_bind, Option.some_bind]
    exact hrun
  · intro u hu
    cases u with
    | zero =>
      rw [htn0]
      show mv ≤ (alloc.getD 0 []).getD j0 0
      exact hle
    | succ u =>
      apply hall
      rw [List.mem_range']
      exact ⟨u, by omega, by omega⟩
  · rcases hatt with h | ⟨x, hx, he⟩
    · refine ⟨0, by omega, ?_⟩
      rw [htn0]
      exact h
    · rw [List.mem_range'] at hx
      obtain ⟨y, hy, rfl⟩ := hx
      exact ⟨1 + 1 * y, by omega, he⟩

/-- One row update of the extraction loop, on a concrete in-range index. -/
theorem updRow_spec (mv : ℚ) (m : ℕ) (js : ℕ) (drow arow : List ℚ)
    (hd : drow.length = m) (ha : js < arow.length) :
    updRow mv m (js : ℤ) drow arow = some
      ((if js < m then drow.set js 1 else drow),
        arow.set js (arow.getD js 0 - mv),
        decide (arow.getD js 0 - mv = 0)) := by
  have htn : ((js : ℤ)).toNat = js := Int.toNat_natCast js
  have hget : pyGet arow (js : ℤ) = some (arow.getD js 0) := by
    rw [pyGet_nonneg _ _ (by omega) (by rw [htn]; exact ha), htn]
  have hset : pySet arow (js : ℤ) (arow.getD js 0 - mv) =
      some (arow.set js (arow.getD js 0 - mv)) := by
    rw [pySet_nonneg _ _ _ (by omega) (by rw [htn]; exact ha), htn]
  by_cases hjm : js < m
  · have hguard : ((js : ℤ)) < (m : ℤ) := by exact_mod_cast hjm
    have hsetd : pySet drow (js : ℤ) 1 = some (drow.set js 1) := by
      rw [pySet_nonneg _ _ _ (by omega) (by rw [htn, hd]; exact hjm), htn]
    rw [updRow, if_pos hguard, hsetd, hget]
    simp only [Option.bind_eq_bind, Option.some_bind]
    rw [hset]
    simp [hjm]
  · have hguard : ¬ ((js : ℤ)) < (m : ℤ) := by
      intro h
      exact hjm (by exact_mod_cast h)
    rw [updRow, if_neg hguard, hget]
    simp only [Option.bind_eq_bind, Option.some_bind, Option.pure_def]
    rw [hset]
    simp [hjm]

/-- The extraction `for` loop over the first `s` rows, from an arbitrary
state: runs to completion and is characterized row by row. -/
theorem updLoop_run (mv : ℚ) (mtch : List ℤ) (k m : ℕ)
    (hmtch : ∀ u, u < k → ∃ j, j < k ∧ mtch.getD u 0 = (j : ℤ)) :
    ∀ (s : ℕ) (disc0 al0 : List (List ℚ)) (nz0 : ℤ), s ≤ k →
      s ≤ disc0.length → s ≤ al0.length →
      (∀ i, i < s → (al0.getD i []).length = k) →
      (∀ i, i < s → (disc0.getD i []).length = m) →
      ∃ disc1 al1 nz1,
        (List.range s).foldlM (fun st i => do
            let (disc, al, cnt) := st
            let j := mtch.getD i 0
            let (drow2, arow2, hit0) ← updRow mv m j (disc.getD i []) (al.getD i [])
            pure (disc.set i drow2, al.set i arow2,
              if hit0 then cnt - 1 else cnt)) (disc0, al0, nz0) =
          some (disc1, al1, nz1) ∧
        disc1.length = disc0.length ∧ al1.length = al0.length ∧
        (∀ i, s ≤ i → disc1.getD i [] = disc0.getD i [] ∧ al1.getD i [] = al0.getD i []) ∧
        (∀ i, i < s →
          disc1.getD i [] = (if (mtch.getD i 0).toNat < m
            then (disc0.getD i []).set (mtch.getD i 0).toNat 1 else disc0.getD i []) ∧
          al1.getD i [] = (al0.getD i []).set (mtch.getD i 0).toNat
            ((al0.getD i []).getD (mtch.getD i 0).toNat 0 - mv)) ∧
        nz1 = nz0 - ((List.range s).countP (fun i =>
          decide ((al0.getD i []).getD (mtch.getD i 0).toNat 0 - mv = 0)) : ℕ)
  | 0, disc0, al0, nz0 => by
    intro _ _ _ _ _
    exact ⟨disc0, al0, nz0, rfl, rfl, rfl, fun i _ => ⟨rfl, rfl⟩,
      fun i hi => absurd hi (Nat.not_lt_zero i), by simp⟩
  | s + 1, disc0, al0, nz0 => by
    intro hsk hsd hsa hal hdl
    obtain ⟨disc1, al1, nz1, hrun, hl1, hl2, hout, hin, hnz⟩ :=
      updLoop_run mv mtch k m hmtch s disc0 al0 nz0 (by omega) (by omega) (by omega)
        (fun i hi => hal i (by omega)) (fun i hi => hdl i (by omega))
    obtain ⟨js, hjs, hje⟩ := hmtch s hsk
    have htn : (mtch.getD s 0).toNat = js := by
      rw [hje, Int.toNat_natCast]
    have hd1s : disc1.getD s [] = disc0.getD s [] := (hout s le_rfl).1
    have ha1s : al1.getD s [] = al0.getD s [] := (hout s le_rfl).2
    have hrow := updRow_spec mv m js (disc1.getD s []) (al1.getD s [])
      (by rw [hd1s]; exact hdl s (by omega))
      (by rw [ha1s, hal s (by omega)]; exact hjs)
    set drow2 := (if js < m then (disc1.getD s []).set js 1 else disc1.getD s []) with hdrd
    set arow2 := (al1.getD s []).set js ((al1.getD s []).getD js 0 - mv) with hard
    set hit0 := decide ((al1.getD s []).getD js 0 - mv = 0) with hhd
    refine ⟨disc1.set s drow2, al1.set s arow2, if hit0 then nz1 - 1 else nz1, ?_, ?_, ?_,
      ?_, ?_, ?_⟩
    · rw [List.range_succ, List.foldlM_append, hrun]
      simp only [Option.bind_eq_bind, Option.some_bind, List.foldlM_cons, List.foldlM_nil]
      rw [hje, hrow]
      simp only [Option.bind_eq_bind, Option.some_bind, Option.pure_def]
    · rw [List.length_set, hl1]
    · rw [List.length_set, hl2]
    · intro i hi
      rw [getD_set_ne disc1 s i drow2 [] (by omega), getD_set_ne al1 s i arow2 [] (by omega)]
      exact hout i (by omega)
    · intro i hi
      rcases Nat.lt_or_ge i s with his | his
      · rw [getD_set_ne disc1 s i drow2 [] (by omega),
          getD_set_ne al1 s i arow2 [] (by omega)]
        exact hin i his
      · have hieq : i = s := by omega
        subst hieq
        rw [getD_set_self disc1 i drow2 [] (by rw [hl1]; omega),
          getD_set_self al1 i arow2 [] (by rw [hl2]; omega)]
        rw [htn]
        constructor
        · rw [hdrd, hd1s]
        · rw [hard, ha1s]
    · rw [List.range_succ, List.countP_append]
      have hsing : (List.countP (fun i =>
          decide ((al0.getD i []).getD (mtch.getD i 0).toNat 0 - mv = 0)) [s]) =
          if hit0 then 1 else 0 := by
        rw [List.countP_cons, List.countP_nil, hhd, ha1s, htn]
        simp
      rw [hsing]
      by_cases hh : hit0 = true
      · simp only [if_pos hh, hnz]
        push_cast
        omega
      · simp only [if_neg hh, hnz]
        push_cast
        omega

/-- The full extraction loop of one `decompose` round. -/
theorem updateLoop_spec (mv : ℚ) (mtch : List ℤ) (k m : ℕ) (alloc : List (List ℚ)) (nz : ℤ)
    (hmtch : ∀ u, u < k → ∃ j, j < k ∧ mtch.getD u 0 = (j : ℤ))
    (halen : alloc.length = k) (harl : ∀ i, i < k → (alloc.getD i []).length = k) :
    ∃ disc1 al1 nz1,
      updateLoop mv mtch k m alloc nz = some (disc1, al1, nz1) ∧
      disc1.length = k ∧ al1.length = k ∧
      (∀ i, i < k →
        disc1.getD i [] = (if (mtch.getD i 0).toNat < m
          then (List.replicate m (0 : ℚ)).set (mtch.getD i 0).toNat 1
          else List.replicate m (0 : ℚ)) ∧
        al1.getD i [] = (alloc.getD i []).set (mtch.getD i 0).toNat
          ((alloc.getD i []).getD (mtch.getD i 0).toNat 0 - mv)) ∧
      nz1 = nz - ((List.range k).countP (fun i =>
        decide ((alloc.getD i []).getD (mtch.getD i 0).toNat 0 - mv = 0)) : ℕ) := by
  obtain ⟨disc1, al1, nz1, hrun, hl1, hl2, _, hin, hnz⟩ :=
    updLoop_run mv mtch k m hmtch k (List.replicate k (List.replicate m (0 : ℚ))) alloc nz
      le_rfl (by simp) (by omega) (fun i hi => harl i hi)
      (fun i hi => by rw [getD_replicate _ _ _ _ hi]; simp)
  refine ⟨disc1, al1, nz1, ?_, by simpa using hl1, by rw [hl2, halen], ?_, hnz⟩
  · rw [updateLoop]
    exact hrun
  · intro i hi
    have hrep : (List.replicate k (List.replicate m (0 : ℚ))).getD i [] =
        List.replicate m (0 : ℚ) := getD_replicate _ _ _ _ hi
    obtain ⟨h1, h2⟩ := hin i hi
    rw [hrep] at h1
    exact ⟨h1, h2⟩

/-! ### Collapsing representatives: `reduce` -/

theorem zipWith_add_getD (s t : List ℚ) (j : ℕ) (hs : j < s.length) (ht : j < t.length) :
    (List.zipWith (· + ·) s t).getD j 0 = s.getD j 0 + t.getD j 0 := by
  have hz : j < (List.zipWith (· + ·) s t).length := by
    rw [List.length_zipWith]
    omega
  rw [List.getD_eq_getElem _ _ hz, List.getElem_zipWith, List.getD_eq_getElem _ _ hs,
    List.getD_eq_getElem _ _ ht]

theorem fold_zip_add_spec (perm : List (List ℚ)) (m : ℕ) :
    ∀ (l : List ℕ) (acc : List ℚ), acc.length = m →
      (∀ r ∈ l, (perm.getD r []).length = m) →
      (l.foldl (fun s r => List.zipWith (· + ·) s (perm.getD r [])) acc).length = m ∧
      ∀ j, j < m → (l.foldl (fun s r => List.zipWith (· + ·) s (perm.getD r [])) acc).getD j 0 =
        acc.getD j 0 + (l.map (fun r => (perm.getD r []).getD j 0)).sum
  | [], acc => by
    intro hacc _
    exact ⟨hacc, fun j _ => by simp⟩
  | r :: t, acc => by
    intro hacc hmem
    have hr : (perm.getD r []).length = m := hmem r (by simp)
    have hstep : (List.zipWith (· + ·) acc (perm.getD r [])).length = m := by
      rw [List.length_zipWith, hacc, hr]
      omega
    obtain ⟨hlen, hget⟩ := fold_zip_add_spec perm m t (List.zipWith (· + ·) acc (perm.getD r []))
      hstep (fun x hx => hmem x (by simp [hx]))
    refine ⟨hlen, ?_⟩
    intro j hj
    rw [List.foldl_cons, hget j hj,
      zipWith_add_getD acc (perm.getD r []) j (by omega) (by omega)]
    rw [List.map_cons, List.sum_cons]
    ring

theorem reduce_spec (perm : List (List ℚ)) (n m c : ℕ)
    (hrl : ∀ i, i < n * c → (perm.getD i []).length = m) :
    (reduce perm n m c).length = n ∧
    (∀ a, a < n → ((reduce perm n m c).getD a []).length = m) ∧
    (∀ a, a < n → ∀ j, j < m →
      ent (reduce perm n m c) a j = ∑ rep ∈ Finset.range c, ent perm (a * c + rep) j) := by
  have hrow : ∀ a, a < n → (reduce perm n m c).getD a [] =
      (List.range c).foldl
        (fun s rep => List.zipWith (· + ·) s (perm.getD (a * c + rep) []))
        (List.replicate m 0) := by
    intro a ha
    rw [reduce]
    exact getD_map_range n a _ [] ha
  have key : ∀ a, a < n →
      ((List.range c).foldl
        (fun s rep => List.zipWith (· + ·) s (perm.getD (a * c + rep) []))
        (List.replicate m 0)).length = m ∧
      ∀ j, j < m → ((List.range c).foldl
        (fun s rep => List.zipWith (· + ·) s (perm.getD (a * c + rep) []))
        (List.replicate m 0)).getD j 0 =
        ∑ rep ∈ Finset.range c, ent perm (a * c + rep) j := by
    intro a ha
    have hfm : (List.range c).foldl
        (fun s rep => List.zipWith (· + ·) s (perm.getD (a * c + rep) []))
        (List.replicate m 0) =
        ((List.range c).map (fun rep => a * c + rep)).foldl
          (fun s r => List.zipWith (· + ·) s (perm.getD r [])) (List.replicate m 0) := by
      rw [List.foldl_map]
    obtain ⟨hlen, hget⟩ := fold_zip_add_spec perm m ((List.range c).map (fun rep => a * c + rep))
      (List.replicate m 0) (by simp)
      (fun r hr => by
        obtain ⟨rep, hrep, rfl⟩ := List.mem_map.mp hr
        rw [List.mem_range] at hrep
        apply hrl
        have : a * c + rep < a * c + c := by omega
        have h2 : a * c + c ≤ n * c := by
          have : (a + 1) * c ≤ n * c := Nat.mul_le_mul_right c (by omega)
          calc a * c + c = (a + 1) * c := by ring
            _ ≤ n * c := this
        omega)
    rw [hfm]
    refine ⟨hlen, ?_⟩
    intro j hj
    rw [hget j hj, List.map_map]
    have hmap : ((List.range c).map ((fun r => (perm.getD r []).getD j 0) ∘
        (fun rep => a * c + rep))).sum =
        ∑ rep ∈ Finset.range c, (perm.getD (a * c + rep) []).getD j 0 :=
      sum_range_map _ c
    rw [hmap, getD_replicate _ _ _ _ hj]
    rw [zero_add]
    apply Finset.sum_congr rfl
    intro rep _
    rw [ent]
  refine ⟨by rw [reduce, List.length_map, List.length_range], ?_, ?_⟩
  · intro a ha
    rw [hrow a ha]
    exact (key a ha).1
  · intro a ha j hj
    rw [ent, hrow a ha]
    exact (key a ha).2 j hj

/-- One round of the `decompose` while loop: the matcher finds a perfect
matching, the minimum matched entry is positive, subtracting it preserves
scaled double stochasticity, the positive-entry count strictly decreases and
is tracked exactly by the `non_zero` counter, and the extracted assignment
accounts for the removed mass block by block. -/
theorem decompose_round (n c m : ℕ) (hn : 1 ≤ n) (hc : 1 ≤ c) (hm : m ≤ n * c)
    (alloc : List (List ℚ)) (σ : ℚ) (hds : DS σ alloc (n * c))
    (hpos : 0 < posCount alloc) :
    ∃ mv disc al2 nz2,
      minOnMatch alloc (hopcroft_karp alloc (n * c)) (n * c) = some mv ∧
      updateLoop mv (hopcroft_karp alloc (n * c)) (n * c) m alloc (posCount alloc : ℤ) =
        some (disc, al2, nz2) ∧
      0 < mv ∧
      DS (σ - mv) al2 (n * c) ∧
      nz2 = (posCount al2 : ℤ) ∧
      posCount al2 < posCount alloc ∧
      disc.length = n * c ∧
      (∀ i, i < n * c → (disc.getD i []).length = m ∧
        ∀ j, j < m → ent disc i j = 0 ∨ ent disc i j = 1) ∧
      (∀ a, a < n → ∀ j, j < m →
        (∑ rep ∈ Finset.range c, ent disc (a * c + rep) j = 0 ∨
         ∑ rep ∈ Finset.range c, ent disc (a * c + rep) j = 1)) ∧
      (∀ a, a < n → ∀ j, j < m →
        ∑ rep ∈ Finset.range c, ent alloc (a * c + rep) j =
          mv * (∑ rep ∈ Finset.range c, ent disc (a * c + rep) j) +
            ∑ rep ∈ Finset.range c, ent al2 (a * c + rep) j) := by
  obtain ⟨⟨halen, harl'⟩, hnn, hrowsum, hcolsum⟩ := hds
  set k := n * c with hkd
  have hk1 : 1 ≤ k := by
    rw [hkd]
    exact Nat.one_le_iff_ne_zero.mpr (Nat.mul_ne_zero (by omega) (by omega))
  have harl : ∀ i, i < k → (alloc.getD i []).length = k := fun i hi =>
    harl' _ (getD_mem alloc i [] (by omega))
  have hentnn : ∀ i j : ℕ, i < k → j < k → 0 ≤ ent alloc i j := by
    intro i j hi hj
    apply ent_nonneg alloc hnn i j (by omega)
    rw [harl i hi]
    exact hj
  have hσ : 0 < σ := by
    have hex : ∃ row ∈ alloc, 0 < row.countP (fun v => decide (0 < v)) := by
      by_contra hcon
      push_neg at hcon
      have hz : posCount alloc = 0 := by
        rw [posCount]
        apply List.sum_eq_zero
        intro x hx
        obtain ⟨row, hrow, rfl⟩ := List.mem_map.mp hx
        have := hcon row hrow
        omega
      omega
    obtain ⟨row, hrow, hcp⟩ := hex
    obtain ⟨v, hv, hpv⟩ := List.countP_pos.mp hcp
    have h0v : 0 < v := of_decide_eq_true hpv
    have hvs : v ≤ row.sum := List.single_le_sum (fun x hx => hnn row hrow x hx) v hv
    rw [hrowsum row hrow] at hvs
    linarith
  have hpm : ExistsPM alloc k :=
    DS_existsPM σ alloc k ⟨⟨halen, harl'⟩, hnn, hrowsum, hcolsum⟩ hσ
  obtain ⟨houtlen, hmatched, hinj, hsurj⟩ := hopcroft_karp_perfect alloc k hpm
  set out := hopcroft_karp alloc k with houtd
  have hmtch : ∀ u, u < k → ∃ j, j < k ∧ out.getD u 0 = (j : ℤ) := by
    intro u hu
    obtain ⟨j, hj, hje, _⟩ := hmatched u hu
    exact ⟨j, hj, hje⟩
  have htn : ∀ u, u < k → ∀ j, j < k → out.getD u 0 = (j : ℤ) →
      (out.getD u 0).toNat = j := by
    intro u _ j _ hje
    rw [hje, Int.toNat_natCast]
  have hju : ∀ u, u < k → (out.getD u 0).toNat < k := by
    intro u hu
    obtain ⟨j, hj, hje⟩ := hmtch u hu
    rw [htn u hu j hj hje]
    exact hj
  obtain ⟨mv, hmv, hmvle, ustar, hustar, hmveq⟩ :=
    minOnMatch_spec alloc out k hk1 halen harl hmtch
  have hment : ∀ u, u < k → 0 < ent alloc u (out.getD u 0).toNat := by
    intro u hu
    obtain ⟨j, hj, hje, hsup⟩ := hmatched u hu
    rw [htn u hu j hj hje]
    exact hsup
  have hmvpos : 0 < mv := by
    rw [hmveq]
    exact hment ustar hustar
  obtain ⟨disc, al2, nz2, hupd, hdlen, hallen2, hrows2, hnz2⟩ :=
    updateLoop_spec mv out k m alloc (posCount alloc : ℤ) hmtch halen harl
  have hal2row : ∀ i, i < k → al2.getD i [] = (alloc.getD i []).set (out.getD i 0).toNat
      ((alloc.getD i []).getD (out.getD i 0).toNat 0 - mv) := fun i hi => (hrows2 i hi).2
  have hal2len : ∀ i, i < k → (al2.getD i []).length = k := by
    intro i hi
    rw [hal2row i hi, List.length_set]
    exact harl i hi
  have hal2ent : ∀ i, i < k → ∀ j, j < k →
      ent al2 i j = ent alloc i j - (if (out.getD i 0).toNat = j then mv else 0) := by
    intro i hi j hj
    rw [ent, hal2row i hi]
    by_cases hij : (out.getD i 0).toNat = j
    · rw [hij, getD_set_self (alloc.getD i []) j ((alloc.getD i []).getD j 0 - mv) 0
        (by rw [harl i hi]; exact hj), if_pos rfl, ent]
    · rw [getD_set_ne (alloc.getD i []) _ j _ 0 hij, if_neg hij, ent]
      ring
  have hdiscrow : ∀ i, i < k → disc.getD i [] = (if (out.getD i 0).toNat < m
      then (List.replicate m (0 : ℚ)).set (out.getD i 0).toNat 1
      else List.replicate m (0 : ℚ)) := fun i hi => (hrows2 i hi).1
  have hdisclen : ∀ i, i < k → (disc.getD i []).length = m := by
    intro i hi
    rw [hdiscrow i hi]
    split_ifs
    · rw [List.length_set, List.length_replicate]
    · rw [List.length_replicate]
  have hdiscent : ∀ i, i < k → ∀ j, j < m →
      ent disc i j = (if (out.getD i 0).toNat = j then 1 else 0) := by
    intro i hi j hj
    rw [ent, hdiscrow i hi]
    by_cases hij : (out.getD i 0).toNat = j
    · rw [hij, if_pos (show j < m from by omega)]
      rw [getD_set_self _ _ _ _ (by rw [List.length_replicate]; exact hj), if_pos rfl]
    · rw [if_neg hij]
      split_ifs with hlt
      · rw [getD_set_ne _ _ _ _ _ hij, getD_replicate _ _ _ _ hj]
      · rw [getD_replicate _ _ _ _ hj]
  have hhit : ∀ j, j < k → ∃! i, i < k ∧ (out.getD i 0).toNat = j := by
    intro j hj
    obtain ⟨u, hu, hue⟩ := hsurj j hj
    refine ⟨u, ⟨hu, htn u hu j hj hue⟩, ?_⟩
    intro i hip
    obtain ⟨hi, hie⟩ := hip
    apply hinj i u hi hu
    obtain ⟨ji, hji, hjie⟩ := hmtch i hi
    rw [htn i hi ji hji hjie] at hie
    rw [hjie, hue]
    exact_mod_cast hie
  have hbound : ∀ a, a < n → ∀ rep, rep < c → a * c + rep < k := by
    intro a ha rep hrep
    have h2 : (a + 1) * c ≤ n * c := Nat.mul_le_mul_right c (by omega)
    have h3 : a * c + rep < (a + 1) * c := by
      have : (a + 1) * c = a * c + c := by ring
      omega
    rw [hkd]
    omega
  -- counting facts
  have hcnt : posCount al2 + ((List.range k).countP (fun i =>
      decide ((alloc.getD i []).getD (out.getD i 0).toNat 0 - mv = 0))) = posCount alloc := by
    rw [posCount_eq_sum al2 k hallen2, posCount_eq_sum alloc k halen, countP_range_eq_sum,
      ← Finset.sum_add_distrib]
    apply Finset.sum_congr rfl
    intro i hi
    rw [Finset.mem_range] at hi
    have hjt := hju i hi
    have hset := countP_set_q (fun v => decide (0 < v)) (alloc.getD i [])
      (out.getD i 0).toNat ((alloc.getD i []).getD (out.getD i 0).toNat 0 - mv)
      (by rw [harl i hi]; exact hjt)
    rw [hal2row i hi]
    set e := (alloc.getD i []).getD (out.getD i 0).toNat 0 with hed
    have hepos : 0 < e := hment i hi
    have hemv : 0 ≤ e - mv := by
      have := hmvle i hi
      have hee : mv ≤ e := this
      linarith
    by_cases hz : e - mv = 0
    · have h2 : ¬ (0 < e - mv) := by
        rw [hz]
        exact lt_irrefl 0
      simp [hepos, hz, h2] at hset ⊢
      omega
    · have h2 : 0 < e - mv := lt_of_le_of_ne hemv (Ne.symm hz)
      simp [hepos, hz, h2] at hset ⊢
      omega
  have hhitpos : 0 < (List.range k).countP (fun i =>
      decide ((alloc.getD i []).getD (out.getD i 0).toNat 0 - mv = 0)) := by
    apply List.countP_pos.mpr
    refine ⟨ustar, List.mem_range.mpr hustar, ?_⟩
    apply decide_eq_true
    exact sub_eq_zero_of_eq hmveq.symm
  have hnzeq : nz2 = (posCount al2 : ℤ) := by
    rw [hnz2]
    omega
  have hdec : posCount al2 < posCount alloc := by omega
  -- the new matrix is scaled doubly stochastic
  have hds2 : DS (σ - mv) al2 k := by
    refine ⟨⟨hallen2, ?_⟩, ?_, ?_, ?_⟩
    · intro row hrow
      rw [List.mem_iff_getElem] at hrow
      obtain ⟨i, hi, hie⟩ := hrow
      have hrd : row = al2.getD i [] := by
        rw [List.getD_eq_getElem al2 [] hi]
        exact hie.symm
      rw [hrd]
      exact hal2len i (by omega)
    · intro row hrow v hv
      rw [List.mem_iff_getElem] at hrow
      obtain ⟨i, hi, hie⟩ := hrow
      have hik : i < k := by omega
      have hrd : row = al2.getD i [] := by
        rw [List.getD_eq_getElem al2 [] hi]
        exact hie.symm
      rw [hrd] at hv
      rw [List.mem_iff_getElem] at hv
      obtain ⟨x, hx, hxe⟩ := hv
      have hxk : x < k := by
        have := hal2len i hik
        omega
      have hvd : v = ent al2 i x := by
        rw [← hxe, ent, List.getD_eq_getElem _ 0 hx]
      rw [hvd, hal2ent i hik x hxk]
      by_cases hij : (out.getD i 0).toNat = x
      · rw [if_pos hij]
        have hle2 := hmvle i hik
        rw [hij] at hle2
        linarith
      · rw [if_neg hij]
        have := hentnn i x hik hxk
        linarith
    · intro row hrow
      rw [List.mem_iff_getElem] at hrow
      obtain ⟨i, hi, hie⟩ := hrow
      have hik : i < k := by omega
      have hrd : row = al2.getD i [] := by
        rw [List.getD_eq_getElem al2 [] hi]
        exact hie.symm
      rw [hrd, hal2row i hik,
        sum_set_q _ _ _ (by rw [harl i hik]; exact hju i hik)]
      rw [hrowsum _ (getD_mem alloc i [] (by omega))]
      ring
    · intro j hj
      rw [colSum_eq_sum al2 k j hallen2]
      have hsum : ∑ i ∈ Finset.range k, ent al2 i j =
          ∑ i ∈ Finset.range k,
            (ent alloc i j - (if (out.getD i 0).toNat = j then mv else 0)) := by
        apply Finset.sum_congr rfl
        intro i hi
        rw [Finset.mem_range] at hi
        exact hal2ent i hi j hj
      rw [hsum, Finset.sum_sub_distrib, ← colSum_eq_sum alloc k j halen, hcolsum j hj]
      have hind : ∑ i ∈ Finset.range k,
          (if (out.getD i 0).toNat = j then mv else 0) = mv := by
        obtain ⟨i0, hi0p, huniq⟩ := hhit j hj
        obtain ⟨hi0, hi0e⟩ := hi0p
        rw [Finset.sum_eq_single i0]
        · rw [if_pos hi0e]
        · intro b hb hbne
          rw [Finset.mem_range] at hb
          rw [if_neg]
          intro hbe
          exact hbne (huniq b ⟨hb, hbe⟩)
        · intro hnotin
          exact absurd (Finset.mem_range.mpr hi0) hnotin
      rw [hind]
  -- disc row properties
  have hdiscprops : ∀ i, i < k → (disc.getD i []).length = m ∧
      ∀ j, j < m → ent disc i j = 0 ∨ ent disc i j = 1 := by
    intro i hi
    refine ⟨hdisclen i hi, ?_⟩
    intro j hj
    rw [hdiscent i hi j hj]
    split_ifs
    · right
      rfl
    · left
      rfl
  -- block indicator sums are 0 or 1
  have hblock01 : ∀ a, a < n → ∀ j, j < m →
      (∑ rep ∈ Finset.range c, ent disc (a * c + rep) j = 0 ∨
       ∑ rep ∈ Finset.range c, ent disc (a * c + rep) j = 1) := by
    intro a ha j hj
    have hjk : j < k := by omega
    have hsum : ∑ rep ∈ Finset.range c, ent disc (a * c + rep) j =
        ∑ rep ∈ Finset.range c,
          (if (out.getD (a * c + rep) 0).toNat = j then (1 : ℚ) else 0) := by
      apply Finset.sum_congr rfl
      intro rep hrep
      rw [Finset.mem_range] at hrep
      exact hdiscent _ (hbound a ha rep hrep) j hj
    by_cases hex : ∃ rep, rep < c ∧ (out.getD (a * c + rep) 0).toNat = j
    · obtain ⟨r0, hr0, hr0e⟩ := hex
      right
      rw [hsum, Finset.sum_eq_single r0]
      · rw [if_pos hr0e]
      · intro b hb hbne
        rw [Finset.mem_range] at hb
        rw [if_neg]
        intro hbe
        obtain ⟨i0, hi0p, huniq⟩ := hhit j hjk
        have h1 := huniq (a * c + b) ⟨hbound a ha b hb, hbe⟩
        have h2 := huniq (a * c + r0) ⟨hbound a ha r0 hr0, hr0e⟩
        omega
      · intro hnotin
        exact absurd (Finset.mem_range.mpr hr0) hnotin
    · left
      push_neg at hex
      rw [hsum]
      apply Finset.sum_eq_zero
      intro rep hrep
      rw [Finset.mem_range] at hrep
      rw [if_neg (hex rep hrep)]
  -- block mass accounting
  have hacct : ∀ a, a < n → ∀ j, j < m →
      ∑ rep ∈ Finset.range c, ent alloc (a * c + rep) j =
        mv * (∑ rep ∈ Finset.range c, ent disc (a * c + rep) j) +
          ∑ rep ∈ Finset.range c, ent al2 (a * c + rep) j := by
    intro a ha j hj
    have hjk : j < k := by omega
    rw [Finset.mul_sum, ← Finset.sum_add_distrib]
    apply Finset.sum_congr rfl
    intro rep hrep
    rw [Finset.mem_range] at hrep
    have hik := hbound a ha rep hrep
    rw [hal2ent _ hik j hjk, hdiscent _ hik j hj]
    by_cases hij : (out.getD (a * c + rep) 0).toNat = j
    · rw [if_pos hij, if_pos hij]
      ring
    · rw [if_neg hij, if_neg hij]
      ring
  exact ⟨mv, disc, al2, nz2, hmv, hupd, hmvpos, hds2, hnzeq, hdec, hdlen, hdiscprops,
    hblock01, hacct⟩

theorem ent_zero_of_all_zero (a : List (List ℚ)) (hz : ∀ row ∈ a, ∀ v ∈ row, v = 0)
    (i j : ℕ) : ent a i j = 0 := by
  rw [ent]
  by_cases hi : i < a.length
  · by_cases hj : j < (a.getD i []).length
    · exact hz _ (getD_mem a i [] hi) _ (getD_mem _ j 0 hj)
    · rw [List.getD_eq_default (a.getD i []) 0 (show (a.getD i []).length ≤ j by omega)]
  · rw [List.getD_eq_default a [] (show a.length ≤ i by omega)]
    rfl

/-- The fueled `decompose` while loop: on a scaled doubly stochastic matrix
with the `non_zero` counter equal to the positive-entry count and enough
fuel, it terminates with positive weights summing to the scale, 0/1 reduced
assignments of shape `n × m`, and exact block-mass accounting. -/
theorem decomposeAux_spec (n c m : ℕ) (hn : 1 ≤ n) (hc : 1 ≤ c) (hm : m ≤ n * c) :
    ∀ (fuel : ℕ) (alloc : List (List ℚ)) (σ : ℚ),
      DS σ alloc (n * c) →
      posCount alloc < fuel →
      ∃ dec, decomposeAux n c m fuel alloc (posCount alloc : ℤ) = some dec ∧
        (∀ p ∈ dec, 0 < p.1) ∧
        (dec.map Prod.fst).sum = σ ∧
        (∀ p ∈ dec, p.2.length = n ∧ (∀ row ∈ p.2, row.length = m) ∧
          (∀ row ∈ p.2, ∀ v ∈ row, v = 0 ∨ v = 1)) ∧
        (∀ a, a < n → ∀ j, j < m →
          (dec.map (fun p => p.1 * ent p.2 a j)).sum =
            ∑ rep ∈ Finset.range c, ent alloc (a * c + rep) j)
  | 0, alloc, σ => by
    intro _ hf
    omega
  | fuel + 1, alloc, σ => by
    intro hds hf
    by_cases hz : posCount alloc = 0
    · have hzero : ∀ row ∈ alloc, ∀ v ∈ row, v = 0 :=
        posCount_zero_entries alloc hds.2.1 hz
      have hσ0 : σ = 0 := by
        obtain ⟨⟨hlen, hrl⟩, hnn, hrow, hcol⟩ := hds
        have hk1 : 1 ≤ n * c :=
          Nat.one_le_iff_ne_zero.mpr (Nat.mul_ne_zero (by omega) (by omega))
        have hr0 : alloc.getD 0 [] ∈ alloc := getD_mem alloc 0 [] (by omega)
        rw [← hrow _ hr0]
        exact sum_eq_zero_sum_q _ (fun v hv => hzero _ hr0 v hv)
      refine ⟨[], ?_, by simp, by simp [hσ0], by simp, ?_⟩
      · simp [decomposeAux, hz]
      · intro a ha j hj
        simp only [List.map_nil, List.sum_nil]
        symm
        apply Finset.sum_eq_zero
        intro rep _
        exact ent_zero_of_all_zero alloc hzero _ j
    · have hpos : 0 < posCount alloc := Nat.pos_of_ne_zero hz
      obtain ⟨mv, disc, al2, nz2, hmv, hupd, hmvpos, hds2, hnzeq, hdec2, hdlen, hdiscprops,
        hblock01, hacct⟩ := decompose_round n c m hn hc hm alloc σ hds hpos
      obtain ⟨dec, hrun, hwpos, hwsum, hshape, hweighted⟩ :=
        decomposeAux_spec n c m hn hc hm fuel al2 (σ - mv) hds2 (by omega)
      obtain ⟨hredlen, hredrow, hredent⟩ :=
        reduce_spec disc n m c (fun i hi => (hdiscprops i hi).1)
      refine ⟨(mv, reduce disc n m c) :: dec, ?_, ?_, ?_, ?_, ?_⟩
      · have hne : ¬ ((posCount alloc : ℤ) = 0) := by
          intro h
          exact hz (by exact_mod_cast h)
        rw [decomposeAux, if_neg hne]
        dsimp only
        rw [hmv]
        simp only [Option.bind_eq_bind, Option.some_bind]
        rw [hupd]
        simp only [Option.bind_eq_bind, Option.some_bind]
        rw [hnzeq, hrun]
        simp only [Option.bind_eq_bind, Option.some_bind, Option.pure_def]
      · intro p hp
        rcases List.mem_cons.mp hp with rfl | hp2
        · exact hmvpos
        · exact hwpos p hp2
      · rw [List.map_cons, List.sum_cons, hwsum]
        ring
      · intro p hp
        rcases List.mem_cons.mp hp with rfl | hp2
        · dsimp only
          refine ⟨hredlen, ?_, ?_⟩
          · intro row hrow2
            rw [List.mem_iff_getElem] at hrow2
            obtain ⟨a, haa, hae⟩ := hrow2
            have han : a < n := by omega
            have hrd : row = (reduce disc n m c).getD a [] := by
              rw [List.getD_eq_getElem _ [] haa]
              exact hae.symm
            rw [hrd]
            exact hredrow a han
          · intro row hrow2 v hv
            rw [List.mem_iff_getElem] at hrow2
            obtain ⟨a, haa, hae⟩ := hrow2
            have han : a < n := by omega
            have hrd : row = (reduce disc n m c).getD a [] := by
              rw [List.getD_eq_getElem _ [] haa]
              exact hae.symm
            rw [hrd] at hv
            rw [List.mem_iff_getElem] at hv
            obtain ⟨x, hx, hxe⟩ := hv
            have hxm : x < m := by
              have := hredrow a han
              omega
            have hvd : v = ent (reduce disc n m c) a x := by
              rw [← hxe, ent, List.getD_eq_getElem _ 0 hx]
            rw [hvd, hredent a han x hxm]
            exact hblock01 a han x hxm
        · exact hshape p hp2
      · intro a ha j hj
        rw [List.map_cons, List.sum_cons, hweighted a ha j hj, hacct a ha j hj]
        rw [hredent a ha j hj]

theorem sum_map_add_nat {α : Type*} (f g : α → ℕ) :
    ∀ l : List α, (l.map f).sum + (l.map g).sum = (l.map (fun x => f x + g x)).sum
  | [] => rfl
  | x :: t => by
    simp only [List.map_cons, List.sum_cons]
    have := sum_map_add_nat f g t
    omega

/-- The initial `non_zero` counter equals the positive-entry count on a
non-negative `(nc) × (nc)` matrix. -/
theorem initNZ_eq_posCount (alloc : List (List ℚ)) (n c : ℕ)
    (hlen : alloc.length = n * c) (hrl : ∀ row ∈ alloc, row.length = n * c)
    (hnn : NonnegM alloc) :
    initNZ alloc n c = (posCount alloc : ℤ) := by
  have hrow : ∀ row ∈ alloc, row.countP (fun v => decide (v = 0)) +
      row.countP (fun v => decide (0 < v)) = n * c := by
    intro row hrowm
    have h1 : row.countP (fun v => decide (0 < v)) =
        row.countP (fun v => !(decide (v = 0))) := by
      apply List.countP_congr
      intro v hv
      have hnv := hnn row hrowm v hv
      by_cases hv0 : v = 0
      · simp [hv0]
      · have hpv : 0 < v := lt_of_le_of_ne hnv (Ne.symm hv0)
        simp [hv0, hpv]
    rw [h1]
    have h2 := List.length_eq_countP_add_countP (fun v => decide (v = 0)) row
    rw [hrl row hrowm] at h2
    have h3 : row.countP (fun a => decide (¬ decide (a = 0) = true)) =
        row.countP (fun v => !(decide (v = 0))) := by
      apply List.countP_congr
      intro v _
      by_cases hv0 : v = 0
      · simp [hv0]
      · simp [hv0]
    omega
  have htot : (alloc.map (fun row => row.countP (fun v => decide (v = 0)))).sum +
      posCount alloc = n * n * c * c := by
    rw [posCount, sum_map_add_nat]
    have hconst : alloc.map (fun row => row.countP (fun v => decide (v = 0)) +
        row.countP (fun v => decide (0 < v))) =
        alloc.map (fun _ => n * c) := by
      apply List.map_congr_left
      intro row hrowm
      exact hrow row hrowm
    rw [hconst]
    have : (alloc.map (fun _ => n * c)).sum = alloc.length * (n * c) := by
      rw [List.map_const', List.sum_replicate, smul_eq_mul]
    rw [this, hlen]
    ring
  rw [initNZ]
  omega

/-- `decompose` on a scaled doubly stochastic `(nc) × (nc)` matrix: it
terminates and returns positive weights summing to the scale, 0/1 reduced
`n × m` assignments, and the weighted assignment sums reconstruct the block
sums of the input exactly. -/
theorem decompose_main (n c m : ℕ) (hn : 1 ≤ n) (hc : 1 ≤ c) (hm : m ≤ n * c)
    (alloc : List (List ℚ)) (σ : ℚ) (hds : DS σ alloc (n * c)) :
    ∃ dec, decompose alloc n c m = some dec ∧
      (∀ p ∈ dec, 0 < p.1) ∧
      (dec.map Prod.fst).sum = σ ∧
      (∀ p ∈ dec, p.2.length = n ∧ (∀ row ∈ p.2, row.length = m) ∧
        (∀ row ∈ p.2, ∀ v ∈ row, v = 0 ∨ v = 1)) ∧
      (∀ a, a < n → ∀ j, j < m →
        (dec.map (fun p => p.1 * ent p.2 a j)).sum =
          ∑ rep ∈ Finset.range c, ent alloc (a * c + rep) j) := by
  have hinit : initNZ alloc n c = (posCount alloc : ℤ) :=
    initNZ_eq_posCount alloc n c hds.1.1 hds.1.2 hds.2.1
  rw [decompose, hinit, Int.toNat_natCast]
  exact decomposeAux_spec n c m hn hc hm (posCount alloc + 1) alloc σ hds (by omega)

/-! ### Pipeline glue -/

/-- Shape facts about a successful `generate_prefs` run on a valid utility
matrix: the returned dimensions and the ordinal profile's validity. -/
theorem generate_prefs_valid (utils : List (List ℚ)) (hu : ValidUtils utils)
    (n m c : ℕ) (prefs : List (List ℕ))
    (h : generate_prefs utils = some (n, m, c, prefs)) :
    n = utils.length ∧ m = (utils.getD 0 []).length ∧
    1 ≤ n ∧ 1 ≤ m ∧ 1 ≤ c ∧ m ≤ c * n ∧ c * n < m + n ∧
    ValidPrefs n (c * n) prefs := by
  obtain ⟨hn1, hm1, hrect⟩ := hu
  cases utils with
  | nil => simp [generate_prefs] at h
  | cons l0 rest =>
    have hall : ∀ row ∈ l0 :: rest, row ≠ [] := by
      intro row hr hnil
      have := hrect row hr
      rw [hnil, List.length_nil] at this
      omega
    rcases hmo : mapOpt listMin (l0 :: rest) with _ | mins
    · exfalso
      have hs : (mapOpt listMin (l0 :: rest)).isSome := by
        rw [mapOpt_isSome_iff]
        intro r hr
        rw [listMin_isSome_iff]
        exact hall r hr
      rw [hmo] at hs
      simp at hs
    · have hminslen : mins.length = (l0 :: rest).length :=
        (List.Forall₂.length_eq ((mapOpt_eq_some_iff listMin (l0 :: rest) mins).mp hmo)).symm
      rcases hlm : listMin mins with _ | minU
      · exfalso
        have hne : mins ≠ [] := by
          intro hx
          rw [hx] at hminslen
          simp at hminslen
        have hs := (listMin_isSome_iff mins).mpr hne
        rw [hlm] at hs
        simp at hs
      · rw [generate_prefs, hmo] at h
        simp only [Option.bind_eq_bind, Option.some_bind] at h
        rw [hlm] at h
        simp only [Option.bind_eq_bind, Option.some_bind, Option.pure_def,
          Option.some.injEq, Prod.mk.injEq] at h
        obtain ⟨hN, hM, hC, hP⟩ := h
        have hmle : l0.length ≤ (l0.length + (l0 :: rest).length - 1) / (l0 :: rest).length *
            (l0 :: rest).length :=
          (ceil_div_bounds l0.length (l0 :: rest).length (by simp)).1
        have hmlt : (l0.length + (l0 :: rest).length - 1) / (l0 :: rest).length *
            (l0 :: rest).length < l0.length + (l0 :: rest).length :=
          (ceil_div_bounds l0.length (l0 :: rest).length (by simp)).2
        have hm0 : 1 ≤ l0.length := by simpa using hm1
        have hc1 : 1 ≤ (l0.length + (l0 :: rest).length - 1) / (l0 :: rest).length := by
          rcases Nat.eq_zero_or_pos ((l0.length + (l0 :: rest).length - 1) /
            (l0 :: rest).length) with h0 | h0
          · rw [h0, Nat.zero_mul] at hmle
            omega
          · exact h0
        subst hN
        subst hM
        subst hC
        subst hP
        refine ⟨rfl, by simp, by simp, hm0, hc1, hmle, hmlt, by simp, ?_⟩
        intro row hrow
        rw [List.mem_map] at hrow
        obtain ⟨la, hla, rfl⟩ := hrow
        have hlal : la.length = l0.length := hrect la hla
        set t := (l0.length + (l0 :: rest).length - 1) / (l0 :: rest).length *
          (l0 :: rest).length with htd
        set xs := la ++ List.replicate (t - l0.length) (minU - 1) with hxsd
        have hxslen : xs.length = t := by
          rw [hxsd, List.length_append, hlal, List.length_replicate]
          omega
        have hperm0 : ((xs.zip (List.range t)).insertionSort prefRel).Perm
            (xs.zip (List.range t)) := List.perm_insertionSort prefRel _
        have hsndzip : (xs.zip (List.range t)).map Prod.snd = List.range t :=
          List.map_snd_zip xs (List.range t) (by simp [hxslen])
        show (rankRow t xs).Perm (List.range t)
        rw [rankRow]
        have hmapped := hperm0.map Prod.snd
        rw [hsndzip] at hmapped
        exact hmapped

/-- The sum of one agent's block of representative rows at one column, as a
`Finset` sum of matrix entries. -/
theorem block_sum_eq (res : List (List ℚ)) (d c x : ℕ) (h : d + c ≤ res.length) :
    (((res.drop d).take c).map (fun s => s.getD x 0)).sum =
      ∑ rep ∈ Finset.range c, ent res (d + rep) x := by
  rw [list_sum_getD]
  have hlen : (((res.drop d).take c).map (fun s => s.getD x 0)).length = c := by
    rw [List.length_map, List.length_take, List.length_drop]
    omega
  rw [hlen]
  apply Finset.sum_congr rfl
  intro rep hrep
  rw [Finset.mem_range] at hrep
  have h1 : rep < (((res.drop d).take c).map (fun s => s.getD x 0)).length := by omega
  have h2 : rep < ((res.drop d).take c).length := by
    rw [List.length_take, List.length_drop]
    omega
  have h4 : d + rep < res.length := by omega
  rw [List.getD_eq_getElem _ _ h1, List.getElem_map, List.getElem_take, List.getElem_drop,
    ent, List.getD_eq_getElem _ _ h4]

/-! ### C1: full pipeline correctness of the decomposition -/

/-- C1: on every valid utility matrix (`n ≥ 1`, `m ≥ 1`, rectangular), the
sequence returned by `decompose` on the pipeline's representative allocation
consists of pairs of a positive rational weight and an `n × m` 0/1 matrix,
the weights sum to exactly 1, and for every agent and every real item column
(`< m`) the weighted sum of the assignment entries over the sequence equals
that agent's entry in the PS fractional allocation. -/
theorem decompose_pipeline_correct (utils : List (List ℚ)) (hu : ValidUtils utils)
    (n m c : ℕ) (prefs : List (List ℕ)) (psAlloc : List (List ℚ))
    (repAlloc : List (List ℚ)) (prefs2 : List (List ℕ)) (alloc2 : List (List ℚ))
    (h1 : generate_prefs utils = some (n, m, c, prefs))
    (h2 : run_ps n c prefs = some psAlloc)
    (h3 : representative prefs psAlloc n c = some (repAlloc, prefs2, alloc2)) :
    ∃ dec, decompose repAlloc n c m = some dec ∧
      (∀ p ∈ dec, 0 < p.1 ∧ p.2.length = n ∧ (∀ row ∈ p.2, row.length = m) ∧
        (∀ row ∈ p.2, ∀ v ∈ row, v = 0 ∨ v = 1)) ∧
      (dec.map Prod.fst).sum = 1 ∧
      (∀ a, a < n → ∀ j, j < m →
        (dec.map (fun p => p.1 * ent p.2 a j)).sum = ent psAlloc a j) := by
  obtain ⟨hN, hM, hn, hm1, hc, hmle, hmlt, hplen, hperm⟩ :=
    generate_prefs_valid utils hu n m c prefs h1
  obtain ⟨psA, hpsrun, hpl, hprl, hpnn, hpcol, hprow⟩ :=
    run_ps_main n c prefs hn ⟨hplen, hperm⟩
  rw [h2] at hpsrun
  have hpseq : psAlloc = psA := Option.some_inj.mp hpsrun
  subst hpseq
  obtain ⟨res, rp2, ra2, hreq, hreslen, hresrows, hblock, hcolpres, _, _⟩ :=
    representativeAux_spec prefs psAlloc (c * n) c (by rw [hplen, hpl])
      (fun row hr => ((hperm row hr).nodup_iff).mpr (List.nodup_range _))
      (fun row hr x hx => by
        have := (hperm row hr).mem_iff.mp hx
        simpa using this)
      hprl
      (fun row hr x hx => by
        rw [List.mem_iff_getElem] at hr
        obtain ⟨i, hi, hie⟩ := hr
        have hrd : row = psAlloc.getD i [] := by
          rw [List.getD_eq_getElem psAlloc [] hi]
          exact hie.symm
        rw [hrd]
        exact hpnn i (by omega) x hx)
      (fun i hi x hx hnx => by
        exfalso
        have hrm : prefs.getD i [] ∈ prefs := getD_mem prefs i [] hi
        exact hnx ((hperm _ hrm).mem_iff.mpr (by simpa using hx)))
      hprow
  rw [representative, hreq] at h3
  simp only [Option.some.injEq, Prod.mk.injEq] at h3
  obtain ⟨hres, _, _⟩ := h3
  subst hres
  have hmulc : c * n = n * c := Nat.mul_comm c n
  have hreslen2 : res.length = n * c := by
    rw [hreslen, hplen, hmulc]
  have hds : DS 1 res (n * c) := by
    refine ⟨⟨hreslen2, ?_⟩, ?_, ?_, ?_⟩
    · intro row hrow
      rw [(hresrows row hrow).1]
      exact hmulc
    · intro row hrow v hv
      rw [List.mem_iff_getElem] at hv
      obtain ⟨x, hx, hxe⟩ := hv
      have hxt : x < c * n := by
        have := (hresrows row hrow).1
        omega
      rw [← hxe, ← List.getD_eq_getElem row 0 hx]
      exact (hresrows row hrow).2.2 x hxt
    · intro row hrow
      exact (hresrows row hrow).2.1
    · intro j hj
      have hj2 : j < c * n := by
        rw [hmulc]
        exact hj
      rw [hcolpres j hj2]
      exact hpcol j hj2
  have hm2 : m ≤ n * c := by
    rw [hmulc] at hmle
    exact hmle
  obtain ⟨dec, hdec, hwpos, hwsum, hshape, hweighted⟩ :=
    decompose_main n c m hn hc hm2 res 1 hds
  refine ⟨dec, hdec, ?_, hwsum, ?_⟩
  · intro p hp
    exact ⟨hwpos p hp, (hshape p hp).1, (hshape p hp).2.1, (hshape p hp).2.2⟩
  · intro a ha j hj
    rw [hweighted a ha j hj]
    have hbd : c * a + c ≤ res.length := by
      have h2 : c * (a + 1) ≤ c * n := Nat.mul_le_mul_left c (by omega)
      have h3 : c * a + c = c * (a + 1) := by ring
      rw [hreslen, hplen]
      omega
    have hb := hblock a (by rw [hplen]; exact ha) j (by omega)
    rw [block_sum_eq res (c * a) c j hbd] at hb
    rw [← hb]
    apply Finset.sum_congr rfl
    intro rep _
    have hcomm : a * c + rep = c * a + rep := by ring
    rw [hcomm]

/-- C1 witness: the pipeline on the concrete utility matrix `[[1]]`
(`n = m = c = 1`, profile `[[0]]`, PS allocation `[[1]]`, representative
allocation `[[1]]`). -/
theorem decompose_pipeline_correct_witness :
    ∃ dec, decompose [[(1 : ℚ)]] 1 1 1 = some dec ∧
      (∀ p ∈ dec, 0 < p.1 ∧ p.2.length = 1 ∧ (∀ row ∈ p.2, row.length = 1) ∧
        (∀ row ∈ p.2, ∀ v ∈ row, v = 0 ∨ v = 1)) ∧
      (dec.map Prod.fst).sum = 1 ∧
      (∀ a, a < 1 → ∀ j, j < 1 →
        (dec.map (fun p => p.1 * ent p.2 a j)).sum = ent [[(1 : ℚ)]] a j) :=
  decompose_pipeline_correct [[(1 : ℚ)]] ⟨by norm_num, by norm_num, by decide⟩
    1 1 1 [[0]] [[(1 : ℚ)]] [[(1 : ℚ)]] [[]] [[(0 : ℚ)]]
    (by decide) (by decide) (by decide)

/-! ### C6: termination of the two main loops -/

/-- C6: both main loops terminate on every valid input. Each iteration of
`run_ps`'s while loop drives the remaining supply of at least one
currently-favoured item to exactly 0 (and that item is removed from every
preference list), so `run_ps` returns; and each iteration of `decompose`'s
while loop strictly decreases the count of strictly-positive matrix entries
by at least one, so `decompose` returns. -/
theorem loops_terminate
    (n t : ℕ) (prefs : List (List ℕ)) (objs : List ℚ) (alloc : List (List ℚ))
    (hn : 1 ≤ n) (hinv : PSInv n t prefs objs alloc) (hne : prefs.getD 0 [] ≠ [])
    (cp : ℕ) (prefsv : List (List ℕ)) (hvp : ValidPrefs n (cp * n) prefsv)
    (n2 c2 m2 : ℕ) (alloc2 : List (List ℚ)) (σ : ℚ)
    (hn2 : 1 ≤ n2) (hc2 : 1 ≤ c2) (hm2 : m2 ≤ n2 * c2)
    (hds : DS σ alloc2 (n2 * c2)) (hpos : 0 < posCount alloc2) :
    (∃ prefsx objs2 allocx, psStep prefs objs alloc = some (prefsx, objs2, allocx) ∧
      ∃ x0, x0 < t ∧ (∃ i, i < n ∧ (prefs.getD i []).head? = some x0) ∧
        objs2.getD x0 0 = 0 ∧ ∀ row ∈ prefsx, x0 ∉ row) ∧
    (∃ psA, run_ps n cp prefsv = some psA) ∧
    (∃ mv disc al2 nz2,
      minOnMatch alloc2 (hopcroft_karp alloc2 (n2 * c2)) (n2 * c2) = some mv ∧
      updateLoop mv (hopcroft_karp alloc2 (n2 * c2)) (n2 * c2) m2 alloc2
        (posCount alloc2 : ℤ) = some (disc, al2, nz2) ∧
      posCount al2 < posCount alloc2) ∧
    (∃ dec, decompose alloc2 n2 c2 m2 = some dec) := by
  refine ⟨?_, ?_, ?_, ?_⟩
  · obtain ⟨prefsx, objs2, allocx, hps, _, _, x0, hx0t, hx0fav, hx0z, hx0rem⟩ :=
      psStep_spec n t hn prefs objs alloc hinv hne
    exact ⟨prefsx, objs2, allocx, hps, x0, hx0t, hx0fav, hx0z, hx0rem⟩
  · obtain ⟨psA, hrun, _⟩ := run_ps_main n cp prefsv hn hvp
    exact ⟨psA, hrun⟩
  · obtain ⟨mv, disc, al2, nz2, hmv, hupd, _, _, _, hdec, _⟩ :=
      decompose_round n2 c2 m2 hn2 hc2 hm2 alloc2 σ hds hpos
    exact ⟨mv, disc, al2, nz2, hmv, hupd, hdec⟩
  · obtain ⟨dec, hdec, _⟩ := decompose_main n2 c2 m2 hn2 hc2 hm2 alloc2 σ hds
    exact ⟨dec, hdec⟩

/-- C6 witness: the termination theorem at concrete loop states: a PS round
on `prefs = [[0,1]]`, `objs = [1,1]` (the round exhausts item 0), the full
`run_ps` on `[[0]]`, and a decompose round on the matrix `[[1]]`. -/
theorem loops_terminate_witness :
    ((∃ prefsx objs2 allocx,
        psStep [[0, 1]] [(1 : ℚ), 1] [[(0 : ℚ), 0]] = some (prefsx, objs2, allocx) ∧
        ∃ x0, x0 < 2 ∧ (∃ i, i < 1 ∧ (([[0, 1]] : List (List ℕ)).getD i []).head? = some x0) ∧
          objs2.getD x0 0 = 0 ∧ ∀ row ∈ prefsx, x0 ∉ row) ∧
      (∃ psA, run_ps 1 1 [[0]] = some psA) ∧
      (∃ mv disc al2 nz2,
        minOnMatch [[(1 : ℚ)]] (hopcroft_karp [[(1 : ℚ)]] (1 * 1)) (1 * 1) = some mv ∧
        updateLoop mv (hopcroft_karp [[(1 : ℚ)]] (1 * 1)) (1 * 1) 1 [[(1 : ℚ)]]
          (posCount [[(1 : ℚ)]] : ℤ) = some (disc, al2, nz2) ∧
        posCount al2 < posCount [[(1 : ℚ)]]) ∧
      (∃ dec, decompose [[(1 : ℚ)]] 1 1 1 = some dec)) :=
  loops_terminate 1 2 [[0, 1]] [(1 : ℚ), 1] [[(0 : ℚ), 0]] (by norm_num)
    (by refine ⟨by norm_num, by norm_num, by norm_num, ?_, ?_, ?_, ?_, ?_, ?_, ?_, ?_⟩ <;>
      decide)
    (by decide) 1 [[0]] ⟨by norm_num, by decide⟩ 1 1 1 [[(1 : ℚ)]] 1 (by norm_num)
    (by norm_num) (by norm_num)
    ⟨⟨by norm_num, by decide⟩,
      (by
        intro row hr v hv
        simp at hr
        rw [hr] at hv
        simp at hv
        rw [hv]
        norm_num),
      by decide, by decide⟩ (by decide)

/-! ### C7: behaviour of the matcher without a perfect matching -/

/-- C7 counterexample: the code contains no `InternalInvariantViolation` and
raises nothing: on the support matrix `[[0]]`, which admits no perfect
matching, `hopcroft_karp` returns normally with the sentinel output `[-2]`. -/
theorem hopcroft_karp_no_error_cx :
    hopcroft_karp [[(0 : ℚ)]] 1 = [-2] ∧ ¬ ExistsPM [[(0 : ℚ)]] 1 := by
  constructor
  · decide
  · intro hpm
    obtain ⟨f, _, hsup⟩ := hpm
    have h := hsup 0
    have hlt := (f 0).isLt
    have hf : (f 0 : ℕ) = 0 := by omega
    rw [hf] at h
    exact absurd h (by decide)

/-- C7 (amended): when the support matrix admits no perfect matching the
matcher does not fail: `hopcroft_karp` still returns a length-`size` list,
and it marks some left vertex with the sentinel value `-1 - size` instead of
raising any error. -/
theorem hopcroft_karp_no_pm_sentinel (alloc : List (List ℚ)) (size : ℕ)
    (hno : ¬ ExistsPM alloc size) :
    (hopcroft_karp alloc size).length = size ∧
    ∃ u, u < size ∧ (hopcroft_karp alloc size).getD u 0 = -1 - size := by
  obtain ⟨hlen, _, hall⟩ := hopcroft_karp_out alloc size
  refine ⟨hlen, ?_⟩
  by_contra hcon
  push_neg at hcon
  apply hno
  apply hall
  intro u hu
  exact hcon u hu

/-- C7 amended-claim witness: the theorem applied to the concrete support
matrix `[[0]]` with `size = 1`. -/
theorem hopcroft_karp_no_pm_sentinel_witness :
    (hopcroft_karp [[(0 : ℚ)]] 1).length = 1 ∧
    ∃ u, u < 1 ∧ (hopcroft_karp [[(0 : ℚ)]] 1).getD u 0 = -1 - ((1 : ℕ) : ℤ) :=
  hopcroft_karp_no_pm_sentinel [[(0 : ℚ)]] 1 (by
    intro hpm
    obtain ⟨f, _, hsup⟩ := hpm
    have h := hsup 0
    have hlt := (f 0).isLt
    have hf : (f 0 : ℕ) = 0 := by omega
    rw [hf] at h
    exact absurd h (by decide))

/-! ### C10: the sentinel output and its use as an index -/

/-- C10: `hopcroft_karp` always returns normally (no error): a list of length
`size` in which every left vertex is either matched to an item index in
`[0, size)` or keeps the value `-1 - size`, a negative out-of-range index;
`decompose` then uses that value directly to index rows of the working
matrix, where (on any row of length `size`) the Python lookup raises
(`pyGet` returns `none`). -/
theorem hopcroft_karp_sentinel_out (alloc : List (List ℚ)) (size : ℕ) :
    (hopcroft_karp alloc size).length = size ∧
    (∀ u, u < size → (hopcroft_karp alloc size).getD u 0 = -1 - size ∨
      ∃ j, j < size ∧ (hopcroft_karp alloc size).getD u 0 = (j : ℤ)) ∧
    (∀ l : List ℚ, l.length = size → pyGet l (-1 - size) = none) := by
  obtain ⟨hlen, hentries, _⟩ := hopcroft_karp_out alloc size
  refine ⟨hlen, hentries, ?_⟩
  intro l hl
  rw [pyGet, hl]
  rw [if_neg (by omega), if_neg (by omega)]

/-- C10 witness: the theorem applied to the concrete support matrix `[[1]]`
with `size = 1` (where `hopcroft_karp` returns `[0]`). -/
theorem hopcroft_karp_sentinel_out_witness :
    (hopcroft_karp [[(1 : ℚ)]] 1).length = 1 ∧
    (∀ u, u < 1 → (hopcroft_karp [[(1 : ℚ)]] 1).getD u 0 = -1 - ((1 : ℕ) : ℤ) ∨
      ∃ j : ℕ, j < 1 ∧ (hopcroft_karp [[(1 : ℚ)]] 1).getD u 0 = (j : ℤ)) ∧
    (∀ l : List ℚ, l.length = 1 → pyGet l (-1 - ((1 : ℕ) : ℤ)) = none) :=
  hopcroft_karp_sentinel_out [[(1 : ℚ)]] 1

end Algo
